import Mathlib

/-! Natours: query translation and authentication gateway.

A shallow embedding of `utils/apifeatures.js`, `controllers/authController.js`,
`models/userModel.js` and the review route table, together with the properties
of the specification that concern them.

Conventions of the embedding

* A parsed query string (`req.query`) is a `QVal` object: strings, arrays and
  nested objects, the three shapes the query-string parser produces.  An object
  lists its members in enumeration order.
* `JSON.stringify`, the regular-expression replacement and `JSON.parse` of
  `APIFeatures.filter` are embedded on the text itself (`List Char`).
* JavaScript numbers are embedded as IEEE-754 doubles (`JSNum`), every finite
  double being the exact fraction `num / 2 ^ exp`.
* The mongoose query builder is an external collaborator: a `Query` records, per
  component, the arguments the builder methods were called with.
* Hashing, token signing and the document store are parameters (`Env`, lists of
  users).
-/

namespace Natours

/-! ## Query-string values -/

/-- A value inside `req.query`: a string, an array, or a nested object.  The members of an
object are listed in the order in which JavaScript enumerates them. -/
inductive QVal where
  | str (s : String)
  | arr (items : List QVal)
  | obj (members : List (String × QVal))

/-- Property read `o.k` on a parsed query object: the value of the own property `k`, or `none`
for `undefined`. -/
def getProp (k : String) : List (String × QVal) → Option QVal
  | [] => none
  | (k1, v) :: ms => if k1 = k then some v else getProp k ms

/-- The statement `delete o[k]`. -/
def deleteKey (k : String) (ms : List (String × QVal)) : List (String × QVal) :=
  ms.filter (fun m => m.1 != k)

/-- Assignment `o[k] = v` on an object: an existing property keeps its position and takes the
new value, a new property is appended. -/
def setMember (k : String) (v : QVal) : List (String × QVal) → List (String × QVal)
  | [] => [(k, v)]
  | (k1, v1) :: ms => if k1 = k then (k1, v) :: ms else (k1, v1) :: setMember k v ms

/-- The object obtained by defining the listed members one after the other. -/
def buildObject (ms : List (String × QVal)) : List (String × QVal) :=
  ms.foldl (fun o m => setMember m.1 m.2 o) []

/-! ## JSON.stringify -/

/-- Lower-case hexadecimal digit of a number below sixteen. -/
def hexDigit (n : Nat) : Char :=
  if n < 10 then Char.ofNat (48 + n) else Char.ofNat (87 + n)

/-- The text `JSON.stringify` writes for one character of a string (QuoteJSONString). -/
def escapeChar (c : Char) : List Char :=
  if c = '"' then ['\\', '"']
  else if c = '\\' then ['\\', '\\']
  else if c = '\x08' then ['\\', 'b']
  else if c = '\x0c' then ['\\', 'f']
  else if c = '\n' then ['\\', 'n']
  else if c = '\r' then ['\\', 'r']
  else if c = '\t' then ['\\', 't']
  else if c.toNat < 32 then
    ['\\', 'u', '0', '0', hexDigit (c.toNat / 16), hexDigit (c.toNat % 16)]
  else [c]

/-- The escaped body of a JSON string. -/
def escapeAll : List Char → List Char
  | [] => []
  | c :: cs => escapeChar c ++ escapeAll cs

/-- A JSON string literal: the escaped body between double quotes. -/
def quoteJSON (s : String) : List Char := '"' :: escapeAll s.data ++ ['"']

mutual
/-- The text of `JSON.stringify(v)` (no indentation). -/
def stringify : QVal → List Char
  | .str s => quoteJSON s
  | .arr items => '[' :: stringifyItems items ++ [']']
  | .obj members => '{' :: stringifyMembers members ++ ['}']
/-- Array elements separated by commas. -/
def stringifyItems : List QVal → List Char
  | [] => []
  | [v] => stringify v
  | v :: w :: vs => stringify v ++ ',' :: stringifyItems (w :: vs)
/-- Object members `"key":value` separated by commas. -/
def stringifyMembers : List (String × QVal) → List Char
  | [] => []
  | [(k, v)] => quoteJSON k ++ ':' :: stringify v
  | (k, v) :: w :: vs =>
    quoteJSON k ++ ':' :: stringify v ++ ',' :: stringifyMembers (w :: vs)
end

/-! ## The replacement `/\b(gte|gt|lte|lt)\b/g` -/

/-- A word character of a JavaScript regular expression (`\w`). -/
def isWordChar (c : Char) : Bool := c.isAlphanum || c == '_'

/-- The text starts with the word `w` and a word boundary follows it (the end of the text or a
character that is not a word character). -/
def matchWordAt : List Char → List Char → Bool
  | [], [] => true
  | [], c :: _ => !isWordChar c
  | _ :: _, [] => false
  | x :: w, c :: text => x == c && matchWordAt w text

/-- One of the alternatives `gte|gt|lte|lt`, followed by a word boundary, matches at the start
of the text. -/
def matchOpAt (text : List Char) : Bool :=
  matchWordAt ['g', 't', 'e'] text || matchWordAt ['g', 't'] text
    || matchWordAt ['l', 't', 'e'] text || matchWordAt ['l', 't'] text

/-- The alternative of `gte|gt|lte|lt` that matches at the start of the text with a word boundary
behind it, the alternatives being tried from left to right. -/
def matchedOp (text : List Char) : Option (List Char) :=
  if matchWordAt ['g', 't', 'e'] text then some ['g', 't', 'e']
  else if matchWordAt ['g', 't'] text then some ['g', 't']
  else if matchWordAt ['l', 't', 'e'] text then some ['l', 't', 'e']
  else if matchWordAt ['l', 't'] text then some ['l', 't']
  else none

/-- The global replacement of `/\b(gte|gt|lte|lt)\b/` by `$` followed by the match, scanning
from the left; `prevWord` tells whether the character before the current position is a word
character.  Every alternative starts with a letter, so the boundary in front of a match is there
exactly when `prevWord` is false.  After a match the scan resumes behind the matched word;
where nothing matches, the character is copied.  The first argument bounds the number of
steps. -/
def replaceScan : Nat → Bool → List Char → List Char
  | 0, _, text => text
  | _ + 1, _, [] => []
  | fuel + 1, prevWord, c :: rest =>
    if prevWord then c :: replaceScan fuel (isWordChar c) rest
    else
      match matchedOp (c :: rest) with
      | some w => '$' :: w ++ replaceScan fuel true ((c :: rest).drop w.length)
      | none => c :: replaceScan fuel (isWordChar c) rest

/-- The call `queryStr.replace(/\b(gte|gt|lte|lt)\b/g, (match) => "$" + match)`. -/
def replaceOps (text : List Char) : List Char := replaceScan text.length false text

/-- The replacement written character by character: inside a matched word every letter follows
a word character, so copying the word letter by letter is the same as resuming the scan behind
it (`replaceScan_eq_replaceFrom`). -/
def replaceFrom (prevWord : Bool) : List Char → List Char
  | [] => []
  | c :: rest =>
    if !prevWord && matchOpAt (c :: rest) then '$' :: c :: replaceFrom (isWordChar c) rest
    else c :: replaceFrom (isWordChar c) rest

/-! ## JSON.parse -/

/-- Value of a hexadecimal digit. -/
def hexVal (c : Char) : Option Nat :=
  if '0' ≤ c ∧ c ≤ '9' then some (c.toNat - 48)
  else if 'a' ≤ c ∧ c ≤ 'f' then some (c.toNat - 87)
  else if 'A' ≤ c ∧ c ≤ 'F' then some (c.toNat - 55)
  else none

/-- The character denoted by the four hexadecimal digits of an escape `\uXXXX`; surrogate code
units are outside the embedding. -/
def unicodeEscape (a b c d : Char) : Option Char :=
  match hexVal a, hexVal b, hexVal c, hexVal d with
  | some x, some y, some z, some w =>
    let n := ((x * 16 + y) * 16 + z) * 16 + w
    if 0xD800 ≤ n ∧ n ≤ 0xDFFF then none else some (Char.ofNat n)
  | _, _, _, _ => none

/-- Put a decoded character in front of the rest of a string being read. -/
def consTo (c : Char) (r : Option (List Char × List Char)) : Option (List Char × List Char) :=
  r.map (fun p => (c :: p.1, p.2))

/-- Read a JSON string whose opening quote has been consumed: the decoded characters and the
text after the closing quote. -/
def readString : List Char → Option (List Char × List Char)
  | [] => none
  | c :: rest =>
    if c = '"' then some ([], rest)
    else if c = '\\' then
      match rest with
      | [] => none
      | e :: r =>
        if e = '"' then consTo '"' (readString r)
        else if e = '\\' then consTo '\\' (readString r)
        else if e = '/' then consTo '/' (readString r)
        else if e = 'b' then consTo '\x08' (readString r)
        else if e = 'f' then consTo '\x0c' (readString r)
        else if e = 'n' then consTo '\n' (readString r)
        else if e = 'r' then consTo '\r' (readString r)
        else if e = 't' then consTo '\t' (readString r)
        else if e = 'u' then
          match r with
          | a :: b :: c :: d :: r4 =>
            match unicodeEscape a b c d with
            | some u => consTo u (readString r4)
            | none => none
          | _ => none
        else none
    else if c.toNat < 32 then none
    else consTo c (readString rest)

mutual
/-- Parse one JSON value made of strings, arrays and objects, the only values the text built by
`filter` contains; anything else is a syntax error (`none`).  The first argument bounds the
recursion. -/
def parseValue : Nat → List Char → Option (QVal × List Char)
  | 0, _ => none
  | _ + 1, [] => none
  | fuel + 1, c :: rest =>
    if c = '"' then
      (readString rest).map fun p => (QVal.str (String.mk p.1), p.2)
    else if c = '[' then
      if rest.head? = some ']' then some (QVal.arr [], rest.tail)
      else (parseItems fuel rest).map fun p => (QVal.arr p.1, p.2)
    else if c = '{' then
      if rest.head? = some '}' then some (QVal.obj [], rest.tail)
      else (parseMembers fuel rest).map fun p => (QVal.obj (buildObject p.1), p.2)
    else none
/-- Parse the elements of a non-empty array up to the closing bracket. -/
def parseItems : Nat → List Char → Option (List QVal × List Char)
  | 0, _ => none
  | fuel + 1, text =>
    (parseValue fuel text).bind fun p =>
      if p.2.head? = some ',' then
        (parseItems fuel p.2.tail).map fun q => (p.1 :: q.1, q.2)
      else if p.2.head? = some ']' then some ([p.1], p.2.tail)
      else none
/-- Parse the members of a non-empty object up to the closing brace, in textual order. -/
def parseMembers : Nat → List Char → Option (List (String × QVal) × List Char)
  | 0, _ => none
  | fuel + 1, text =>
    if text.head? = some '"' then
      (readString text.tail).bind fun k =>
        if k.2.head? = some ':' then
          (parseValue fuel k.2.tail).bind fun p =>
            if p.2.head? = some ',' then
              (parseMembers fuel p.2.tail).map fun q => ((String.mk k.1, p.1) :: q.1, q.2)
            else if p.2.head? = some '}' then some ([(String.mk k.1, p.1)], p.2.tail)
            else none
        else none
    else none
end

/-- The call `JSON.parse(text)`: the whole text must be one value. -/
def jsonParse (text : List Char) : Option QVal :=
  match parseValue (text.length + 1) text with
  | some (v, []) => some v
  | _ => none

/-! ## JavaScript numbers -/

/-- A JavaScript number: `NaN`, an infinity, or the finite double `num / 2 ^ exp` with `num` odd
whenever `exp` is positive (an integer has `exp = 0`).  The two zeros are not told apart. -/
inductive JSNum where
  | nan
  | inf (neg : Bool)
  | fin (num : Int) (exp : Nat)
  deriving DecidableEq

/-- An integer with the given sign and magnitude. -/
def signed (neg : Bool) (n : Nat) : Int := if neg then -(n : Int) else (n : Int)

/-- Position of the leading bit: `bitLog fuel n` is the floor of the binary logarithm of `n`
whenever `n ≤ fuel`. -/
def bitLog : Nat → Nat → Nat
  | 0, _ => 0
  | fuel + 1, n => if n < 2 then 0 else bitLog fuel (n / 2) + 1

/-- Floor of the binary logarithm of a positive natural number. -/
def log2Floor (n : Nat) : Nat := bitLog n n

/-- Floor of the binary logarithm of the fraction `n / d`, for positive `n` and `d`. -/
def floorLog2 (n d : Nat) : Int :=
  let a := log2Floor n
  let b := log2Floor d
  if b ≤ a then
    (if d * 2 ^ (a - b) ≤ n then ((a - b : Nat) : Int) else ((a - b : Nat) : Int) - 1)
  else
    (if d ≤ n * 2 ^ (b - a) then -((b - a : Nat) : Int) else -((b - a : Nat) : Int) - 1)

/-- The least power of two that no finite double reaches, `2 ^ 1024`. -/
def overflowBound : Nat := (2 ^ 256) ^ 4

/-- The fraction `n / d` rounded to the nearest multiple of `2 ^ q`, ties to the even multiple,
with the given sign; a result of `2 ^ 1024` or more is an infinity. -/
def roundAt (neg : Bool) (n d : Nat) (q : Int) : JSNum :=
  let N := if q ≤ 0 then n * 2 ^ (-q).toNat else n
  let D := if q ≤ 0 then d else d * 2 ^ q.toNat
  let m0 := N / D
  let r := N % D
  let m := if D < 2 * r ∨ (2 * r = D ∧ m0 % 2 = 1) then m0 + 1 else m0
  if 0 ≤ q then
    (if overflowBound ≤ m * 2 ^ q.toNat then .inf neg else .fin (signed neg (m * 2 ^ q.toNat)) 0)
  else
    let g := Nat.gcd m (2 ^ (-q).toNat)
    .fin (signed neg (m / g)) (log2Floor (2 ^ (-q).toNat / g))

/-- The double nearest to the fraction `n / d` (for `d` positive) with the given sign: 53
significant bits, exponent at least -1074, ties to the even significand, overflow to infinity. -/
def roundRat (neg : Bool) (n d : Nat) : JSNum :=
  if n = 0 then .fin 0 0
  else roundAt neg n d (max (floorLog2 n d) (-1022) - 52)

/-- The product `x * y`. -/
def JSNum.mul : JSNum → JSNum → JSNum
  | .nan, _ => .nan
  | _, .nan => .nan
  | .inf a, .inf b => .inf (a != b)
  | .inf a, .fin n _ => if n = 0 then .nan else .inf (a != decide (n < 0))
  | .fin n _, .inf b => if n = 0 then .nan else .inf (decide (n < 0) != b)
  | .fin n1 e1, .fin n2 e2 =>
    roundRat (decide (n1 < 0) != decide (n2 < 0)) (n1.natAbs * n2.natAbs) (2 ^ (e1 + e2))

/-- The difference `x - y`. -/
def JSNum.sub : JSNum → JSNum → JSNum
  | .nan, _ => .nan
  | _, .nan => .nan
  | .inf a, .inf b => if a = b then .nan else .inf a
  | .inf a, .fin _ _ => .inf a
  | .fin _ _, .inf b => .inf (!b)
  | .fin n1 e1, .fin n2 e2 =>
    let z : Int := n1 * 2 ^ e2 - n2 * 2 ^ e1
    roundRat (decide (z < 0)) z.natAbs (2 ^ (e1 + e2))

/-- Truthiness of a number: every number except `NaN` and zero. -/
def JSNum.truthy : JSNum → Bool
  | .nan => false
  | .inf _ => true
  | .fin n _ => n != 0

/-- The expression `x || y` on numbers. -/
def JSNum.orElse (x y : JSNum) : JSNum := if x.truthy then x else y

/-- White space and line terminators, the characters `StringToNumber` trims (also the class `\s`
of a regular expression). -/
def isStrWhiteSpace (c : Char) : Bool :=
  let n := c.toNat
  n = 0x9 || n = 0xA || n = 0xB || n = 0xC || n = 0xD || n = 0x20 || n = 0xA0 || n = 0x1680
    || (0x2000 ≤ n && n ≤ 0x200A) || n = 0x2028 || n = 0x2029 || n = 0x202F || n = 0x205F
    || n = 0x3000 || n = 0xFEFF

/-- Remove leading and trailing white space. -/
def trimWhiteSpace (l : List Char) : List Char :=
  ((l.dropWhile isStrWhiteSpace).reverse.dropWhile isStrWhiteSpace).reverse

/-- Value of a digit in the given radix. -/
def digitIn (radix : Nat) (c : Char) : Option Nat :=
  match hexVal c with
  | some v => if v < radix then some v else none
  | none => none

/-- Read a possibly empty run of digits of the given radix, continuing the value `acc`: the
value, the number of digits read and the remaining text. -/
def readDigits (radix : Nat) : Nat → Nat → List Char → Nat × Nat × List Char
  | acc, cnt, [] => (acc, cnt, [])
  | acc, cnt, c :: rest =>
    match digitIn radix c with
    | some v => readDigits radix (acc * radix + v) (cnt + 1) rest
    | none => (acc, cnt, c :: rest)

/-- A non-decimal integer literal without its two-character marker: one digit at least and
nothing else. -/
def radixLiteral (radix : Nat) (l : List Char) : JSNum :=
  match readDigits radix 0 0 l with
  | (v, cnt, []) => if cnt = 0 then .nan else roundRat false v 1
  | _ => .nan

/-- The exponent part of a decimal literal: empty, or `e` or `E`, an optional sign and one digit
at least; nothing may follow. -/
def exponentPart : List Char → Option Int
  | [] => some 0
  | c :: rest =>
    if c = 'e' ∨ c = 'E' then
      match rest with
      | '+' :: ds =>
        (match readDigits 10 0 0 ds with
         | (v, cnt, []) => if cnt = 0 then none else some (v : Int)
         | _ => none)
      | '-' :: ds =>
        (match readDigits 10 0 0 ds with
         | (v, cnt, []) => if cnt = 0 then none else some (-(v : Int))
         | _ => none)
      | ds =>
        (match readDigits 10 0 0 ds with
         | (v, cnt, []) => if cnt = 0 then none else some (v : Int)
         | _ => none)
    else none

/-- The number with significand `m` and decimal exponent `e`. -/
def scaleTen (neg : Bool) (m : Nat) (e : Int) : JSNum :=
  if 0 ≤ e then roundRat neg (m * 10 ^ e.toNat) 1 else roundRat neg m (10 ^ (-e).toNat)

/-- An unsigned decimal literal (StrUnsignedDecimalLiteral): `Infinity`, or digits with an optional
fraction and exponent. -/
def unsignedDecimal (neg : Bool) (l : List Char) : JSNum :=
  if l = ['I', 'n', 'f', 'i', 'n', 'i', 't', 'y'] then .inf neg
  else
    match readDigits 10 0 0 l with
    | (v1, c1, '.' :: rest) =>
      (match readDigits 10 v1 0 rest with
       | (v2, c2, rest2) =>
         if c1 + c2 = 0 then .nan
         else
           match exponentPart rest2 with
           | some e => scaleTen neg v2 (e - (c2 : Int))
           | none => .nan)
    | (v1, c1, rest) =>
      if c1 = 0 then .nan
      else
        match exponentPart rest with
        | some e => scaleTen neg v1 e
        | none => .nan

/-- The abstract operation StringToNumber. -/
def stringToNumber (s : List Char) : JSNum :=
  match trimWhiteSpace s with
  | [] => .fin 0 0
  | '0' :: 'x' :: rest => radixLiteral 16 rest
  | '0' :: 'X' :: rest => radixLiteral 16 rest
  | '0' :: 'o' :: rest => radixLiteral 8 rest
  | '0' :: 'O' :: rest => radixLiteral 8 rest
  | '0' :: 'b' :: rest => radixLiteral 2 rest
  | '0' :: 'B' :: rest => radixLiteral 2 rest
  | '+' :: rest => unsignedDecimal false rest
  | '-' :: rest => unsignedDecimal true rest
  | l => unsignedDecimal false l

mutual
/-- The string a query value converts to (ToPrimitive, then ToString): a string is itself, an
array joins the strings of its elements with commas, a plain object gives `[object Object]`.
An object with an own member `toString` has no callable conversion method and the conversion
throws a TypeError (`none`). -/
def toPrimitive : QVal → Option (List Char)
  | .str s => some s.data
  | .arr items => joinPrimitives items
  | .obj members =>
    if members.any (fun m => m.1 == "toString") then none
    else some "[object Object]".data
/-- The method `Array.prototype.join` with the comma separator. -/
def joinPrimitives : List QVal → Option (List Char)
  | [] => some []
  | [v] => toPrimitive v
  | v :: w :: vs =>
    match toPrimitive v, joinPrimitives (w :: vs) with
    | some a, some b => some (a ++ ',' :: b)
    | _, _ => none
end

/-- The abstract operation ToNumber on a property that may be absent: `undefined` is `NaN`. -/
def toNumber : Option QVal → Option JSNum
  | none => some .nan
  | some v => (toPrimitive v).map stringToNumber

/-! ## String helpers -/

/-- The method `String.prototype.split` with a one-character separator. -/
def splitOnChar (sep : Char) : List Char → List (List Char)
  | [] => [[]]
  | c :: cs =>
    if c = sep then [] :: splitOnChar sep cs
    else
      match splitOnChar sep cs with
      | [] => [[c]]
      | p :: ps => (c :: p) :: ps

/-- The method `Array.prototype.join` with a one-character separator, on strings. -/
def joinWith (sep : Char) : List (List Char) → List Char
  | [] => []
  | [p] => p
  | p :: q :: ps => p ++ sep :: joinWith sep (q :: ps)

/-- Truthiness of a property of the query string: `undefined` and the empty string are falsy,
every other string, every array and every object is truthy. -/
def truthy : Option QVal → Bool
  | none => false
  | some (.str s) => s != ""
  | some _ => true

/-- The expression `value.split(",").join(" ")`.  Only strings have a method `split`; on an
array or an object the call throws a TypeError (`none`). -/
def splitJoin : Option QVal → Option String
  | some (.str s) => some (String.mk (joinWith ' ' (splitOnChar ',' s.data)))
  | _ => none

/-! ## The mongoose query builder -/

/-- A mongoose query under construction.  Each builder method only touches its own component of
the query; the embedding records, per component, the arguments the method was called with, in
call order (`skip` and `limit` keep the last value). -/
structure Query where
  conds : List QVal
  sortArgs : List String
  selectArgs : List String
  skipArg : Option JSNum
  limitArg : Option JSNum

/-- The query `Model.find()` before any builder call. -/
def Query.empty : Query := ⟨[], [], [], none, none⟩

/-- The builder call `query.find(conditions)`. -/
def Query.find (q : Query) (c : QVal) : Query := { q with conds := q.conds ++ [c] }

/-- The builder call `query.sort(arg)` with a string argument. -/
def Query.sort (q : Query) (arg : String) : Query := { q with sortArgs := q.sortArgs ++ [arg] }

/-- The builder call `query.select(arg)` with a string argument. -/
def Query.select (q : Query) (arg : String) : Query :=
  { q with selectArgs := q.selectArgs ++ [arg] }

/-- The builder call `query.skip(n)`. -/
def Query.skip (q : Query) (n : JSNum) : Query := { q with skipArg := some n }

/-- The builder call `query.limit(n)`. -/
def Query.limit (q : Query) (n : JSNum) : Query := { q with limitArg := some n }

/-- The path and direction one field of a sort list stands for: ascending unless prefixed with
`-`, which means descending (`true`). -/
def fieldOrder (f : List Char) : String × Bool :=
  match f with
  | '-' :: name => (String.mk name, true)
  | name => (String.mk name, false)

/-- The method `String.prototype.split` with a separator that is one character of a class. -/
def splitWhere (p : Char → Bool) : List Char → List (List Char)
  | [] => [[]]
  | c :: cs =>
    if p c then [] :: splitWhere p cs
    else
      match splitWhere p cs with
      | [] => [[c]]
      | f :: fs => (c :: f) :: fs

/-- The number a string of decimal digits denotes. -/
def digitsValue (cs : List Char) : Nat := cs.foldl (fun n c => 10 * n + (c.toNat - 48)) 0

/-- An array index among the property keys of an object: the canonical decimal text of a
non-negative integer below 2^32 - 1. -/
def isArrayIndex (k : String) : Bool :=
  k.data != [] && k.data.all (fun c => decide (48 ≤ c.toNat ∧ c.toNat ≤ 57))
    && (k.data.head? != some '0' || k.data.length == 1)
    && decide (k.data.length ≤ 10) && decide (digitsValue k.data ≤ 4294967294)

/-- The assignment `s[field] = direction` on the sort object: a path it already has keeps its
place and takes the new direction, a new path is added after the others. -/
def setSortKey (k : String) (desc : Bool) : List (String × Bool) → List (String × Bool)
  | [] => [(k, desc)]
  | (k1, d1) :: rest => if k1 = k then (k, desc) :: rest else (k1, d1) :: setSortKey k desc rest

/-- One field of the sort string put on the sort object.  The key `__proto__` reaches the
prototype setter, which ignores a number, so no property is defined. -/
def pushSort (o : List (String × Bool)) (f : List Char) : List (String × Bool) :=
  if (fieldOrder f).1 = "__proto__" then o else setSortKey (fieldOrder f).1 (fieldOrder f).2 o

/-- Put a property whose key is an array index at its place among the array indices in
ascending numeric order. -/
def insertIndexKey (m : String × Bool) : List (String × Bool) → List (String × Bool)
  | [] => [m]
  | m1 :: rest =>
    if digitsValue m.1.data ≤ digitsValue m1.1.data then m :: m1 :: rest
    else m1 :: insertIndexKey m rest

/-- The own properties of an object in the order of their enumeration: the array indices in
ascending numeric order first, then the other keys in the order of their creation. -/
def ownSortKeys (o : List (String × Bool)) : List (String × Bool) :=
  (o.filter (fun m => isArrayIndex m.1)).foldr insertIndexKey []
    ++ o.filter (fun m => !isArrayIndex m.1)

/-- A path that takes its place on the sort object in the order of assignment: not an array
index, and none of `__proto__`, `constructor`, `prototype`, which name the prototype of the
object or which mongoose may skip. -/
def plainSortPath (k : String) : Bool :=
  !isArrayIndex k && k != "__proto__" && k != "constructor" && k != "prototype"

/-- The order a sort string stands for in mongoose: the string is split at white space
(`/\s+/`), the empty pieces are skipped, and each remaining field, ascending unless prefixed
with `-`, is assigned to the sort object under its path; the sort specification is that object,
read in the order of enumeration of its properties. -/
def sortOrder (arg : String) : List (String × Bool) :=
  ownSortKeys (((splitWhere isStrWhiteSpace arg.data).filter (fun f => f ≠ [])).foldl pushSort [])

/-! ## utils/apifeatures.js -/

/-- The class `APIFeatures`: the query being built and the raw query string. -/
structure APIFeatures where
  query : Query
  queryString : List (String × QVal)

/-- The reserved keys removed before filtering. -/
def excludedFields : List String := ["page", "sort", "limit", "fields"]

/-- The predicate `filter` hands to `find`: a copy of the query string without the reserved
keys, serialised, rewritten by the operator replacement and parsed again. -/
def filterPredicate (queryString : List (String × QVal)) : Option QVal :=
  let queryobj := excludedFields.foldl (fun o el => deleteKey el o) queryString
  let queryStr := stringify (.obj queryobj)
  let queryStr := replaceOps queryStr
  jsonParse queryStr

/-- The method `filter`. -/
def APIFeatures.filter (a : APIFeatures) : Option APIFeatures :=
  match filterPredicate a.queryString with
  | some c => some { a with query := a.query.find c }
  | none => none

/-- The method `sort`. -/
def APIFeatures.sort (a : APIFeatures) : Option APIFeatures :=
  if truthy (getProp "sort" a.queryString) then
    match splitJoin (getProp "sort" a.queryString) with
    | some sortBy => some { a with query := a.query.sort sortBy }
    | none => none
  else some { a with query := a.query.sort "-createdAt" }

/-- The method `limitFields`. -/
def APIFeatures.limitFields (a : APIFeatures) : Option APIFeatures :=
  if truthy (getProp "fields" a.queryString) then
    match splitJoin (getProp "fields" a.queryString) with
    | some fields => some { a with query := a.query.select fields }
    | none => none
  else some { a with query := a.query.select "-__v" }

/-- The expression `this.queryString.page * 1 || 1` of `paginate`. -/
def pageOf (queryString : List (String × QVal)) : Option JSNum :=
  (toNumber (getProp "page" queryString)).map fun p => (p.mul (.fin 1 0)).orElse (.fin 1 0)

/-- The expression `this.queryString.limit * 1 || 50` of `paginate`. -/
def limitOf (queryString : List (String × QVal)) : Option JSNum :=
  (toNumber (getProp "limit" queryString)).map fun l => (l.mul (.fin 1 0)).orElse (.fin 50 0)

/-- The expression `(page - 1) * limit` of `paginate`. -/
def skipOf (page limit : JSNum) : JSNum := (page.sub (.fin 1 0)).mul limit

/-- The method `paginate`; a conversion that throws makes the method throw (`none`). -/
def APIFeatures.paginate (a : APIFeatures) : Option APIFeatures :=
  match pageOf a.queryString with
  | none => none
  | some page =>
    match limitOf a.queryString with
    | none => none
    | some limit =>
      let skip := skipOf page limit
      some { a with query := (a.query.skip skip).limit limit }

/-- The four stages of the class. -/
inductive Stage where
  | filter
  | sort
  | limitFields
  | paginate
  deriving DecidableEq

/-- Run one stage. -/
def Stage.run : Stage → APIFeatures → Option APIFeatures
  | .filter => APIFeatures.filter
  | .sort => APIFeatures.sort
  | .limitFields => APIFeatures.limitFields
  | .paginate => APIFeatures.paginate

/-- Chain stages from left to right, each on the object returned by the one before; a stage that
throws ends the chain. -/
def runStages : List Stage → APIFeatures → Option APIFeatures
  | [], a => some a
  | s :: ss, a =>
    match s.run a with
    | some b => runStages ss b
    | none => none

/-- The reference pipeline `filter().sort().limitFields().paginate()`. -/
def referenceOrder : List Stage := [.filter, .sort, .limitFields, .paginate]

/-! ## models/userModel.js -/

/-- Modelled from the spec: the class `AppError` of `utils/appError.js`, which is not among the
sources.  The spec has every handler error carry an HTTP status and a stable message, and the
handlers build it as `new AppError(message, statusCode)`. -/
structure AppError where
  message : String
  statusCode : Nat
  deriving DecidableEq

/-- A user document.  Dates are milliseconds since the epoch; an unset path is `none`. -/
structure User where
  id : String
  name : String
  email : String
  photo : Option String
  role : String
  password : Option String
  passwordConfirm : Option String
  passwordChangedAt : Option Int
  passwordResetToken : Option String
  passwordResetExpiresIn : Option Int
  active : Bool

/-- The payload of a verified token: the subject and the issued-at time in seconds. -/
structure JwtPayload where
  id : String
  iat : Int

/-- The external collaborators of the authentication code: `bcrypt.compare`, `jwt.sign` (subject
and issued-at second) and `jwt.verify` (the payload, or the error it throws). -/
structure Env where
  bcryptCompare : String → String → Bool
  jwtSign : String → Int → String
  jwtVerify : String → Except AppError JwtPayload

/-- The instance method `correctPassword`; a user loaded without a password hash never
verifies. -/
def correctPassword (env : Env) (candidatePassword : String) (userPassword : Option String) :
    Bool :=
  match userPassword with
  | some h => env.bcryptCompare candidatePassword h
  | none => false

/-- The instance method `changedPasswordAfter`.  `parseInt(getTime() / 1000, 10)` keeps the
integer part of the quotient, which for every valid date is the truncated division of the
millisecond count by 1000. -/
def changedPasswordAfter (user : User) (JWTTimestamp : Int) : Bool :=
  match user.passwordChangedAt with
  | some t =>
    let changedTimeStamp := Int.tdiv t 1000
    decide (JWTTimestamp < changedTimeStamp)
  | none => false

/-- The second `pre("save")` hook: unless the password is unmodified or the document is new, the
change time is set one second before `Date.now()`. -/
def preSaveChangedAt (passwordModified isNew : Bool) (now : Int) (user : User) : User :=
  if !passwordModified || isNew then user
  else { user with passwordChangedAt := some (now - 1000) }

/-- The `pre(/^find/)` hook in front of `findOne` and `findById`: inactive users are filtered
out, the first remaining match is returned. -/
def findOne (users : List User) (p : User → Bool) : Option User :=
  users.find? (fun u => u.active && p u)

/-! ## controllers/authController.js -/

/-- The body `createSendToken` sends. -/
structure AuthResponse where
  statusCode : Nat
  status : String
  token : String
  user : User

/-- The issued-at second `jwt.sign` stamps at the time `now` (milliseconds). -/
def issuedAt (now : Int) : Int := Int.fdiv now 1000

/-- The function `signToken`. -/
def signToken (env : Env) (now : Int) (id : String) : String := env.jwtSign id (issuedAt now)

/-- The function `createSendToken`: the password is removed from the output. -/
def createSendToken (env : Env) (now : Int) (user : User) (statusCode : Nat) : AuthResponse :=
  { statusCode := statusCode, status := "Success", token := signToken env now user.id,
    user := { user with password := none } }

/-- The token `protect` reads from the `Authorization` header: the second piece of the header
split at spaces when the header starts with `Bearer`. -/
def bearerToken (authorization : Option String) : Option String :=
  match authorization with
  | none => none
  | some h =>
    if h = "" then none
    else if "Bearer".data.isPrefixOf h.data then
      match splitOnChar ' ' h.data with
      | _ :: t :: _ => some (String.mk t)
      | _ => none
    else none

/-- The middleware `protect`: the user it attaches to the request, or the error it passes on. -/
def protect (env : Env) (users : List User) (authorization : Option String) :
    Except AppError User :=
  match bearerToken authorization with
  | none => .error ⟨"You are not logged in! Please log in to get access.", 401⟩
  | some token =>
    if token = "" then .error ⟨"You are not logged in! Please log in to get access.", 401⟩
    else
      match env.jwtVerify token with
      | .error e => .error e
      | .ok decoded =>
        match findOne users (fun u => u.id = decoded.id) with
        | none => .error ⟨"The user belonging to this token no longer exists", 401⟩
        | some currentUser =>
          if changedPasswordAfter currentUser decoded.iat then
            .error ⟨"User recently changed the password please login again!", 401⟩
          else .ok currentUser

/-- The middleware returned by `restrictTo(...roles)`, on the user `protect` attached. -/
def restrictTo (roles : List String) (user : User) : Except AppError Unit :=
  if !roles.contains user.role then
    .error ⟨"You do not have permission to preform this action", 403⟩
  else .ok ()

/-! ## routes/review-routes.js -/

/-- The role guard of `POST /` on the review router, `restrictTo("user")`, in front of
`setTourUserIds` and `createReview`. -/
def createReviewGuard : User → Except AppError Unit := restrictTo ["user"]


/-! ## Concrete inputs used by the properties below -/

/-- The raw parameters of the query-translator example of the specification:
`price[gte]=100&sort=-price,name&page=2&limit=10`. -/
def specExample : List (String × QVal) :=
  [("price", .obj [("gte", .str "100")]), ("sort", .str "-price,name"),
   ("page", .str "2"), ("limit", .str "10")]

/-- A sample user document. -/
def sampleUser : User :=
  { id := "u1", name := "Ann", email := "ann@example.com", photo := none, role := "user",
    password := some "hash", passwordConfirm := none, passwordChangedAt := none,
    passwordResetToken := none, passwordResetExpiresIn := none, active := true }

/-- A sample environment: no password verifies, every token verifies to the sample user with
the issued-at second 1700000000. -/
def sampleEnv : Env :=
  { bcryptCompare := fun _ _ => false,
    jwtSign := fun id _ => id,
    jwtVerify := fun _ => .ok ⟨"u1", 1700000000⟩ }

/-! ## Vocabulary of the properties -/

/-- The characters of the string are decimal digits and there is one at least. -/
def isDigitString (s : String) : Prop := s.data ≠ [] ∧ ∀ c ∈ s.data, c.isDigit = true

/-- The natural number a string of decimal digits denotes. -/
def decimalValue (s : String) : Nat :=
  s.data.foldl (fun acc c => acc * 10 + (c.toNat - 48)) 0

/-- A parameter is missing or non-numeric: it is `undefined`, or it converts to `NaN`. -/
def missingOrNaN (v : Option QVal) : Prop := v = none ∨ toNumber v = some JSNum.nan

/-- A parameter that is missing, non-numeric, or a string of decimal digits denoting a positive
integer below `2 ^ 53`. -/
def missingOrSafePositive (v : Option QVal) : Prop :=
  missingOrNaN v ∨
    ∃ s, v = some (QVal.str s) ∧ isDigitString s ∧ 0 < decimalValue s ∧ decimalValue s < 2 ^ 53

instance (s : String) : Decidable (isDigitString s) := by
  unfold isDigitString
  infer_instance

/-! ## What the operator replacement does to strings and values -/

/-- The escaped text of the character ends in a word character: word characters themselves and
the control characters, whose escapes `\b`, `\f`, `\n`, `\r`, `\t`, `\u00XX` end in a letter or
a digit. -/
def endsWord (c : Char) : Bool := isWordChar c || decide (c.toNat < 32)

/-- The characters a string has after `JSON.stringify`, the operator replacement and
`JSON.parse`: a `$` is put in front of every `gte`, `gt`, `lte`, `lt` that stands between word
boundaries of the serialised text; `prev` tells whether the text before ends in a word
character. -/
def rewriteFrom (prev : Bool) : List Char → List Char
  | [] => []
  | c :: rest =>
    if !prev && matchOpAt (c :: rest) then '$' :: c :: rewriteFrom (endsWord c) rest
    else c :: rewriteFrom (endsWord c) rest

/-- The string a key or a string value becomes in the predicate. -/
def rewriteStr (s : String) : String := String.mk (rewriteFrom false s.data)

mutual
/-- Apply a function to every key and every string of a value. -/
def mapStrings (f : String → String) : QVal → QVal
  | .str s => .str (f s)
  | .arr items => .arr (mapStringsItems f items)
  | .obj members => .obj (mapStringsMembers f members)
/-- Apply a function to every key and every string of the elements. -/
def mapStringsItems (f : String → String) : List QVal → List QVal
  | [] => []
  | v :: vs => mapStrings f v :: mapStringsItems f vs
/-- Apply a function to every key and every string of the members. -/
def mapStringsMembers (f : String → String) : List (String × QVal) → List (String × QVal)
  | [] => []
  | (k, v) :: ms => (f k, mapStrings f v) :: mapStringsMembers f ms
end

mutual
/-- The value `JSON.parse` builds from the serialisation of a value: at every level the members
are defined one after the other, a repeated key keeping its first position and its last
value. -/
def normalize : QVal → QVal
  | .str s => .str s
  | .arr items => .arr (normalizeItems items)
  | .obj members => .obj (buildObject (normalizeMembers members))
/-- Normalise the elements. -/
def normalizeItems : List QVal → List QVal
  | [] => []
  | v :: vs => normalize v :: normalizeItems vs
/-- Normalise the values of the members. -/
def normalizeMembers : List (String × QVal) → List (String × QVal)
  | [] => []
  | (k, v) :: ms => (k, normalize v) :: normalizeMembers ms
end

mutual
/-- Every key that occurs in a value, at any depth. -/
def allKeys : QVal → List String
  | .str _ => []
  | .arr items => allKeysItems items
  | .obj members => allKeysMembers members
/-- Every key that occurs in the elements. -/
def allKeysItems : List QVal → List String
  | [] => []
  | v :: vs => allKeys v ++ allKeysItems vs
/-- Every key that occurs in the members: the keys of the members and the keys inside their
values. -/
def allKeysMembers : List (String × QVal) → List String
  | [] => []
  | (k, v) :: ms => k :: (allKeys v ++ allKeysMembers ms)
end

/-- Some `gte`, `gt`, `lte` or `lt` stands in the text as a whole word, that is between word
boundaries; `prev` tells whether the character before is a word character. -/
def hasOpWordFrom (prev : Bool) : List Char → Bool
  | [] => false
  | c :: rest => (!prev && matchOpAt (c :: rest)) || hasOpWordFrom (isWordChar c) rest

/-- The string contains `gte`, `gt`, `lte` or `lt` as a whole word. -/
def hasOpWord (s : String) : Bool := hasOpWordFrom false s.data

/-- The query string without the reserved keys. -/
def withoutReserved (qs : List (String × QVal)) : List (String × QVal) :=
  qs.filter (fun m => decide (m.1 ∉ excludedFields))

/-- The comparison operators of the query language that `filter` produces. -/
def comparisonOperators : List String := ["$gt", "$gte", "$lt", "$lte"]

/-- The key begins with `$`. -/
def startsWithDollar (k : String) : Prop := k.data.head? = some '$'

/-- A key that neither begins with `$` nor begins with one of the words `gte`, `gt`, `lte`, `lt`
followed by a character that is not a word character: when one of the words matches at its
start, the key is that word. -/
def plainKey (k : String) : Prop :=
  ¬ startsWithDollar k ∧ (matchOpAt k.data = true → k ∈ ["gte", "gt", "lte", "lt"])

instance (k : String) : Decidable (startsWithDollar k) := by
  unfold startsWithDollar
  infer_instance

instance (k : String) : Decidable (plainKey k) := by
  unfold plainKey
  infer_instance

/-! ## Request bodies -/

/-- A value of a parsed JSON request body (`req.body`).  The members of an object are listed in
the order in which JavaScript enumerates them. -/
inductive Json where
  | null
  | bool (b : Bool)
  | num (n : JSNum)
  | str (s : String)
  | arr (items : List Json)
  | obj (members : List (String × Json))

/-- Property read `o[k]` for a key the prototype does not define: the value of the own property,
or `none` for `undefined`. -/
def jsonProp (k : String) : List (String × Json) → Option Json
  | [] => none
  | (k1, v) :: ms => if k1 = k then some v else jsonProp k ms

/-- Truthiness of a property read: `undefined`, `null`, `false`, zero, `NaN` and the empty string
are falsy. -/
def jsonTruthy : Option Json → Bool
  | none => false
  | some .null => false
  | some (.bool b) => b
  | some (.num n) => n.truthy
  | some (.str s) => s != ""
  | some (.arr _) => true
  | some (.obj _) => true

/-- Define or overwrite the own property `k` of an object: an existing property keeps its
position, a new one is appended. -/
def setJsonMember (k : String) (v : Json) : List (String × Json) → List (String × Json)
  | [] => [(k, v)]
  | (k1, v1) :: ms => if k1 = k then (k1, v) :: ms else (k1, v1) :: setJsonMember k v ms

/-- The assignment `o[k] = v` on an ordinary object.  For the key `__proto__` the assignment
reaches the setter inherited from `Object.prototype` and defines no own property. -/
def assignProp (k : String) (v : Json) (o : List (String × Json)) : List (String × Json) :=
  if k = "__proto__" then o else setJsonMember k v o

/-! ## controllers/userController.js -/

/-- The callback of `Object.keys(obj).forEach` in `filterObj`: when the allowed list includes the
key `el`, the value `obj[el]` is assigned to `newObj[el]`. -/
def pickField (obj : List (String × Json)) (allowedFields : List String)
    (newObj : List (String × Json)) (el : String) : List (String × Json) :=
  if allowedFields.contains el then
    match jsonProp el obj with
    | some v => assignProp el v newObj
    | none => newObj
  else newObj

/-- The function `filterObj(obj, ...allowedFields)`: every own key of `obj` that the allowed
list includes is assigned, with its value, to a fresh object. -/
def filterObj (obj : List (String × Json)) (allowedFields : List String) :
    List (String × Json) :=
  (obj.map Prod.fst).foldl (pickField obj allowedFields) []

/-- The handler `updateMe` up to the store call: the error it passes on, or the update document
`filteredBody` it hands to `User.findByIdAndUpdate`. -/
def updateMe (body : List (String × Json)) : Except AppError (List (String × Json)) :=
  if jsonTruthy (jsonProp "password" body) || jsonTruthy (jsonProp "passwordConfirm" body) then
    .error ⟨"This route is not for password update. Please use route /updateMyPassword.", 400⟩
  else .ok (filterObj body ["name", "email"])

/-! ## Saving user documents -/

/-- The result of casting a body value to the type of a schema path: a value, nothing (the path
stays unset), or a cast error. -/
inductive CastResult (α : Type) where
  | value (a : α)
  | unset
  | castError

/-- What the handlers use of mongoose casting, of the schema setters `trim` and `lowercase`,
and of the package `validator`. -/
structure SchemaLib where
  castString : Json → CastResult String
  castDate : Json → CastResult Int
  trim : String → String
  toLowerCase : String → String
  isEmail : String → Bool

/-- The hash functions the handlers call: `crypto.createHash("sha256")` with a hexadecimal
digest, and `bcrypt.hash` with a cost. -/
structure Crypto where
  sha256Hex : String → String
  bcryptHash : String → Nat → String

/-- The ways a handler ends without a response of its own: an `AppError` passed to `next`, a
validation error of `save` or `create` on a path, a duplicate key of the unique email index,
or another exception, all forwarded by `catchAsync`. -/
inductive Failure where
  | app (e : AppError)
  | validation (path : String)
  | duplicateKey
  | thrown (name : String)
  deriving DecidableEq

/-- What a handler leaves behind: its result and the user collection afterwards. -/
structure Outcome (α : Type) where
  result : Except Failure α
  users : List User

/-- Length of a string in UTF-16 code units, the `length` of a JavaScript string. -/
def utf16Length (s : String) : Nat :=
  s.data.foldl (fun n c => n + (if c.toNat < 65536 then 1 else 2)) 0

/-- The validators of the user schema on a document whose password is loaded or modified:
`name` and `email` are required, the email must pass `validator.isEmail`; `password` is required
with `minLength` 8; `passwordConfirm` is required and must equal the password.  The first
failing path in schema order is reported. -/
def validateUser (lib : SchemaLib) (u : User) : Except Failure Unit :=
  if u.name = "" then .error (.validation "name")
  else if u.email = "" ∨ lib.isEmail u.email = false then .error (.validation "email")
  else
    match u.password with
    | none => .error (.validation "password")
    | some p =>
      if p = "" ∨ utf16Length p < 8 then .error (.validation "password")
      else
        match u.passwordConfirm with
        | none => .error (.validation "passwordConfirm")
        | some c =>
          if c = "" ∨ c ≠ p then .error (.validation "passwordConfirm") else .ok ()

/-- The first `pre("save")` hook: unless the password is unmodified, it is replaced by its bcrypt
hash of cost 12 and `passwordConfirm` is deleted. -/
def preSaveHash (crypto : Crypto) (passwordModified : Bool) (user : User) : User :=
  if !passwordModified then user
  else
    { user with
      password := user.password.map (fun p => crypto.bcryptHash p 12),
      passwordConfirm := none }

/-- Replace the stored document that has the identifier of `u`. -/
def replaceUser (users : List User) (u : User) : List User :=
  users.map (fun x => if x.id = u.id then u else x)

/-- The method `save` on a user document: validation (unless `validateBeforeSave` is false),
the two `pre("save")` hooks, then the write: an insert for a new document, refused when the
email is taken, otherwise the replacement of the stored document.  The document after the hooks
and the collection after the write are returned. -/
def saveUser (crypto : Crypto) (lib : SchemaLib) (validateBeforeSave passwordModified isNew : Bool)
    (now : Int) (users : List User) (u : User) : Except Failure (User × List User) :=
  match (if validateBeforeSave then validateUser lib u else .ok ()) with
  | .error e => .error e
  | .ok _ =>
    let u1 := preSaveHash crypto passwordModified u
    let u2 := preSaveChangedAt passwordModified isNew now u1
    if isNew then
      if users.any (fun x => x.email = u2.email) then .error .duplicateKey
      else .ok (u2, users ++ [u2])
    else .ok (u2, replaceUser users u2)

/-- Assign a body value to a string path of a document: `undefined` and a value cast to nothing
leave the path unset, a cast error is reported by the validation of the next save. -/
def castPath (lib : SchemaLib) (path : String) (v : Option Json) :
    Except Failure (Option String) :=
  match v with
  | none => .ok none
  | some j =>
    match lib.castString j with
    | .value s => .ok (some s)
    | .unset => .ok none
    | .castError => .error (.validation path)

/-- Assign a body value to a date path of a document. -/
def castDatePath (lib : SchemaLib) (path : String) (v : Option Json) :
    Except Failure (Option Int) :=
  match v with
  | none => .ok none
  | some j =>
    match lib.castDate j with
    | .value t => .ok (some t)
    | .unset => .ok none
    | .castError => .error (.validation path)

/-- The instance method `createPasswordResetToken`: `resetToken` is the hexadecimal text of the
32 random bytes; its SHA-256 hash and the expiry ten minutes after `now` are put on the document
and the token is returned. -/
def createPasswordResetToken (crypto : Crypto) (now : Int) (resetToken : String) (user : User) :
    User × String :=
  ({ user with
      passwordResetToken := some (crypto.sha256Hex resetToken),
      passwordResetExpiresIn := some (now + 10 * 60 * 1000) },
   resetToken)

/-! ## Account handlers of controllers/authController.js -/

/-- The body of a response that carries a message only. -/
structure MessageResponse where
  statusCode : Nat
  status : String
  message : String
  deriving DecidableEq

/-- The object literal `signup` hands to `User.create`: five properties read from the body. -/
structure SignupFields where
  name : Option Json
  email : Option Json
  password : Option Json
  passwordConfirm : Option Json
  passwordChangedAt : Option Json

/-- The argument of `User.create` in `signup`. -/
def signupFields (body : List (String × Json)) : SignupFields :=
  { name := jsonProp "name" body,
    email := jsonProp "email" body,
    password := jsonProp "password" body,
    passwordConfirm := jsonProp "passwordConfirm" body,
    passwordChangedAt := jsonProp "passwordChangedAt" body }

/-- The call `User.create(fields)`: the given properties are cast to their paths (with the
setters `trim` on the name and `lowercase` on the email), the paths not given take their schema
defaults (`role` is `user`, `active` is true), and the new document, identified by `newId`, is
saved. -/
def createUser (crypto : Crypto) (lib : SchemaLib) (users : List User) (now : Int)
    (newId : String) (fields : SignupFields) : Except Failure (User × List User) :=
  match castPath lib "name" fields.name, castPath lib "email" fields.email,
      castPath lib "password" fields.password,
      castPath lib "passwordConfirm" fields.passwordConfirm,
      castDatePath lib "passwordChangedAt" fields.passwordChangedAt with
  | .ok name, .ok email, .ok password, .ok passwordConfirm, .ok passwordChangedAt =>
    saveUser crypto lib true true true now users
      { id := newId,
        name := lib.trim (name.getD ""),
        email := lib.toLowerCase (email.getD ""),
        photo := none,
        role := "user",
        password := password,
        passwordConfirm := passwordConfirm,
        passwordChangedAt := passwordChangedAt,
        passwordResetToken := none,
        passwordResetExpiresIn := none,
        active := true }
  | .error e, _, _, _, _ => .error e
  | _, .error e, _, _, _ => .error e
  | _, _, .error e, _, _ => .error e
  | _, _, _, .error e, _ => .error e
  | _, _, _, _, .error e => .error e

/-- The handler `signup`; `now` is the time of the save and `signedAt` the later time at which
the token is signed. -/
def signup (crypto : Crypto) (lib : SchemaLib) (env : Env) (users : List User)
    (now signedAt : Int) (newId : String) (body : List (String × Json)) :
    Outcome AuthResponse :=
  match createUser crypto lib users now newId (signupFields body) with
  | .ok (newUser, users1) => ⟨.ok (createSendToken env signedAt newUser 201), users1⟩
  | .error e => ⟨.error e, users⟩

/-- The value a filter on a string path compares with: a string stands for itself, any other
value is cast to the path; a value that cannot be cast makes the query throw. -/
def castFilter (lib : SchemaLib) (j : Json) : Option String :=
  match j with
  | .str s => some s
  | other =>
    match lib.castString other with
    | .value s => some s
    | _ => none

/-- The handler `login` on the values `email` and `password` read from the body, which
`express.json` parsed: each may be any JSON value or missing.  A falsy value gives the error
400.  The user is looked up by the email; when there is none the answer is the error 401 and
the password is not looked at.  Otherwise `correctPassword` hands the posted password to
`bcrypt.compare`, which rejects when the candidate is not a string. -/
def login (env : Env) (lib : SchemaLib) (users : List User) (now : Int)
    (email password : Option Json) : Except Failure AuthResponse :=
  if !jsonTruthy email || !jsonTruthy password then
    .error (.app ⟨"Please provide email and password!", 400⟩)
  else
    match email.bind (castFilter lib) with
    | none => .error (.thrown "CastError")
    | some emailText =>
      match findOne users (fun u => u.email = emailText) with
      | none => .error (.app ⟨"Incorrect email or password", 401⟩)
      | some user =>
        match password with
        | some (.str candidatePassword) =>
          if !correctPassword env candidatePassword user.password then
            .error (.app ⟨"Incorrect email or password", 401⟩)
          else .ok (createSendToken env now user 200)
        | _ => .error (.thrown "Error")

/-- The handler `forgotPassword` for the posted email: `resetToken` is the random token drawn by
`createPasswordResetToken` and `emailSent` tells whether `sendEmail` succeeded. -/
def forgotPassword (crypto : Crypto) (lib : SchemaLib) (users : List User) (now : Int)
    (resetToken : String) (emailSent : Bool) (email : String) : Outcome MessageResponse :=
  match findOne users (fun u => u.email = email) with
  | none => ⟨.error (.app ⟨"There is no user found with this email address.", 404⟩), users⟩
  | some user =>
    let user1 := (createPasswordResetToken crypto now resetToken user).1
    match saveUser crypto lib false false false now users user1 with
    | .error e => ⟨.error e, users⟩
    | .ok (user2, users1) =>
      if emailSent then
        ⟨.ok { statusCode := 200, status := "Success", message := "Token sent to email!" },
          users1⟩
      else
        let user3 :=
          { user2 with passwordResetToken := none, passwordResetExpiresIn := none }
        match saveUser crypto lib false false false now users1 user3 with
        | .error e => ⟨.error e, users1⟩
        | .ok (_, users2) =>
          ⟨.error (.app ⟨"There was an error sending an email", 500⟩), users2⟩

/-- The stored reset token of the user is the given hash and its expiry is later than `now`. -/
def resetTokenMatches (hashedToken : String) (now : Int) (u : User) : Bool :=
  decide (u.passwordResetToken = some hashedToken)
    && (match u.passwordResetExpiresIn with
        | some expires => decide (now < expires)
        | none => false)

/-- The handler `resetPassword` for the token of the URL and the posted body.  The document is
loaded without its password, so the assignment always marks the password as modified. -/
def resetPassword (crypto : Crypto) (lib : SchemaLib) (env : Env) (users : List User)
    (now signedAt : Int) (token : String) (body : List (String × Json)) :
    Outcome AuthResponse :=
  let hashedToken := crypto.sha256Hex token
  match findOne users (resetTokenMatches hashedToken now) with
  | none => ⟨.error (.app ⟨"Token is invalid or expired", 400⟩), users⟩
  | some user =>
    match castPath lib "password" (jsonProp "password" body),
        castPath lib "passwordConfirm" (jsonProp "passwordConfirm" body) with
    | .ok password, .ok passwordConfirm =>
      let user1 :=
        { user with
          password := password,
          passwordConfirm := passwordConfirm,
          passwordResetToken := none,
          passwordResetExpiresIn := none }
      match saveUser crypto lib true true false now users user1 with
      | .ok (user2, users1) => ⟨.ok (createSendToken env signedAt user2 200), users1⟩
      | .error e => ⟨.error e, users⟩
    | .error e, _ => ⟨.error e, users⟩
    | _, .error e => ⟨.error e, users⟩

/-- The handler `updatePassword` for the user `protect` attached.  The document is loaded with
its password hash; mongoose marks the password as modified when the assigned value differs from
the loaded one. -/
def updatePassword (crypto : Crypto) (lib : SchemaLib) (env : Env) (users : List User)
    (now signedAt : Int) (userId : String) (body : List (String × Json)) :
    Outcome AuthResponse :=
  match findOne users (fun u => u.id = userId) with
  | none => ⟨.error (.thrown "TypeError"), users⟩
  | some user =>
    match jsonProp "passwordCurrent" body with
    | some (.str passwordCurrent) =>
      if !correctPassword env passwordCurrent user.password then
        ⟨.error (.app ⟨"Incorrect password", 401⟩), users⟩
      else
        match castPath lib "password" (jsonProp "password" body),
            castPath lib "passwordConfirm" (jsonProp "passwordConfirm" body) with
        | .ok password, .ok passwordConfirm =>
          let user1 := { user with password := password, passwordConfirm := passwordConfirm }
          let passwordModified := decide (password ≠ user.password)
          match saveUser crypto lib true passwordModified false now users user1 with
          | .ok (user2, users1) => ⟨.ok (createSendToken env signedAt user2 200), users1⟩
          | .error e => ⟨.error e, users⟩
        | .error e, _ => ⟨.error e, users⟩
        | _, .error e => ⟨.error e, users⟩
    | _ => ⟨.error (.thrown "Error"), users⟩

/-! ## Sample collaborators -/

/-- A sample schema library: strings cast to themselves, numbers to dates, everything else is
unset; no trimming or case folding; every email containing `@` is accepted. -/
def sampleLib : SchemaLib :=
  { castString := fun j =>
      match j with
      | .str s => .value s
      | .null => .unset
      | _ => .castError,
    castDate := fun j =>
      match j with
      | .num (.fin n 0) => .value n
      | .null => .unset
      | _ => .castError,
    trim := fun s => s,
    toLowerCase := fun s => s,
    isEmail := fun s => s.data.contains '@' }

/-- Sample hash functions that tag their input. -/
def sampleCrypto : Crypto :=
  { sha256Hex := fun s => "sha256:" ++ s,
    bcryptHash := fun s cost => "bcrypt" ++ toString cost ++ ":" ++ s }

/-- A sample environment in which the password `oldpass123` verifies against every hash. -/
def verifyingEnv : Env :=
  { bcryptCompare := fun candidate _ => candidate == "oldpass123",
    jwtSign := fun id _ => id,
    jwtVerify := fun _ => .ok ⟨"u1", 1700000000⟩ }

/-- A body that carries a new password and its confirmation. -/
def newPasswordBody : List (String × Json) :=
  [("password", .str "newpass123"), ("passwordConfirm", .str "newpass123")]

/-- The sample user after `forgotPassword` drew the token `c0ffee` at the time 1700000000000. -/
def pendingResetUser : User :=
  { sampleUser with
    passwordResetToken := some "sha256:c0ffee",
    passwordResetExpiresIn := some 1700000600000 }

/-- The record `resetPassword` saves for `pendingResetUser` at the time 1700000060000. -/
def afterResetUser : User :=
  { sampleUser with
    password := some "bcrypt12:newpass123",
    passwordChangedAt := some 1700000059000 }

/-- A signup body that also carries a role, an active flag and a reset token. -/
def adminSignupBody : List (String × Json) :=
  [("name", .str "Bob"), ("email", .str "bob@example.com"), ("password", .str "secret123"),
   ("passwordConfirm", .str "secret123"), ("role", .str "admin"), ("active", .bool false),
   ("passwordResetToken", .str "abc")]

/-- The signup body with the same five allowed fields and nothing else. -/
def plainSignupBody : List (String × Json) :=
  [("name", .str "Bob"), ("email", .str "bob@example.com"), ("password", .str "secret123"),
   ("passwordConfirm", .str "secret123")]

/-- A stored password hash, as text. -/
def storedHash : String := "$2a$12$storedhashstoredhashstoredhash"

/-- A user whose stored password hash is `storedHash`. -/
def hashedUser : User := { sampleUser with password := some storedHash }

/-- A body of `updatePassword` whose new password is the text of the stored hash. -/
def sameHashBody : List (String × Json) :=
  [("passwordCurrent", .str "oldpass123"), ("password", .str storedHash),
   ("passwordConfirm", .str storedHash)]

/-- A body of `updatePassword` with a new password. -/
def changePasswordBody : List (String × Json) :=
  [("passwordCurrent", .str "oldpass123"), ("password", .str "newpass123"),
   ("passwordConfirm", .str "newpass123")]

/-! # Properties -/

/-! ## The pipeline on the example of the specification -/

/-- C1: on the raw parameters `price[gte]=100`, `sort=-price,name`, `page=2`, `limit=10` the
pipeline filter, sort, limitFields, paginate builds, from the empty query, the query whose only
predicate is the object with the single member `price` holding the single member `$gte` with
value `100`, whose sort argument is `-price name` (price descending, then name ascending), whose
skip is 10 and whose limit is 10. -/
theorem C1_spec_example :
    (runStages referenceOrder ⟨Query.empty, specExample⟩).map (fun a => a.query)
      = some ⟨[.obj [("price", .obj [("$gte", .str "100")])]], ["-price name"], ["-__v"],
          some (.fin 10 0), some (.fin 10 0)⟩
    ∧ sortOrder "-price name" = [("price", true), ("name", false)] := by
  constructor
  · rfl
  · decide

/-! ## Role restriction -/

/-- C8: the middleware of `restrictTo` passes the request on exactly when the role of the user
is in the allowed list and otherwise fails with status 403; the guard of review creation passes
a user of role `user` and fails with 403 for the roles `guide`, `lead-guide` and `admin`. -/
theorem C8_restrictTo_membership (roles : List String) (user : User) :
    restrictTo roles user
      = (if user.role ∈ roles then Except.ok ()
         else Except.error ⟨"You do not have permission to preform this action", 403⟩)
    ∧ (restrictTo roles user = Except.ok () ↔ user.role ∈ roles)
    ∧ createReviewGuard { user with role := "user" } = Except.ok ()
    ∧ createReviewGuard { user with role := "guide" }
        = Except.error ⟨"You do not have permission to preform this action", 403⟩
    ∧ createReviewGuard { user with role := "lead-guide" }
        = Except.error ⟨"You do not have permission to preform this action", 403⟩
    ∧ createReviewGuard { user with role := "admin" }
        = Except.error ⟨"You do not have permission to preform this action", 403⟩ := by
  refine ⟨?_, ?_, ?_, ?_, ?_, ?_⟩
  · by_cases h : user.role ∈ roles <;> simp [restrictTo, h]
  · by_cases h : user.role ∈ roles <;> simp [restrictTo, h]
  · simp [createReviewGuard, restrictTo]
  · simp [createReviewGuard, restrictTo]
  · simp [createReviewGuard, restrictTo]
  · simp [createReviewGuard, restrictTo]

/-! ## Login -/

/-- Counterexample to C9 as stated: the posted password is the number 12345678, which is not
empty.  For an email that matches no user `login` answers the error 401 without looking at the
password; for the email of the sample user the password reaches `bcrypt.compare`, which rejects
a candidate that is not a string, so the request ends with a thrown error (status 500) and the
two responses differ. -/
theorem C9_counterexample_non_string_password :
    jsonTruthy (some (Json.num (JSNum.fin 12345678 0))) = true
    ∧ findOne [sampleUser] (fun u => u.email = "bob@example.com") = none
    ∧ findOne [sampleUser] (fun u => u.email = "ann@example.com") = some sampleUser
    ∧ login sampleEnv sampleLib [sampleUser] 0 (some (Json.str "bob@example.com"))
        (some (Json.num (JSNum.fin 12345678 0)))
        = Except.error (Failure.app ⟨"Incorrect email or password", 401⟩)
    ∧ login sampleEnv sampleLib [sampleUser] 0 (some (Json.str "ann@example.com"))
        (some (Json.num (JSNum.fin 12345678 0)))
        = Except.error (Failure.thrown "Error") := by
  refine ⟨by decide, by rfl, by rfl, by rfl, by rfl⟩

/-- C9, amended: for every non-empty string email and non-empty string password, a login whose
email matches no user and a login whose email matches a user but whose password fails
verification end with the same error, status 401 and message `Incorrect email or password`. -/
theorem C9_login_same_error (env : Env) (lib : SchemaLib) (users : List User) (now : Int)
    (email1 password1 email2 password2 : String) (u : User)
    (he1 : email1 ≠ "") (hp1 : password1 ≠ "") (he2 : email2 ≠ "") (hp2 : password2 ≠ "")
    (hnone : findOne users (fun x => x.email = email1) = none)
    (hsome : findOne users (fun x => x.email = email2) = some u)
    (hbad : correctPassword env password2 u.password = false) :
    login env lib users now (some (Json.str email1)) (some (Json.str password1))
        = Except.error (Failure.app ⟨"Incorrect email or password", 401⟩)
    ∧ login env lib users now (some (Json.str email2)) (some (Json.str password2))
        = Except.error (Failure.app ⟨"Incorrect email or password", 401⟩) := by
  constructor
  · simp [login, jsonTruthy, castFilter, he1, hp1, hnone]
  · simp [login, jsonTruthy, castFilter, he2, hp2, hsome, hbad]

/-- Witness of C9: nobody is registered under the first email, the sample user under the
second, and no password verifies. -/
theorem C9_login_same_error_witness :
    login sampleEnv sampleLib [sampleUser] 0 (some (Json.str "bob@example.com"))
        (some (Json.str "secret123"))
        = Except.error (Failure.app ⟨"Incorrect email or password", 401⟩)
    ∧ login sampleEnv sampleLib [sampleUser] 0 (some (Json.str "ann@example.com"))
        (some (Json.str "secret123"))
        = Except.error (Failure.app ⟨"Incorrect email or password", 401⟩) :=
  C9_login_same_error sampleEnv sampleLib [sampleUser] 0 "bob@example.com" "secret123"
    "ann@example.com" "secret123" sampleUser (by decide) (by decide) (by decide) (by decide)
    (by rfl) (by rfl) (by rfl)

/-! ## The operator replacement on serialised text -/

theorem matchOpAt_cons_ne (c : Char) (r : List Char) (hg : c ≠ 'g') (hl : c ≠ 'l') :
    matchOpAt (c :: r) = false := by
  have hg2 : ('g' == c) = false := by simpa using fun h => hg h.symm
  have hl2 : ('l' == c) = false := by simpa using fun h => hl h.symm
  simp [matchOpAt, matchWordAt, hg2, hl2]

theorem replaceFrom_cons_ne (p : Bool) (c : Char) (r : List Char) (hg : c ≠ 'g')
    (hl : c ≠ 'l') : replaceFrom p (c :: r) = c :: replaceFrom (isWordChar c) r := by
  simp [replaceFrom, matchOpAt_cons_ne c r hg hl]

theorem rewriteFrom_cons_ne (p : Bool) (c : Char) (r : List Char) (hg : c ≠ 'g')
    (hl : c ≠ 'l') : rewriteFrom p (c :: r) = c :: rewriteFrom (endsWord c) r := by
  simp [rewriteFrom, matchOpAt_cons_ne c r hg hl]

theorem matchWordAt_drop (w : List Char) :
    ∀ text, matchWordAt w text = true → text = w ++ text.drop w.length := by
  induction w with
  | nil => intro text _; rfl
  | cons x w ih =>
    intro text h
    cases text with
    | nil => simp [matchWordAt] at h
    | cons c cs =>
      simp only [matchWordAt, Bool.and_eq_true, beq_iff_eq] at h
      obtain ⟨rfl, h2⟩ := h
      simp only [List.length_cons, List.drop_succ_cons, List.cons_append]
      rw [← ih cs h2]

theorem replaceFrom_word (w : List Char) (hw : ∀ x ∈ w, isWordChar x = true)
    (tail : List Char) : replaceFrom true (w ++ tail) = w ++ replaceFrom true tail := by
  induction w with
  | nil => rfl
  | cons x w ih =>
    have hx := hw x (List.mem_cons_self x w)
    have e := ih (fun y hy => hw y (List.mem_cons_of_mem x hy))
    simp only [List.cons_append, replaceFrom, Bool.not_true, Bool.false_and,
      Bool.false_eq_true, if_false, hx]
    exact congrArg (List.cons x) e

theorem replaceFrom_match (w text : List Char) (hne : w ≠ [])
    (hw : ∀ x ∈ w, isWordChar x = true) (hm : matchWordAt w text = true)
    (hop : matchOpAt text = true) :
    replaceFrom false text = '$' :: w ++ replaceFrom true (text.drop w.length) := by
  have hsplit := matchWordAt_drop w text hm
  cases w with
  | nil => exact absurd rfl hne
  | cons x w =>
    have hx := hw x (List.mem_cons_self x w)
    generalize text.drop (x :: w).length = tail at hsplit
    subst hsplit
    rw [List.cons_append] at hop ⊢
    rw [replaceFrom, hop]
    simp only [Bool.not_false, Bool.and_self, if_true, hx, List.cons_append]
    rw [replaceFrom_word w (fun y hy => hw y (List.mem_cons_of_mem x hy))]

theorem replaceScan_eq_replaceFrom (fuel : Nat) :
    ∀ (p : Bool) (text : List Char), text.length ≤ fuel →
      replaceScan fuel p text = replaceFrom p text := by
  induction fuel with
  | zero =>
    intro p text h
    have : text = [] := List.length_eq_zero.mp (Nat.le_zero.mp h)
    subst this
    rfl
  | succ f ih =>
    intro p text h
    cases text with
    | nil => rfl
    | cons c rest =>
      have hr : rest.length ≤ f := by simpa using h
      cases p with
      | true =>
        simp only [replaceScan, if_true, replaceFrom, Bool.not_true, Bool.false_and,
          Bool.false_eq_true, if_false]
        rw [ih _ rest hr]
      | false =>
        simp only [replaceScan, Bool.false_eq_true, if_false]
        have hdrop : ∀ n, 0 < n → ((c :: rest).drop n).length ≤ f := by
          intro n hn
          simp only [List.length_drop, List.length_cons]
          omega
        unfold matchedOp
        split_ifs with h1 h2 h3 h4
        · show '$' :: ['g', 't', 'e'] ++ replaceScan f true ((c :: rest).drop 3) = _
          rw [ih _ _ (hdrop 3 (by decide))]
          exact (replaceFrom_match ['g', 't', 'e'] _ (by simp) (by decide) h1
            (by simp [matchOpAt, h1])).symm
        · show '$' :: ['g', 't'] ++ replaceScan f true ((c :: rest).drop 2) = _
          rw [ih _ _ (hdrop 2 (by decide))]
          exact (replaceFrom_match ['g', 't'] _ (by simp) (by decide) h2
            (by simp [matchOpAt, h2])).symm
        · show '$' :: ['l', 't', 'e'] ++ replaceScan f true ((c :: rest).drop 3) = _
          rw [ih _ _ (hdrop 3 (by decide))]
          exact (replaceFrom_match ['l', 't', 'e'] _ (by simp) (by decide) h3
            (by simp [matchOpAt, h3])).symm
        · show '$' :: ['l', 't'] ++ replaceScan f true ((c :: rest).drop 2) = _
          rw [ih _ _ (hdrop 2 (by decide))]
          exact (replaceFrom_match ['l', 't'] _ (by simp) (by decide) h4
            (by simp [matchOpAt, h4])).symm
        · have hop : matchOpAt (c :: rest) = false := by
            simp [matchOpAt, h1, h2, h3, h4]
          simp only
          rw [ih _ rest hr, replaceFrom, hop]
          simp

theorem replaceOps_eq_replaceFrom (text : List Char) :
    replaceOps text = replaceFrom false text :=
  replaceScan_eq_replaceFrom text.length false text (le_refl _)

theorem hexDigit_facts : ∀ n, n < 16 →
    hexDigit n ≠ 'g' ∧ hexDigit n ≠ 'l' ∧ isWordChar (hexDigit n) = true
      ∧ hexVal (hexDigit n) = some n := by
  decide

theorem unicodeEscape_control (c : Char) (h : c.toNat < 32) :
    unicodeEscape '0' '0' (hexDigit (c.toNat / 16)) (hexDigit (c.toNat % 16)) = some c := by
  have h1 := (hexDigit_facts (c.toNat / 16) (by omega)).2.2.2
  have h2 := (hexDigit_facts (c.toNat % 16) (by omega)).2.2.2
  have h0 : hexVal '0' = some 0 := by decide
  unfold unicodeEscape
  rw [h0, h1, h2]
  simp only
  have e : ((0 * 16 + 0) * 16 + c.toNat / 16) * 16 + c.toNat % 16 = c.toNat := by omega
  rw [e, if_neg (by omega)]
  simp [Char.ofNat_toNat]

theorem readString_plain (c : Char) (more : List Char) (h1 : c ≠ '"') (h2 : c ≠ '\\')
    (h3 : ¬ c.toNat < 32) : readString (c :: more) = consTo c (readString more) := by
  rw [readString.eq_def]
  simp only [if_neg h1, if_neg h2, if_neg h3]

theorem readString_unicode (a b u : Char) (more : List Char)
    (h : unicodeEscape '0' '0' a b = some u) :
    readString ('\\' :: 'u' :: '0' :: '0' :: a :: b :: more) = consTo u (readString more) := by
  rw [readString.eq_def]
  simp [h]

theorem readString_escapeChar (c : Char) (more : List Char) :
    readString (escapeChar c ++ more) = consTo c (readString more) := by
  unfold escapeChar
  split_ifs with h1 h2 h3 h4 h5 h6 h7 h8
  · subst h1; rw [readString.eq_def]; simp
  · subst h2; rw [readString.eq_def]; simp
  · subst h3; rw [readString.eq_def]; simp
  · subst h4; rw [readString.eq_def]; simp
  · subst h5; rw [readString.eq_def]; simp
  · subst h6; rw [readString.eq_def]; simp
  · subst h7; rw [readString.eq_def]; simp
  · exact readString_unicode _ _ c more (unicodeEscape_control c h8)
  · exact readString_plain c more h1 h2 h8

theorem readString_escapeAll (s rest : List Char) :
    readString (escapeAll s ++ '"' :: rest) = some (s, rest) := by
  induction s with
  | nil =>
    rw [escapeAll, List.nil_append, readString.eq_def]
    simp
  | cons c cs ih =>
    simp only [escapeAll, List.append_assoc]
    rw [readString_escapeChar, ih]
    rfl

theorem wordChar_bounds (c : Char) (h : isWordChar c = true) :
    48 ≤ c.toNat ∧ c.toNat ≠ 92 := by
  have h2 : (65 ≤ c.toNat ∧ c.toNat ≤ 90) ∨ (97 ≤ c.toNat ∧ c.toNat ≤ 122)
      ∨ (48 ≤ c.toNat ∧ c.toNat ≤ 57) ∨ c.toNat = 95 := by
    simp only [isWordChar, Char.isAlphanum, Char.isAlpha, Char.isUpper, Char.isLower,
      Char.isDigit, Bool.or_eq_true, Bool.and_eq_true, decide_eq_true_eq, beq_iff_eq] at h
    rcases h with ((⟨h1, h2⟩ | ⟨h1, h2⟩) | ⟨h1, h2⟩) | h
    · left; exact ⟨h1, h2⟩
    · right; left; exact ⟨h1, h2⟩
    · right; right; left; exact ⟨h1, h2⟩
    · right; right; right; rw [h]; rfl
  omega

theorem escapeChar_word (c : Char) (h : isWordChar c = true) : escapeChar c = [c] := by
  have hb := wordChar_bounds c h
  have n1 : c ≠ '"' := by intro e; rw [e] at hb; exact absurd hb.1 (by decide)
  have n2 : c ≠ '\\' := by intro e; rw [e] at hb; exact absurd rfl hb.2
  have n3 : c ≠ '\x08' := by intro e; rw [e] at hb; exact absurd hb.1 (by decide)
  have n4 : c ≠ '\x0c' := by intro e; rw [e] at hb; exact absurd hb.1 (by decide)
  have n5 : c ≠ '\n' := by intro e; rw [e] at hb; exact absurd hb.1 (by decide)
  have n6 : c ≠ '\r' := by intro e; rw [e] at hb; exact absurd hb.1 (by decide)
  have n7 : c ≠ '\t' := by intro e; rw [e] at hb; exact absurd hb.1 (by decide)
  have n8 : ¬ c.toNat < 32 := by omega
  simp only [escapeChar, if_neg n1, if_neg n2, if_neg n3, if_neg n4, if_neg n5, if_neg n6,
    if_neg n7, if_neg n8]

theorem escapeChar_nonword (c : Char) (h : isWordChar c = false) :
    ∃ x t, escapeChar c = x :: t ∧ isWordChar x = false := by
  unfold escapeChar
  split_ifs
  all_goals first
    | exact ⟨'\\', _, rfl, by decide⟩
    | exact ⟨c, [], rfl, h⟩

theorem matchWordAt_nil_escape (c : Char) (more : List Char) :
    matchWordAt [] (escapeChar c ++ more) = !isWordChar c := by
  cases h : isWordChar c with
  | true => rw [escapeChar_word c h]; simp [matchWordAt, h]
  | false =>
    obtain ⟨x, t, e, hx⟩ := escapeChar_nonword c h
    rw [e]
    simp [matchWordAt, hx]

theorem ne_of_word_nonword (x c : Char) (hx : isWordChar x = true)
    (hc : isWordChar c = false) : (x == c) = false := by
  rw [beq_eq_false_iff_ne]
  intro e
  rw [e, hc] at hx
  exact absurd hx (by decide)

theorem matchWordAt_cons_escape (x : Char) (w : List Char) (c : Char) (more : List Char)
    (hx : isWordChar x = true) :
    matchWordAt (x :: w) (escapeChar c ++ more) = (x == c && matchWordAt w more) := by
  cases h : isWordChar c with
  | true => rw [escapeChar_word c h]; simp [matchWordAt]
  | false =>
    obtain ⟨y, t, e, hy⟩ := escapeChar_nonword c h
    rw [e]
    simp [matchWordAt, ne_of_word_nonword x y hx hy, ne_of_word_nonword x c hx h]

theorem matchWordAt_escapeAll (w : List Char) (hw : ∀ x ∈ w, isWordChar x = true) :
    ∀ (l rest : List Char),
      matchWordAt w (escapeAll l ++ '"' :: rest) = matchWordAt w l := by
  induction w with
  | nil =>
    intro l rest
    cases l with
    | nil => simp [escapeAll, matchWordAt]; decide
    | cons c cs =>
      simp only [escapeAll, List.append_assoc]
      rw [matchWordAt_nil_escape]
      simp [matchWordAt]
  | cons x w ih =>
    intro l rest
    have hx := hw x (List.mem_cons_self x w)
    cases l with
    | nil =>
      have : (x == '"') = false := ne_of_word_nonword x '"' hx (by decide)
      simp [escapeAll, matchWordAt, this]
    | cons c cs =>
      simp only [escapeAll, List.append_assoc]
      rw [matchWordAt_cons_escape x w c _ hx,
        ih (fun y hy => hw y (List.mem_cons_of_mem x hy))]
      simp [matchWordAt]

theorem matchOpAt_escapeAll (c : Char) (cs rest : List Char) :
    matchOpAt (c :: (escapeAll cs ++ '"' :: rest)) = matchOpAt (c :: cs) := by
  have h1 := matchWordAt_escapeAll ['t', 'e'] (by decide) cs rest
  have h2 := matchWordAt_escapeAll ['t'] (by decide) cs rest
  simp only [matchOpAt, matchWordAt, h1, h2]

theorem endsWord_of_plain (c : Char) (h : ¬ c.toNat < 32) : endsWord c = isWordChar c := by
  simp [endsWord, h]

theorem replaceFrom_escaped (p : Bool) (c : Char) (more : List Char)
    (h : c = '"' ∨ c = '\\' ∨ c.toNat < 32) :
    replaceFrom p (escapeChar c ++ more) = escapeChar c ++ replaceFrom (endsWord c) more
      ∧ c ≠ 'g' ∧ c ≠ 'l' := by
  have hg : c ≠ 'g' := by
    rintro rfl
    rcases h with h | h | h <;> exact absurd h (by decide)
  have hl : c ≠ 'l' := by
    rintro rfl
    rcases h with h | h | h <;> exact absurd h (by decide)
  refine ⟨?_, hg, hl⟩
  unfold escapeChar
  split_ifs with h1 h2 h3 h4 h5 h6 h7 h8
  · subst h1
    simp only [List.cons_append, List.nil_append]
    rw [replaceFrom_cons_ne _ _ _ (by decide) (by decide),
      replaceFrom_cons_ne _ _ _ (by decide) (by decide)]
    rfl
  · subst h2
    simp only [List.cons_append, List.nil_append]
    rw [replaceFrom_cons_ne _ _ _ (by decide) (by decide),
      replaceFrom_cons_ne _ _ _ (by decide) (by decide)]
    rfl
  · subst h3
    simp only [List.cons_append, List.nil_append]
    rw [replaceFrom_cons_ne _ _ _ (by decide) (by decide),
      replaceFrom_cons_ne _ _ _ (by decide) (by decide)]
    rfl
  · subst h4
    simp only [List.cons_append, List.nil_append]
    rw [replaceFrom_cons_ne _ _ _ (by decide) (by decide),
      replaceFrom_cons_ne _ _ _ (by decide) (by decide)]
    rfl
  · subst h5
    simp only [List.cons_append, List.nil_append]
    rw [replaceFrom_cons_ne _ _ _ (by decide) (by decide),
      replaceFrom_cons_ne _ _ _ (by decide) (by decide)]
    rfl
  · subst h6
    simp only [List.cons_append, List.nil_append]
    rw [replaceFrom_cons_ne _ _ _ (by decide) (by decide),
      replaceFrom_cons_ne _ _ _ (by decide) (by decide)]
    rfl
  · subst h7
    simp only [List.cons_append, List.nil_append]
    rw [replaceFrom_cons_ne _ _ _ (by decide) (by decide),
      replaceFrom_cons_ne _ _ _ (by decide) (by decide)]
    rfl
  · obtain ⟨a1, a2, a3, _⟩ := hexDigit_facts (c.toNat / 16) (by omega)
    obtain ⟨b1, b2, b3, _⟩ := hexDigit_facts (c.toNat % 16) (by omega)
    simp only [List.cons_append, List.nil_append]
    rw [replaceFrom_cons_ne _ _ _ (by decide) (by decide),
      replaceFrom_cons_ne _ _ _ (by decide) (by decide),
      replaceFrom_cons_ne _ _ _ (by decide) (by decide),
      replaceFrom_cons_ne _ _ _ (by decide) (by decide),
      replaceFrom_cons_ne _ _ _ a1 a2, replaceFrom_cons_ne _ _ _ b1 b2, b3]
    simp [endsWord, h8]
  · rcases h with h | h | h
    · exact absurd h h1
    · exact absurd h h2
    · exact absurd h h8

theorem escapeChar_plain (c : Char) (h1 : c ≠ '"') (h2 : c ≠ '\\') (h3 : ¬ c.toNat < 32) :
    escapeChar c = [c] := by
  have n3 : c ≠ '\x08' := by rintro rfl; exact h3 (by decide)
  have n4 : c ≠ '\x0c' := by rintro rfl; exact h3 (by decide)
  have n5 : c ≠ '\n' := by rintro rfl; exact h3 (by decide)
  have n6 : c ≠ '\r' := by rintro rfl; exact h3 (by decide)
  have n7 : c ≠ '\t' := by rintro rfl; exact h3 (by decide)
  simp only [escapeChar, if_neg h1, if_neg h2, if_neg n3, if_neg n4, if_neg n5, if_neg n6,
    if_neg n7, if_neg h3]

theorem replaceFrom_escapeAll (s : List Char) :
    ∀ (p : Bool) (rest : List Char),
      replaceFrom p (escapeAll s ++ '"' :: rest)
        = escapeAll (rewriteFrom p s) ++ '"' :: replaceFrom false rest := by
  induction s with
  | nil =>
    intro p rest
    simp only [escapeAll, rewriteFrom, List.nil_append]
    rw [replaceFrom_cons_ne _ _ _ (by decide) (by decide)]
    rfl
  | cons c cs ih =>
    intro p rest
    by_cases h : c = '"' ∨ c = '\\' ∨ c.toNat < 32
    · obtain ⟨e, hg, hl⟩ := replaceFrom_escaped p c (escapeAll cs ++ '"' :: rest) h
      simp only [escapeAll, List.append_assoc]
      rw [e, rewriteFrom_cons_ne p c cs hg hl, ih]
      simp only [escapeAll, List.append_assoc]
    · have h1 : c ≠ '"' := fun e => h (Or.inl e)
      have h2 : c ≠ '\\' := fun e => h (Or.inr (Or.inl e))
      have h3 : ¬ c.toNat < 32 := fun e => h (Or.inr (Or.inr e))
      have hc := escapeChar_plain c h1 h2 h3
      have hd : escapeChar '$' = ['$'] := by decide
      simp only [escapeAll, hc, List.cons_append, List.nil_append]
      rw [replaceFrom, rewriteFrom, matchOpAt_escapeAll, endsWord_of_plain c h3]
      split
      · simp only [escapeAll, hc, hd, List.cons_append, List.nil_append, ih]
      · simp only [escapeAll, hc, List.cons_append, List.nil_append, ih]

theorem replaceFrom_quoteJSON (s : String) (p : Bool) (rest : List Char) :
    replaceFrom p (quoteJSON s ++ rest)
      = quoteJSON (rewriteStr s) ++ replaceFrom false rest := by
  simp only [quoteJSON, List.cons_append, List.append_assoc, List.nil_append, rewriteStr]
  rw [replaceFrom_cons_ne _ _ _ (by decide) (by decide), replaceFrom_escapeAll]
  rfl

theorem replaceFrom_punct (c : Char) (p : Bool) (rest : List Char)
    (h : c = ',' ∨ c = ':' ∨ c = '[' ∨ c = ']' ∨ c = '{' ∨ c = '}') :
    replaceFrom p (c :: rest) = c :: replaceFrom false rest := by
  rcases h with h | h | h | h | h | h <;> subst h <;>
    (rw [replaceFrom_cons_ne _ _ _ (by decide) (by decide)]; rfl)

mutual
theorem replaceFrom_stringify (v : QVal) (p : Bool) (rest : List Char) :
    replaceFrom p (stringify v ++ rest)
      = stringify (mapStrings rewriteStr v) ++ replaceFrom false rest := by
  match v with
  | .str s =>
    simp only [stringify, mapStrings]
    exact replaceFrom_quoteJSON s p rest
  | .arr items =>
    simp only [stringify, mapStrings, List.cons_append, List.append_assoc, List.nil_append]
    rw [replaceFrom_punct '[' p _ (by simp), replaceFrom_stringifyItems items false rest]
  | .obj members =>
    simp only [stringify, mapStrings, List.cons_append, List.append_assoc, List.nil_append]
    rw [replaceFrom_punct '{' p _ (by simp), replaceFrom_stringifyMembers members false rest]
theorem replaceFrom_stringifyItems (items : List QVal) (p : Bool) (rest : List Char) :
    replaceFrom p (stringifyItems items ++ ']' :: rest)
      = stringifyItems (mapStringsItems rewriteStr items) ++ ']' :: replaceFrom false rest := by
  match items with
  | [] =>
    simp only [stringifyItems, mapStringsItems, List.nil_append]
    exact replaceFrom_punct ']' p rest (by simp)
  | [v] =>
    simp only [stringifyItems, mapStringsItems]
    rw [replaceFrom_stringify v p _, replaceFrom_punct ']' false rest (by simp)]
  | v :: w :: vs =>
    have ih := replaceFrom_stringifyItems (w :: vs) false rest
    simp only [mapStringsItems] at ih
    simp only [stringifyItems, mapStringsItems, List.append_assoc, List.cons_append]
    rw [replaceFrom_stringify v p _, replaceFrom_punct ',' false _ (by simp), ih]
theorem replaceFrom_stringifyMembers (ms : List (String × QVal)) (p : Bool)
    (rest : List Char) :
    replaceFrom p (stringifyMembers ms ++ '}' :: rest)
      = stringifyMembers (mapStringsMembers rewriteStr ms) ++ '}' :: replaceFrom false rest := by
  match ms with
  | [] =>
    simp only [stringifyMembers, mapStringsMembers, List.nil_append]
    exact replaceFrom_punct '}' p rest (by simp)
  | [(k, v)] =>
    simp only [stringifyMembers, mapStringsMembers, List.append_assoc, List.cons_append]
    rw [replaceFrom_quoteJSON k p _, replaceFrom_punct ':' false _ (by simp),
      replaceFrom_stringify v false _, replaceFrom_punct '}' false rest (by simp)]
  | (k, v) :: w :: vs =>
    have ih := replaceFrom_stringifyMembers (w :: vs) false rest
    obtain ⟨k2, v2⟩ := w
    simp only [mapStringsMembers] at ih
    simp only [stringifyMembers, mapStringsMembers, List.append_assoc, List.cons_append]
    rw [replaceFrom_quoteJSON k p _, replaceFrom_punct ':' false _ (by simp),
      replaceFrom_stringify v false _, replaceFrom_punct ',' false _ (by simp), ih]
end

theorem replaceOps_stringify (v : QVal) :
    replaceOps (stringify v) = stringify (mapStrings rewriteStr v) := by
  have h := replaceFrom_stringify v false []
  rw [replaceOps_eq_replaceFrom]
  simpa [replaceFrom] using h

/-! ## JSON.parse reads back what JSON.stringify wrote -/

theorem parseValue_str (f : Nat) (t : List Char) :
    parseValue (f + 1) ('"' :: t)
      = (readString t).map fun p => (QVal.str (String.mk p.1), p.2) := by
  rw [parseValue]
  simp

theorem parseValue_arr_nil (f : Nat) (r : List Char) :
    parseValue (f + 1) ('[' :: ']' :: r) = some (QVal.arr [], r) := by
  rw [parseValue]
  simp

theorem parseValue_obj_nil (f : Nat) (r : List Char) :
    parseValue (f + 1) ('{' :: '}' :: r) = some (QVal.obj [], r) := by
  rw [parseValue]
  simp

theorem parseValue_arr (f : Nat) (c : Char) (t : List Char) (hc : c ≠ ']') :
    parseValue (f + 1) ('[' :: c :: t)
      = (parseItems f (c :: t)).map fun p => (QVal.arr p.1, p.2) := by
  rw [parseValue]
  simp [hc]

theorem parseValue_obj (f : Nat) (c : Char) (t : List Char) (hc : c ≠ '}') :
    parseValue (f + 1) ('{' :: c :: t)
      = (parseMembers f (c :: t)).map fun p => (QVal.obj (buildObject p.1), p.2) := by
  rw [parseValue]
  simp [hc]

theorem parseItems_last (f : Nat) (text : List Char) (v : QVal) (r : List Char)
    (h : parseValue f text = some (v, ']' :: r)) :
    parseItems (f + 1) text = some ([v], r) := by
  rw [parseItems, h]
  simp

theorem parseItems_more (f : Nat) (text : List Char) (v : QVal) (r : List Char)
    (vs : List QVal) (r2 : List Char)
    (h : parseValue f text = some (v, ',' :: r)) (h2 : parseItems f r = some (vs, r2)) :
    parseItems (f + 1) text = some (v :: vs, r2) := by
  rw [parseItems, h]
  simp [h2]

theorem parseMembers_last (f : Nat) (t : List Char) (k : List Char) (t2 : List Char)
    (v : QVal) (r : List Char)
    (hk : readString t = some (k, ':' :: t2))
    (h : parseValue f t2 = some (v, '}' :: r)) :
    parseMembers (f + 1) ('"' :: t) = some ([(String.mk k, v)], r) := by
  rw [parseMembers]
  simp [hk, h]

theorem parseMembers_more (f : Nat) (t : List Char) (k : List Char) (t2 : List Char)
    (v : QVal) (r : List Char) (ms : List (String × QVal)) (r2 : List Char)
    (hk : readString t = some (k, ':' :: t2))
    (h : parseValue f t2 = some (v, ',' :: r)) (h2 : parseMembers f r = some (ms, r2)) :
    parseMembers (f + 1) ('"' :: t) = some ((String.mk k, v) :: ms, r2) := by
  rw [parseMembers]
  simp [hk, h, h2]

theorem quoteJSON_length (s : String) : 2 ≤ (quoteJSON s).length := by
  simp [quoteJSON]

theorem stringify_head (v : QVal) :
    ∃ c t, stringify v = c :: t ∧ c ≠ ']' ∧ c ≠ '}' ∧ 1 ≤ t.length := by
  cases v with
  | str s => exact ⟨'"', _, rfl, by decide, by decide, by simp⟩
  | arr items => exact ⟨'[', _, rfl, by decide, by decide, by simp⟩
  | obj ms => exact ⟨'{', _, rfl, by decide, by decide, by simp⟩

theorem stringifyItems_head (items : List QVal) (hne : items ≠ []) :
    ∃ c t, stringifyItems items = c :: t ∧ c ≠ ']' := by
  match items with
  | [] => exact absurd rfl hne
  | [v] =>
    obtain ⟨c, t, e, h1, _, _⟩ := stringify_head v
    exact ⟨c, t, by simp [stringifyItems, e], h1⟩
  | v :: w :: vs =>
    obtain ⟨c, t, e, h1, _, _⟩ := stringify_head v
    exact ⟨c, _, by simp only [stringifyItems, e, List.cons_append]; rfl, h1⟩

theorem stringifyMembers_head (ms : List (String × QVal)) (hne : ms ≠ []) :
    ∃ t, stringifyMembers ms = '"' :: t := by
  match ms with
  | [] => exact absurd rfl hne
  | [(k, v)] => exact ⟨_, by simp only [stringifyMembers, quoteJSON, List.cons_append]; rfl⟩
  | (k, v) :: w :: vs =>
    exact ⟨_, by simp only [stringifyMembers, quoteJSON, List.cons_append]; rfl⟩

mutual
theorem parseValue_stringify (v : QVal) (fuel : Nat) (rest : List Char)
    (h : (stringify v).length ≤ fuel) :
    parseValue fuel (stringify v ++ rest) = some (normalize v, rest) := by
  match v with
  | .str s =>
    have hl := quoteJSON_length s
    simp only [stringify] at h
    obtain ⟨f, rfl⟩ : ∃ f, fuel = f + 1 := ⟨fuel - 1, by omega⟩
    simp only [stringify, normalize, quoteJSON, List.cons_append, List.append_assoc,
      List.nil_append]
    rw [parseValue_str, readString_escapeAll]
    rfl
  | .arr items =>
    simp only [stringify, List.length_cons, List.length_append, List.length_nil] at h
    obtain ⟨f, rfl⟩ : ∃ f, fuel = f + 1 := ⟨fuel - 1, by omega⟩
    by_cases hne : items = []
    · subst hne
      simp only [stringify, stringifyItems, normalize, normalizeItems, List.cons_append,
        List.nil_append]
      exact parseValue_arr_nil f rest
    · obtain ⟨c, t, e, hc⟩ := stringifyItems_head items hne
      have ih := parseItems_stringify items hne f rest (by omega)
      simp only [stringify, normalize, List.cons_append, List.append_assoc, List.nil_append]
      rw [e] at ih ⊢
      rw [List.cons_append] at ih ⊢
      rw [parseValue_arr f c _ hc, ih]
      rfl
  | .obj ms =>
    simp only [stringify, List.length_cons, List.length_append, List.length_nil] at h
    obtain ⟨f, rfl⟩ : ∃ f, fuel = f + 1 := ⟨fuel - 1, by omega⟩
    by_cases hne : ms = []
    · subst hne
      simp only [stringify, stringifyMembers, normalize, normalizeMembers, List.cons_append,
        List.nil_append]
      exact parseValue_obj_nil f rest
    · obtain ⟨t, e⟩ := stringifyMembers_head ms hne
      have ih := parseMembers_stringify ms hne f rest (by omega)
      simp only [stringify, normalize, List.cons_append, List.append_assoc, List.nil_append]
      rw [e] at ih ⊢
      rw [List.cons_append] at ih ⊢
      rw [parseValue_obj f '"' _ (by decide), ih]
      rfl
theorem parseItems_stringify (items : List QVal) (hne : items ≠ []) (fuel : Nat)
    (rest : List Char) (h : (stringifyItems items).length + 1 ≤ fuel) :
    parseItems fuel (stringifyItems items ++ ']' :: rest)
      = some (normalizeItems items, rest) := by
  match items with
  | [] => exact absurd rfl hne
  | [v] =>
    obtain ⟨f, rfl⟩ : ∃ f, fuel = f + 1 := ⟨fuel - 1, by omega⟩
    simp only [stringifyItems] at h ⊢
    exact parseItems_last f _ (normalize v) rest
      (parseValue_stringify v f (']' :: rest) (by omega))
  | v :: w :: vs =>
    obtain ⟨f, rfl⟩ : ∃ f, fuel = f + 1 := ⟨fuel - 1, by omega⟩
    obtain ⟨_, _, e, _, _, hl⟩ := stringify_head v
    have hv : 2 ≤ (stringify v).length := by rw [e]; simp; omega
    simp only [stringifyItems, List.length_append, List.length_cons] at h
    simp only [stringifyItems, List.append_assoc, List.cons_append]
    exact parseItems_more f _ (normalize v) _ (normalizeItems (w :: vs)) rest
      (parseValue_stringify v f _ (by omega))
      (parseItems_stringify (w :: vs) (by simp) f rest (by omega))
theorem parseMembers_stringify (ms : List (String × QVal)) (hne : ms ≠ []) (fuel : Nat)
    (rest : List Char) (h : (stringifyMembers ms).length + 1 ≤ fuel) :
    parseMembers fuel (stringifyMembers ms ++ '}' :: rest)
      = some (normalizeMembers ms, rest) := by
  match ms with
  | [] => exact absurd rfl hne
  | [(k, v)] =>
    obtain ⟨f, rfl⟩ : ∃ f, fuel = f + 1 := ⟨fuel - 1, by omega⟩
    simp only [stringifyMembers, List.length_append, List.length_cons] at h
    simp only [stringifyMembers, quoteJSON, List.append_assoc, List.cons_append,
      List.nil_append]
    exact parseMembers_last f _ k.data _ (normalize v) rest (readString_escapeAll _ _)
      (parseValue_stringify v f _ (by omega))
  | (k, v) :: w :: vs =>
    obtain ⟨f, rfl⟩ : ∃ f, fuel = f + 1 := ⟨fuel - 1, by omega⟩
    have hq := quoteJSON_length k
    simp only [stringifyMembers, List.length_append, List.length_cons] at h
    simp only [stringifyMembers, quoteJSON, List.append_assoc, List.cons_append,
      List.nil_append]
    exact parseMembers_more f _ k.data _ (normalize v) _ (normalizeMembers (w :: vs)) rest
      (readString_escapeAll _ _)
      (parseValue_stringify v f _ (by omega))
      (parseMembers_stringify (w :: vs) (by simp) f rest (by omega))
end

theorem jsonParse_stringify (v : QVal) : jsonParse (stringify v) = some (normalize v) := by
  have h := parseValue_stringify v ((stringify v).length + 1) [] (by omega)
  rw [List.append_nil] at h
  simp [jsonParse, h]

/-- The predicate `filter` builds, in closed form: the query string without the reserved keys,
every key and string rewritten by the operator replacement, read back as an object. -/
theorem filterPredicate_eq (qs : List (String × QVal)) :
    filterPredicate qs = some (normalize (mapStrings rewriteStr
      (QVal.obj (excludedFields.foldl (fun o el => deleteKey el o) qs)))) := by
  simp only [filterPredicate]
  rw [replaceOps_stringify, jsonParse_stringify]

/-! ## Filtering -/

theorem foldl_deleteKey (qs : List (String × QVal)) :
    excludedFields.foldl (fun o el => deleteKey el o) qs = withoutReserved qs := by
  simp only [excludedFields, List.foldl, deleteKey, withoutReserved, List.filter_filter]
  congr 1
  funext m
  simp only [List.mem_cons, List.mem_singleton, List.not_mem_nil, or_false, not_or,
    Bool.and_eq_true, bne_iff_ne, ne_eq, decide_eq_true_eq, Bool.decide_and,
    Bool.decide_eq_true, eq_iff_iff]
  by_cases h1 : m.1 = "page" <;> by_cases h2 : m.1 = "sort" <;> by_cases h3 : m.1 = "limit" <;>
    by_cases h4 : m.1 = "fields" <;> simp [h1, h2, h3, h4]

theorem rewriteFrom_of_noOp (s : List Char) :
    ∀ p q : Bool, (p = true → q = true) → hasOpWordFrom p s = false → rewriteFrom q s = s := by
  induction s with
  | nil => intro p q _ _; rfl
  | cons c cs ih =>
    intro p q hpq h
    simp only [hasOpWordFrom, Bool.or_eq_false_iff, Bool.and_eq_false_imp,
      Bool.not_eq_true'] at h
    obtain ⟨h1, h2⟩ := h
    have hcond : (!q && matchOpAt (c :: cs)) = false := by
      cases q with
      | true => rfl
      | false =>
        have hp : p = false := by
          cases p with
          | true => exact absurd (hpq rfl) (by decide)
          | false => rfl
        simp [h1 hp]
    have hrec : rewriteFrom (endsWord c) cs = cs :=
      ih (isWordChar c) (endsWord c) (fun hw => by simp [endsWord, hw]) h2
    rw [rewriteFrom, hcond, hrec]
    simp

theorem rewriteStr_of_noOp (s : String) (h : hasOpWord s = false) : rewriteStr s = s := by
  have := rewriteFrom_of_noOp s.data false false (fun e => e) h
  simp only [rewriteStr, this]

theorem setMember_fresh (k : String) (v : QVal) (o : List (String × QVal))
    (h : k ∉ o.map Prod.fst) : setMember k v o = o ++ [(k, v)] := by
  induction o with
  | nil => rfl
  | cons m ms ih =>
    obtain ⟨k1, v1⟩ := m
    simp only [List.map_cons, List.mem_cons, not_or] at h
    have hne : ¬ k1 = k := fun e => h.1 e.symm
    simp only [setMember, if_neg hne, ih h.2, List.cons_append]

theorem foldl_setMember_nodup (ms : List (String × QVal)) :
    ∀ acc : List (String × QVal), ((acc ++ ms).map Prod.fst).Nodup →
      ms.foldl (fun o m => setMember m.1 m.2 o) acc = acc ++ ms := by
  induction ms with
  | nil => intro acc _; simp
  | cons m ms ih =>
    intro acc h
    have hfresh : m.1 ∉ acc.map Prod.fst := by
      intro hm
      rw [List.map_append, List.map_cons] at h
      have := (List.nodup_append.mp h).2.2
      exact this hm (List.mem_cons_self _ _)
    simp only [List.foldl_cons]
    rw [setMember_fresh m.1 m.2 acc hfresh, ih]
    · simp
    · simpa using h

theorem buildObject_nodup (ms : List (String × QVal)) (h : (ms.map Prod.fst).Nodup) :
    buildObject ms = ms := by
  have := foldl_setMember_nodup ms [] (by simpa using h)
  simpa [buildObject] using this

theorem mapStringsMembers_flat (ms : List (String × QVal))
    (h : ∀ m ∈ ms, ∃ s, m.2 = QVal.str s ∧ hasOpWord m.1 = false ∧ hasOpWord s = false) :
    mapStringsMembers rewriteStr ms = ms ∧ normalizeMembers ms = ms := by
  induction ms with
  | nil => exact ⟨rfl, rfl⟩
  | cons m ms ih =>
    obtain ⟨k, v⟩ := m
    obtain ⟨s, hv, hk, hs⟩ := h (k, v) (List.mem_cons_self _ _)
    simp only at hv hk
    subst hv
    obtain ⟨i1, i2⟩ := ih (fun m hm => h m (List.mem_cons_of_mem _ hm))
    constructor
    · simp only [mapStringsMembers, mapStrings, rewriteStr_of_noOp k hk,
        rewriteStr_of_noOp s hs, i1]
    · simp only [normalizeMembers, normalize, i2]

theorem getProp_filter (k : String) (p : String → Bool) (qs : List (String × QVal)) :
    getProp k (qs.filter (fun m => p m.1)) = if p k then getProp k qs else none := by
  induction qs with
  | nil => simp [getProp]
  | cons m ms ih =>
    obtain ⟨k1, v⟩ := m
    by_cases hk : k1 = k
    · subst hk
      cases hp : p k1 with
      | true => simp [List.filter, hp, getProp]
      | false => simp [List.filter, hp, ih]
    · cases hp : p k1 with
      | true => simp [List.filter, hp, getProp, hk, ih]
      | false => simp [List.filter, hp, getProp, hk, ih]

/-- Counterexample to C2 as stated: the plain string value `gt` of the unknown field `name` is
not passed through unchanged, the predicate holds `$gt` instead. -/
theorem C2_counterexample_operator_word_value :
    filterPredicate [("name", .str "gt")] = some (QVal.obj [("name", .str "$gt")])
    ∧ filterPredicate [("name", .str "gt")] ≠ some (QVal.obj [("name", .str "gt")]) := by
  have h : filterPredicate [("name", .str "gt")] = some (QVal.obj [("name", .str "$gt")]) := by
    rfl
  refine ⟨h, ?_⟩
  rw [h]
  intro e
  simp at e

/-- C2, amended: for every raw query string (an object, so with distinct keys) whose
non-reserved keys all carry plain string values, and in which no non-reserved key or value
contains `gte`, `gt`, `lte` or `lt` as a whole word, the predicate `filter` passes to `find`
consists of exactly the members outside `page`, `sort`, `limit`, `fields`, each with its
original string value, and contains none of the reserved keys. -/
theorem C2_equality_passthrough (qs : List (String × QVal))
    (hkeys : (qs.map Prod.fst).Nodup)
    (hplain : ∀ m ∈ qs, m.1 ∉ excludedFields →
      ∃ s, m.2 = QVal.str s ∧ hasOpWord m.1 = false ∧ hasOpWord s = false) :
    filterPredicate qs = some (QVal.obj (withoutReserved qs))
    ∧ ∀ k, getProp k (withoutReserved qs)
        = if k ∈ excludedFields then none else getProp k qs := by
  constructor
  · have hflat : ∀ m ∈ withoutReserved qs,
        ∃ s, m.2 = QVal.str s ∧ hasOpWord m.1 = false ∧ hasOpWord s = false := by
      intro m hm
      simp only [withoutReserved, List.mem_filter, decide_eq_true_eq] at hm
      exact hplain m hm.1 hm.2
    obtain ⟨h1, h2⟩ := mapStringsMembers_flat (withoutReserved qs) hflat
    have hnd : ((withoutReserved qs).map Prod.fst).Nodup :=
      List.Nodup.sublist ((List.filter_sublist qs).map Prod.fst) hkeys
    rw [filterPredicate_eq, foldl_deleteKey]
    simp only [mapStrings, normalize, h1, h2, buildObject_nodup _ hnd]
  · intro k
    have := getProp_filter k (fun x => decide (x ∉ excludedFields)) qs
    simp only [withoutReserved, this]
    by_cases hk : k ∈ excludedFields <;> simp [hk]

/-- Witness of C2: a difficulty filter next to the reserved keys `sort` and `limit`. -/
theorem C2_equality_passthrough_witness :
    filterPredicate [("difficulty", .str "easy"), ("sort", .str "-price"), ("limit", .str "2")]
      = some (QVal.obj (withoutReserved
          [("difficulty", .str "easy"), ("sort", .str "-price"), ("limit", .str "2")])) :=
  (C2_equality_passthrough
    [("difficulty", .str "easy"), ("sort", .str "-price"), ("limit", .str "2")]
    (by decide)
    (by
      intro m hm hres
      simp only [List.mem_cons, List.mem_singleton, List.not_mem_nil, or_false] at hm
      rcases hm with rfl | rfl | rfl
      · exact ⟨"easy", rfl, by decide, by decide⟩
      · exact absurd (by decide) hres
      · exact absurd (by decide) hres)).1

theorem allKeysMembers_setMember (k : String) (v : QVal) (o : List (String × QVal)) :
    ∀ x ∈ allKeysMembers (setMember k v o), x ∈ k :: allKeys v ++ allKeysMembers o := by
  induction o with
  | nil =>
    intro x hx
    simpa [setMember, allKeysMembers] using hx
  | cons m ms ih =>
    obtain ⟨k1, v1⟩ := m
    intro x hx
    by_cases hk : k1 = k
    · subst hk
      simp only [setMember, if_true, allKeysMembers, List.mem_cons, List.mem_append] at hx
      simp only [allKeysMembers, List.mem_cons, List.mem_append, List.cons_append]
      tauto
    · simp only [setMember, if_neg hk, allKeysMembers, List.mem_cons, List.mem_append] at hx
      simp only [allKeysMembers, List.mem_cons, List.mem_append, List.cons_append]
      rcases hx with hx | hx | hx
      · tauto
      · tauto
      · have := ih x hx
        simp only [List.cons_append, List.mem_cons, List.mem_append] at this
        tauto

theorem allKeysMembers_foldl (ms : List (String × QVal)) :
    ∀ acc : List (String × QVal),
      ∀ x ∈ allKeysMembers (ms.foldl (fun o m => setMember m.1 m.2 o) acc),
        x ∈ allKeysMembers acc ++ allKeysMembers ms := by
  induction ms with
  | nil => intro acc x hx; simpa [allKeysMembers] using hx
  | cons m ms ih =>
    obtain ⟨k, v⟩ := m
    intro acc x hx
    simp only [List.foldl_cons] at hx
    have h1 := ih _ x hx
    simp only [List.mem_append] at h1
    simp only [allKeysMembers, List.mem_append, List.mem_cons]
    rcases h1 with h1 | h1
    · have h2 := allKeysMembers_setMember k v acc x h1
      simp only [List.cons_append, List.mem_cons, List.mem_append] at h2
      tauto
    · tauto

theorem allKeysMembers_buildObject (ms : List (String × QVal)) :
    ∀ x ∈ allKeysMembers (buildObject ms), x ∈ allKeysMembers ms := by
  intro x hx
  have := allKeysMembers_foldl ms [] x hx
  simpa [allKeysMembers] using this

mutual
theorem allKeys_normalize (v : QVal) : ∀ x ∈ allKeys (normalize v), x ∈ allKeys v := by
  match v with
  | .str s => intro x hx; simp [normalize, allKeys] at hx
  | .arr items =>
    intro x hx
    simp only [normalize, allKeys] at hx ⊢
    exact allKeys_normalizeItems items x hx
  | .obj ms =>
    intro x hx
    simp only [normalize, allKeys] at hx ⊢
    exact allKeys_normalizeMembers ms x (allKeysMembers_buildObject _ x hx)
theorem allKeys_normalizeItems (items : List QVal) :
    ∀ x ∈ allKeysItems (normalizeItems items), x ∈ allKeysItems items := by
  match items with
  | [] => intro x hx; simp [normalizeItems, allKeysItems] at hx
  | v :: vs =>
    intro x hx
    simp only [normalizeItems, allKeysItems, List.mem_append] at hx ⊢
    rcases hx with hx | hx
    · exact Or.inl (allKeys_normalize v x hx)
    · exact Or.inr (allKeys_normalizeItems vs x hx)
theorem allKeys_normalizeMembers (ms : List (String × QVal)) :
    ∀ x ∈ allKeysMembers (normalizeMembers ms), x ∈ allKeysMembers ms := by
  match ms with
  | [] => intro x hx; simp [normalizeMembers, allKeysMembers] at hx
  | (k, v) :: rest =>
    intro x hx
    simp only [normalizeMembers, allKeysMembers, List.mem_cons, List.mem_append] at hx ⊢
    rcases hx with hx | hx | hx
    · exact Or.inl hx
    · exact Or.inr (Or.inl (allKeys_normalize v x hx))
    · exact Or.inr (Or.inr (allKeys_normalizeMembers rest x hx))
end

mutual
theorem allKeys_mapStrings (f : String → String) (v : QVal) :
    allKeys (mapStrings f v) = (allKeys v).map f := by
  match v with
  | .str s => simp [mapStrings, allKeys]
  | .arr items =>
    simp only [mapStrings, allKeys]
    exact allKeys_mapStringsItems f items
  | .obj ms =>
    simp only [mapStrings, allKeys]
    exact allKeys_mapStringsMembers f ms
theorem allKeys_mapStringsItems (f : String → String) (items : List QVal) :
    allKeysItems (mapStringsItems f items) = (allKeysItems items).map f := by
  match items with
  | [] => simp [mapStringsItems, allKeysItems]
  | v :: vs =>
    simp only [mapStringsItems, allKeysItems, List.map_append]
    rw [allKeys_mapStrings f v, allKeys_mapStringsItems f vs]
theorem allKeys_mapStringsMembers (f : String → String) (ms : List (String × QVal)) :
    allKeysMembers (mapStringsMembers f ms) = (allKeysMembers ms).map f := by
  match ms with
  | [] => simp [mapStringsMembers, allKeysMembers]
  | (k, v) :: rest =>
    simp only [mapStringsMembers, allKeysMembers, List.map_append, List.map_cons]
    rw [allKeys_mapStrings f v, allKeys_mapStringsMembers f rest]
end

theorem rewriteStr_plainKey (k : String) (hk : plainKey k)
    (hd : startsWithDollar (rewriteStr k)) : rewriteStr k ∈ comparisonOperators := by
  obtain ⟨h1, h2⟩ := hk
  by_cases hm : matchOpAt k.data = true
  · have hmem := h2 hm
    simp only [List.mem_cons, List.mem_singleton, List.not_mem_nil, or_false] at hmem
    rcases hmem with rfl | rfl | rfl | rfl <;> decide
  · exfalso
    apply h1
    unfold startsWithDollar at hd ⊢
    cases hdata : k.data with
    | nil => simp [rewriteStr, hdata, rewriteFrom] at hd
    | cons c cs =>
      rw [hdata] at hm
      simp only [rewriteStr, hdata, rewriteFrom, hm, Bool.and_false, Bool.false_eq_true,
        if_false, List.head?_cons] at hd
      simpa using hd

/-- Counterexample to C3 as stated: the raw key `gt-x` becomes the key `$gt-x` of the predicate,
and the raw key `$ne` is kept; both begin with `$` and neither is one of `$gt`, `$gte`, `$lt`,
`$lte`. -/
theorem C3_counterexample_other_dollar_keys :
    filterPredicate [("gt-x", .str "1")] = some (QVal.obj [("$gt-x", .str "1")])
    ∧ "$gt-x" ∈ allKeys (QVal.obj [("$gt-x", .str "1")])
    ∧ startsWithDollar "$gt-x" ∧ "$gt-x" ∉ comparisonOperators
    ∧ filterPredicate [("price", .obj [("$ne", .str "100")])]
        = some (QVal.obj [("price", .obj [("$ne", .str "100")])])
    ∧ "$ne" ∈ allKeys (QVal.obj [("price", .obj [("$ne", .str "100")])])
    ∧ startsWithDollar "$ne" ∧ "$ne" ∉ comparisonOperators := by
  refine ⟨by rfl, by decide, by decide, by decide, by rfl, by decide, by decide, by decide⟩

/-- C3, amended: for every raw query string in which no key outside the reserved members, at any
depth, begins with `$` or begins with one of the words `gte`, `gt`, `lte`, `lt` followed by a
character that is not a word character, `filter` builds a predicate, and every key beginning with
`$` that occurs anywhere in the predicate is exactly one of `$gt`, `$gte`, `$lt`, `$lte`. -/
theorem C3_only_comparison_operators (qs : List (String × QVal))
    (hkeys : ∀ k ∈ allKeysMembers (withoutReserved qs), plainKey k) :
    ∃ pred, filterPredicate qs = some pred
      ∧ ∀ k ∈ allKeys pred, startsWithDollar k → k ∈ comparisonOperators := by
  refine ⟨_, filterPredicate_eq qs, ?_⟩
  intro k hk hd
  rw [foldl_deleteKey] at hk
  have h1 := allKeys_normalize _ k hk
  rw [allKeys_mapStrings] at h1
  obtain ⟨k0, hk0, rfl⟩ := List.mem_map.mp h1
  exact rewriteStr_plainKey k0 (hkeys k0 (by simpa [allKeys] using hk0)) hd

/-- Witness of C3: the price filter of the specification example. -/
theorem C3_only_comparison_operators_witness :
    ∃ pred, filterPredicate specExample = some pred
      ∧ ∀ k ∈ allKeys pred, startsWithDollar k → k ∈ comparisonOperators :=
  C3_only_comparison_operators specExample (by decide)

/-! ## Sorting -/

theorem splitOnChar_ne_nil (sep : Char) (l : List Char) : splitOnChar sep l ≠ [] := by
  cases l with
  | nil => simp [splitOnChar]
  | cons c cs =>
    unfold splitOnChar
    split
    · simp
    · split <;> simp

theorem splitOnChar_append_sep (sep : Char) (p rest : List Char) (hp : sep ∉ p) :
    splitOnChar sep (p ++ sep :: rest) = p :: splitOnChar sep rest := by
  induction p with
  | nil => simp [splitOnChar]
  | cons c cs ih =>
    have hc : c ≠ sep := fun h => hp (h ▸ List.mem_cons_self c cs)
    have hcs : sep ∉ cs := fun h => hp (List.mem_cons_of_mem c h)
    have e : splitOnChar sep (c :: (cs ++ sep :: rest))
        = (match splitOnChar sep (cs ++ sep :: rest) with
           | [] => [[c]]
           | p :: ps => (c :: p) :: ps) := by
      simp only [splitOnChar, if_neg hc]
    rw [List.cons_append, e, ih hcs]

theorem splitOnChar_no_sep (sep : Char) (p : List Char) (hp : sep ∉ p) :
    splitOnChar sep p = [p] := by
  induction p with
  | nil => simp [splitOnChar]
  | cons c cs ih =>
    have hc : c ≠ sep := fun h => hp (h ▸ List.mem_cons_self c cs)
    have hcs : sep ∉ cs := fun h => hp (List.mem_cons_of_mem c h)
    have e : splitOnChar sep (c :: cs)
        = (match splitOnChar sep cs with
           | [] => [[c]]
           | p :: ps => (c :: p) :: ps) := by
      simp only [splitOnChar, if_neg hc]
    rw [e, ih hcs]

theorem split_join (sep : Char) (fs : List (List Char)) (hne : fs ≠ [])
    (h : ∀ f ∈ fs, sep ∉ f) : splitOnChar sep (joinWith sep fs) = fs := by
  induction fs with
  | nil => exact absurd rfl hne
  | cons p ps ih =>
    cases ps with
    | nil => simpa [joinWith] using splitOnChar_no_sep sep p (h p (List.mem_cons_self _ _))
    | cons q qs =>
      simp only [joinWith]
      rw [splitOnChar_append_sep sep p _ (h p (List.mem_cons_self _ _)),
        ih (by simp) (fun f hf => h f (List.mem_cons_of_mem _ hf))]

theorem splitWhere_append_sep (p : Char → Bool) (f rest : List Char) (c : Char)
    (hc : p c = true) (hf : ∀ x ∈ f, p x = false) :
    splitWhere p (f ++ c :: rest) = f :: splitWhere p rest := by
  induction f with
  | nil => simp [splitWhere, hc]
  | cons x xs ih =>
    have hx : p x = false := hf x (List.mem_cons_self x xs)
    have hxs : ∀ y ∈ xs, p y = false := fun y hy => hf y (List.mem_cons_of_mem x hy)
    have e : splitWhere p (x :: (xs ++ c :: rest))
        = (match splitWhere p (xs ++ c :: rest) with
           | [] => [[x]]
           | g :: gs => (x :: g) :: gs) := by
      simp only [splitWhere, hx, Bool.false_eq_true, if_false]
    rw [List.cons_append, e, ih hxs]

theorem splitWhere_no_sep (p : Char → Bool) (f : List Char) (hf : ∀ x ∈ f, p x = false) :
    splitWhere p f = [f] := by
  induction f with
  | nil => simp [splitWhere]
  | cons x xs ih =>
    have hx : p x = false := hf x (List.mem_cons_self x xs)
    have hxs : ∀ y ∈ xs, p y = false := fun y hy => hf y (List.mem_cons_of_mem x hy)
    have e : splitWhere p (x :: xs)
        = (match splitWhere p xs with
           | [] => [[x]]
           | g :: gs => (x :: g) :: gs) := by
      simp only [splitWhere, hx, Bool.false_eq_true, if_false]
    rw [e, ih hxs]

theorem splitWhere_join (p : Char → Bool) (sep : Char) (hsep : p sep = true)
    (fs : List (List Char)) (hne : fs ≠ []) (h : ∀ f ∈ fs, ∀ x ∈ f, p x = false) :
    splitWhere p (joinWith sep fs) = fs := by
  induction fs with
  | nil => exact absurd rfl hne
  | cons f gs ih =>
    cases gs with
    | nil => simpa [joinWith] using splitWhere_no_sep p f (h f (List.mem_cons_self _ _))
    | cons g hs =>
      simp only [joinWith]
      rw [splitWhere_append_sep p f _ sep hsep (h f (List.mem_cons_self _ _)),
        ih (by simp) (fun f1 hf1 => h f1 (List.mem_cons_of_mem _ hf1))]

theorem setSortKey_fresh (k : String) (d : Bool) (o : List (String × Bool))
    (h : k ∉ o.map Prod.fst) : setSortKey k d o = o ++ [(k, d)] := by
  induction o with
  | nil => rfl
  | cons m rest ih =>
    obtain ⟨k1, d1⟩ := m
    have hk : ¬ k1 = k := fun e => h (by simp [e])
    have hrest : k ∉ rest.map Prod.fst := fun e => h (by simp [e])
    simp only [setSortKey, if_neg hk, ih hrest, List.cons_append]

theorem foldl_pushSort (fs : List (List Char)) :
    ∀ acc : List (String × Bool),
      (acc.map Prod.fst ++ fs.map (fun f => (fieldOrder f).1)).Nodup →
      (∀ f ∈ fs, (fieldOrder f).1 ≠ "__proto__") →
      fs.foldl pushSort acc = acc ++ fs.map fieldOrder := by
  induction fs with
  | nil => intro acc _ _; simp
  | cons f gs ih =>
    intro acc hnd hproto
    have hf : (fieldOrder f).1 ≠ "__proto__" := hproto f (List.mem_cons_self _ _)
    have hfresh : (fieldOrder f).1 ∉ acc.map Prod.fst := by
      intro hmem
      rw [List.nodup_append] at hnd
      exact hnd.2.2 hmem (by simp)
    have hstep : pushSort acc f = acc ++ [fieldOrder f] := by
      unfold pushSort
      rw [if_neg hf, setSortKey_fresh _ _ _ hfresh]
    rw [List.foldl_cons, hstep, ih (acc ++ [fieldOrder f]) ?_
      (fun g hg => hproto g (List.mem_cons_of_mem _ hg))]
    · simp
    · simpa [List.append_assoc] using hnd

theorem ownSortKeys_plain (o : List (String × Bool))
    (h : ∀ m ∈ o, isArrayIndex m.1 = false) : ownSortKeys o = o := by
  unfold ownSortKeys
  have h1 : o.filter (fun m => isArrayIndex m.1) = [] := by
    rw [List.filter_eq_nil_iff]
    intro m hm
    simp [h m hm]
  have h2 : o.filter (fun m => !isArrayIndex m.1) = o := by
    rw [List.filter_eq_self]
    intro m hm
    simp [h m hm]
  rw [h1, h2]
  rfl

theorem sortOrder_join (fs : List (List Char)) (hne : fs ≠ [])
    (h : ∀ f ∈ fs, f ≠ [] ∧ ∀ c ∈ f, isStrWhiteSpace c = false)
    (hpaths : (fs.map (fun f => (fieldOrder f).1)).Nodup)
    (hplain : ∀ f ∈ fs, plainSortPath (fieldOrder f).1 = true) :
    sortOrder (String.mk (joinWith ' ' fs)) = fs.map fieldOrder := by
  unfold sortOrder
  rw [splitWhere_join isStrWhiteSpace ' ' (by decide) fs hne (fun f hf => (h f hf).2)]
  have hkeep : fs.filter (fun f => f ≠ []) = fs := by
    apply List.filter_eq_self.mpr
    intro f hf
    simpa using (h f hf).1
  rw [hkeep, foldl_pushSort fs [] (by simpa using hpaths) ?_, List.nil_append]
  · apply ownSortKeys_plain
    intro m hm
    rw [List.mem_map] at hm
    obtain ⟨f, hf, hfm⟩ := hm
    have hp := hplain f hf
    rw [← hfm]
    unfold plainSortPath at hp
    simp only [Bool.and_eq_true, Bool.not_eq_true'] at hp
    exact hp.1.1.1
  · intro f hf hproto
    have hp := hplain f hf
    unfold plainSortPath at hp
    rw [hproto] at hp
    revert hp
    decide

/-- Counterexample to C6 as stated: when the `sort` parameter is present and empty, `sort`
orders by creation time descending, which is not the order of the fields of the (empty)
comma-separated list.  And mongoose keeps the sort as an object keyed by path: for
`price,-price` the path `price` is assigned twice, so the order is by price descending only;
for `name,1` the key `1` is an array index, which the object enumerates first, so the order is
by `1`, then by `name`. -/
theorem C6_counterexample_sort_fields :
    getProp "sort" [("sort", .str "")] = some (QVal.str "")
    ∧ (APIFeatures.sort ⟨Query.empty, [("sort", .str "")]⟩).map (fun a => a.query.sortArgs)
        = some ["-createdAt"]
    ∧ sortOrder "-createdAt" = [("createdAt", true)]
    ∧ sortOrder "-createdAt" ≠ (splitOnChar ',' "".data).map fieldOrder
    ∧ (APIFeatures.sort ⟨Query.empty, [("sort", .str "price,-price")]⟩).map
        (fun a => a.query.sortArgs.map sortOrder) = some [[("price", true)]]
    ∧ (splitOnChar ',' "price,-price".data).map fieldOrder
        = [("price", false), ("price", true)]
    ∧ (APIFeatures.sort ⟨Query.empty, [("sort", .str "name,1")]⟩).map
        (fun a => a.query.sortArgs.map sortOrder) = some [[("1", false), ("name", false)]]
    ∧ (splitOnChar ',' "name,1".data).map fieldOrder = [("name", false), ("1", false)] := by
  refine ⟨by rfl, by rfl, by decide, by decide, by decide, by decide, by decide, by decide⟩

/-- C6, amended: `sort` orders by creation time descending (`-createdAt`) whenever the `sort`
parameter is absent or the empty string; when it is a string whose comma-separated fields are
not empty, contain no white space, and name pairwise different paths none of which is an array
index or one of `__proto__`, `constructor`, `prototype`, `sort` orders by exactly those fields,
in the order given, a field being descending exactly when it is prefixed with `-`
(`-price,name` gives price descending, then name ascending). -/
theorem C6_sort_order (q : Query) (qs : List (String × QVal)) (s : String)
    (hsort : getProp "sort" qs = some (QVal.str s))
    (hfields : ∀ f ∈ splitOnChar ',' s.data, f ≠ [] ∧ ∀ c ∈ f, isStrWhiteSpace c = false)
    (hpaths : ((splitOnChar ',' s.data).map (fun f => (fieldOrder f).1)).Nodup)
    (hplain : ∀ f ∈ splitOnChar ',' s.data, plainSortPath (fieldOrder f).1 = true) :
    (∃ sortBy, APIFeatures.sort ⟨q, qs⟩ = some ⟨q.sort sortBy, qs⟩
      ∧ sortOrder sortBy = (splitOnChar ',' s.data).map fieldOrder)
    ∧ (∀ qs0, getProp "sort" qs0 = none ∨ getProp "sort" qs0 = some (QVal.str "") →
        APIFeatures.sort ⟨q, qs0⟩ = some ⟨q.sort "-createdAt", qs0⟩)
    ∧ sortOrder "-createdAt" = [("createdAt", true)]
    ∧ (APIFeatures.sort ⟨Query.empty, [("sort", .str "-price,name")]⟩).map
        (fun a => a.query.sortArgs.map sortOrder) = some [[("price", true), ("name", false)]] := by
  refine ⟨?_, ?_, by decide, by decide⟩
  · have hs : s ≠ "" := by
      intro h
      subst h
      exact (hfields [] (by simp [splitOnChar])).1 rfl
    refine ⟨String.mk (joinWith ' ' (splitOnChar ',' s.data)), ?_, ?_⟩
    · simp [APIFeatures.sort, hsort, truthy, splitJoin, hs]
    · exact sortOrder_join _ (splitOnChar_ne_nil ',' s.data) hfields hpaths hplain
  · intro qs0 h
    rcases h with h | h <;> simp [APIFeatures.sort, h, truthy]

/-- Witness of C6: the sort parameter `-price,name`. -/
theorem C6_sort_order_witness :
    ∃ sortBy, APIFeatures.sort ⟨Query.empty, [("sort", .str "-price,name")]⟩
        = some ⟨Query.empty.sort sortBy, [("sort", .str "-price,name")]⟩
      ∧ sortOrder sortBy = (splitOnChar ',' "-price,name".data).map fieldOrder :=
  (C6_sort_order Query.empty [("sort", .str "-price,name")] "-price,name" (by rfl)
    (by decide) (by decide) (by decide)).1

/-! ## Numbers -/

theorem bitLog_le (fuel : Nat) : ∀ n k, n < 2 ^ (k + 1) → bitLog fuel n ≤ k := by
  induction fuel with
  | zero => intro n k _; simp [bitLog]
  | succ f ih =>
    intro n k h
    unfold bitLog
    split
    · omega
    · rename_i h2
      cases k with
      | zero => simp at h; omega
      | succ k =>
        have : n / 2 < 2 ^ (k + 1) := by
          rw [pow_succ] at h
          omega
        have := ih (n / 2) k this
        omega

theorem floorLog2_one_le (n : Nat) (h : n < 2 ^ 53) : floorLog2 n 1 ≤ 52 := by
  have ha : log2Floor n ≤ 52 := bitLog_le n n 52 h
  have hb : log2Floor 1 = 0 := rfl
  unfold floorLog2
  simp only [hb]
  split
  · split <;> omega
  · omega

theorem safe_lt_overflowBound : 2 ^ 53 ≤ overflowBound := by
  norm_num [overflowBound]

theorem roundAt_int (neg : Bool) (n : Nat) (q : Int) (hq : q ≤ 0) (h : n < 2 ^ 53) :
    roundAt neg n 1 q = JSNum.fin (signed neg n) 0 := by
  obtain ⟨k, rfl⟩ := Int.exists_eq_neg_ofNat hq
  have hlt : ¬ overflowBound ≤ n := by
    have := safe_lt_overflowBound
    omega
  unfold roundAt
  cases k with
  | zero => simp [hlt, Nat.mod_one]
  | succ k =>
    have hpos : 0 < 2 ^ (k + 1) := Nat.pos_pow_of_pos (k + 1) (by decide : 0 < 2)
    have hneg : ¬ (0 : Int) ≤ -((k + 1 : Nat) : Int) := by omega
    have hle : -((k + 1 : Nat) : Int) ≤ 0 := by omega
    simp only [hneg, hle, if_true, if_false, Nat.div_one, Nat.mod_one, Nat.mul_zero,
      Nat.not_lt_zero, false_or, neg_neg, Int.toNat_ofNat]
    have h0 : ¬ ((0 : Nat) = 1 ∧ n * 2 ^ (k + 1) % 2 = 1) := by omega
    simp only [h0, if_false, Nat.gcd_mul_left_left, Nat.mul_div_cancel _ hpos, Nat.div_self hpos]
    rfl

theorem roundRat_int (neg : Bool) (n : Nat) (h : n < 2 ^ 53) :
    roundRat neg n 1 = JSNum.fin (signed neg n) 0 := by
  unfold roundRat
  split
  · rename_i h0; subst h0; cases neg <;> rfl
  · apply roundAt_int _ _ _ _ h
    have := floorLog2_one_le n h
    omega

theorem digitIn_of_isDigit (c : Char) (h : c.isDigit = true) :
    digitIn 10 c = some (c.toNat - 48) := by
  have h1 : 48 ≤ c.toNat ∧ c.toNat ≤ 57 := by
    simpa [Char.isDigit, Char.toNat, UInt32.le_def, Fin.le_def] using h
  have h2 : hexVal c = some (c.toNat - 48) := by
    unfold hexVal
    rw [if_pos]
    constructor
    · show (48 : Nat) ≤ c.toNat
      exact h1.1
    · show c.toNat ≤ 57
      exact h1.2
  unfold digitIn
  rw [h2]
  simp only
  rw [if_pos]
  omega

theorem readDigits_digits (l : List Char) (hl : ∀ c ∈ l, c.isDigit = true) :
    ∀ acc cnt, readDigits 10 acc cnt l
      = (l.foldl (fun a c => a * 10 + (c.toNat - 48)) acc, cnt + l.length, []) := by
  induction l with
  | nil => intro acc cnt; rfl
  | cons c cs ih =>
    intro acc cnt
    have hc := digitIn_of_isDigit c (hl c (List.mem_cons_self c cs))
    unfold readDigits
    rw [hc]
    simp only
    rw [ih (fun d hd => hl d (List.mem_cons_of_mem c hd))]
    simp only [List.foldl_cons, List.length_cons]
    congr 2
    omega

theorem not_whiteSpace_of_isDigit (c : Char) (h : c.isDigit = true) :
    isStrWhiteSpace c = false := by
  have h1 : 48 ≤ c.toNat ∧ c.toNat ≤ 57 := by
    simpa [Char.isDigit, Char.toNat, UInt32.le_def, Fin.le_def] using h
  unfold isStrWhiteSpace
  simp only [Bool.or_eq_false_iff, Bool.and_eq_false_imp, decide_eq_false_iff_not,
    decide_eq_true_eq]
  omega

theorem dropWhile_of_head (p : Char → Bool) (l : List Char) (h : ∀ c ∈ l, p c = false) :
    l.dropWhile p = l := by
  cases l with
  | nil => rfl
  | cons c cs => simp [List.dropWhile, h c (List.mem_cons_self c cs)]

theorem trimWhiteSpace_digits (l : List Char) (hl : ∀ c ∈ l, c.isDigit = true) :
    trimWhiteSpace l = l := by
  have h1 : ∀ c ∈ l, isStrWhiteSpace c = false :=
    fun c hc => not_whiteSpace_of_isDigit c (hl c hc)
  have h2 : ∀ c ∈ l.reverse, isStrWhiteSpace c = false :=
    fun c hc => h1 c (List.mem_reverse.mp hc)
  unfold trimWhiteSpace
  rw [dropWhile_of_head _ l h1, dropWhile_of_head _ _ h2, List.reverse_reverse]

theorem unsignedDecimal_digits (neg : Bool) (s : String) (hs : isDigitString s) :
    unsignedDecimal neg s.data = roundRat neg (decimalValue s) 1 := by
  obtain ⟨hne, hd⟩ := hs
  have hI : s.data ≠ ['I', 'n', 'f', 'i', 'n', 'i', 't', 'y'] := by
    intro h
    have := hd 'I' (by rw [h]; simp)
    exact absurd this (by decide)
  have hlen : s.data.length ≠ 0 := by
    intro h; exact hne (List.length_eq_zero.mp h)
  unfold unsignedDecimal
  rw [if_neg hI, readDigits_digits s.data hd]
  simp only [Nat.zero_add, hlen, if_false, exponentPart, scaleTen, le_refl, if_true,
    Int.toNat_zero, pow_zero, Nat.mul_one]
  rfl

theorem stringToNumber_digits (s : String) (hs : isDigitString s) :
    stringToNumber s.data = roundRat false (decimalValue s) 1 := by
  have hd := hs.2
  have hne := hs.1
  unfold stringToNumber
  rw [trimWhiteSpace_digits s.data hd]
  split
  · rename_i h; exact absurd h hne
  all_goals first
    | exact unsignedDecimal_digits false s hs
    | (rename_i h
       exfalso
       rw [h] at hd
       first
         | exact absurd (hd _ (List.mem_cons_self _ _)) (by decide)
         | exact absurd (hd _ (List.mem_cons_of_mem _ (List.mem_cons_self _ _))) (by decide))

theorem le_bitLog (fuel : Nat) : ∀ n k, 2 ^ k ≤ n → n ≤ fuel → k ≤ bitLog fuel n := by
  induction fuel with
  | zero =>
    intro n k h1 h2
    have : 0 < 2 ^ k := Nat.pos_pow_of_pos k (by decide)
    omega
  | succ f ih =>
    intro n k h1 h2
    unfold bitLog
    cases k with
    | zero => omega
    | succ k =>
      rw [pow_succ] at h1
      have hk : 0 < 2 ^ k := Nat.pos_pow_of_pos k (by decide)
      have hn : ¬ n < 2 := by omega
      rw [if_neg hn]
      have := ih (n / 2) k (by omega) (by omega)
      omega

theorem floorLog2_one_bounds (n : Nat) (h1 : 2 ^ 53 ≤ n) (h2 : n < 2 ^ 106) :
    52 ≤ floorLog2 n 1 ∧ floorLog2 n 1 ≤ 105 := by
  have ha : log2Floor n ≤ 105 := bitLog_le n n 105 h2
  have ha2 : 53 ≤ log2Floor n := le_bitLog n n 53 h1 (le_refl n)
  have hb : log2Floor 1 = 0 := rfl
  unfold floorLog2
  simp only [hb]
  split
  · split <;> omega
  · omega

theorem roundAt_nat (n : Nat) (q : Int) (h0 : 0 ≤ q) (h1 : q ≤ 53) (hn : n < 2 ^ 106) :
    ∃ m : Nat, roundAt false n 1 q = JSNum.fin (m : Int) 0 := by
  obtain ⟨k, rfl⟩ := Int.eq_ofNat_of_zero_le h0
  have hk : k ≤ 53 := by omega
  have hpow : 2 ^ k ≤ 2 ^ 53 := Nat.pow_le_pow_right (by decide) hk
  have hbig : 2 ^ 160 ≤ overflowBound := by norm_num [overflowBound]
  have key : ∀ m : Nat, m ≤ n + 1 → ¬ overflowBound ≤ m * 2 ^ k := by
    intro m hm
    have : m * 2 ^ k ≤ (2 ^ 106 + 1) * 2 ^ 53 := Nat.mul_le_mul (by omega) hpow
    have : (2 ^ 106 + 1) * 2 ^ 53 < 2 ^ 160 := by norm_num
    omega
  unfold roundAt
  simp only [h0, if_true, Int.toNat_ofNat]
  have hN : (if (k : Int) ≤ 0 then n * 2 ^ (-(k : Int)).toNat else n) = n := by
    split
    · have : k = 0 := by omega
      subst this
      simp
    · rfl
  rw [hN]
  generalize (if (k : Int) ≤ 0 then 1 else 1 * 2 ^ k) = D
  have hdiv : n / D ≤ n := Nat.div_le_self _ _
  generalize hm : (if D < 2 * (n % D) ∨ 2 * (n % D) = D ∧ n / D % 2 = 1 then n / D + 1
    else n / D) = m
  have hmle : m ≤ n + 1 := by
    rw [← hm]
    split <;> omega
  rw [if_neg (key m hmle)]
  exact ⟨m * 2 ^ k, rfl⟩

theorem roundRat_nat (n : Nat) (hn : n < 2 ^ 106) :
    ∃ m : Nat, roundRat false n 1 = JSNum.fin (m : Int) 0 := by
  rcases Nat.lt_or_ge n (2 ^ 53) with h | h
  · exact ⟨n, roundRat_int false n h⟩
  · unfold roundRat
    have hpos : 0 < 2 ^ 53 := by decide
    rw [if_neg (by omega)]
    have := floorLog2_one_bounds n h hn
    apply roundAt_nat n _ (by omega) (by omega) hn

theorem mul_nat (a b : Nat) :
    JSNum.mul (.fin (a : Int) 0) (.fin (b : Int) 0) = roundRat false (a * b) 1 := by
  have h1 : ¬ ((a : Int) < 0) := by omega
  have h2 : ¬ ((b : Int) < 0) := by omega
  simp [JSNum.mul, h1, h2]

theorem sub_one_nat (p : Nat) (hp : 1 ≤ p) :
    JSNum.sub (.fin (p : Int) 0) (.fin 1 0) = roundRat false (p - 1) 1 := by
  have h1 : ¬ ((p : Int) - 1 < 0) := by omega
  have h2 : ((p : Int) - 1).natAbs = p - 1 := by omega
  simp [JSNum.sub, h1, h2]

theorem orElse_pos (p : Nat) (hp : 1 ≤ p) (d : JSNum) :
    (JSNum.fin (p : Int) 0).orElse d = JSNum.fin (p : Int) 0 := by
  have : (p : Int) ≠ 0 := by omega
  simp [JSNum.orElse, JSNum.truthy, this]

theorem toNumber_digits (s : String) (hs : isDigitString s) (h : decimalValue s < 2 ^ 53) :
    toNumber (some (QVal.str s)) = some (JSNum.fin (decimalValue s : Int) 0) := by
  simp only [toNumber, toPrimitive, Option.map_some']
  rw [stringToNumber_digits s hs, roundRat_int false _ h]
  rfl

theorem pageOf_digits (qs : List (String × QVal)) (s : String)
    (hget : getProp "page" qs = some (QVal.str s)) (hs : isDigitString s)
    (h0 : 0 < decimalValue s) (h : decimalValue s < 2 ^ 53) :
    pageOf qs = some (JSNum.fin (decimalValue s : Int) 0) := by
  unfold pageOf
  rw [hget, toNumber_digits s hs h]
  have hm := mul_nat (decimalValue s) 1
  simp only [Nat.cast_one, Nat.mul_one] at hm
  simp only [Option.map_some', hm]
  rw [roundRat_int false _ h]
  exact congrArg some (orElse_pos _ h0 _)

theorem limitOf_digits (qs : List (String × QVal)) (s : String)
    (hget : getProp "limit" qs = some (QVal.str s)) (hs : isDigitString s)
    (h0 : 0 < decimalValue s) (h : decimalValue s < 2 ^ 53) :
    limitOf qs = some (JSNum.fin (decimalValue s : Int) 0) := by
  unfold limitOf
  rw [hget, toNumber_digits s hs h]
  have hm := mul_nat (decimalValue s) 1
  simp only [Nat.cast_one, Nat.mul_one] at hm
  simp only [Option.map_some', hm]
  rw [roundRat_int false _ h]
  exact congrArg some (orElse_pos _ h0 _)

theorem pageOf_missing (qs : List (String × QVal)) (h : missingOrNaN (getProp "page" qs)) :
    pageOf qs = some (JSNum.fin 1 0) := by
  have hn : toNumber (getProp "page" qs) = some JSNum.nan := by
    rcases h with h | h
    · rw [h]; rfl
    · exact h
  unfold pageOf
  rw [hn]
  rfl

theorem limitOf_missing (qs : List (String × QVal)) (h : missingOrNaN (getProp "limit" qs)) :
    limitOf qs = some (JSNum.fin 50 0) := by
  have hn : toNumber (getProp "limit" qs) = some JSNum.nan := by
    rcases h with h | h
    · rw [h]; rfl
    · exact h
  unfold limitOf
  rw [hn]
  rfl

theorem skipOf_nat (p l : Nat) (hp : 1 ≤ p) (hp2 : p < 2 ^ 53) :
    skipOf (.fin (p : Int) 0) (.fin (l : Int) 0) = roundRat false ((p - 1) * l) 1 := by
  unfold skipOf
  rw [sub_one_nat p hp, roundRat_int false (p - 1) (by omega)]
  exact mul_nat (p - 1) l

theorem skipOf_exact (p l : Nat) (hp : 1 ≤ p) (hp2 : p < 2 ^ 53)
    (h : (p - 1) * l < 2 ^ 53) :
    skipOf (.fin (p : Int) 0) (.fin (l : Int) 0) = JSNum.fin (((p - 1) * l : Nat) : Int) 0 := by
  rw [skipOf_nat p l hp hp2, roundRat_int false _ h]
  rfl

/-! ## Pagination -/

theorem paginate_of (q : Query) (qs : List (String × QVal)) (page limit : JSNum)
    (hp : pageOf qs = some page) (hl : limitOf qs = some limit) :
    APIFeatures.paginate ⟨q, qs⟩ = some ⟨(q.skip (skipOf page limit)).limit limit, qs⟩ := by
  simp [APIFeatures.paginate, hp, hl]

/-- Counterexample to C4 as stated: with page `1` and limit `9007199254740993`, both
positive-integer strings, `paginate` sets the limit 9007199254740992, not the integer the string
denotes. -/
theorem C4_counterexample_large_limit :
    isDigitString "1" ∧ isDigitString "9007199254740993"
    ∧ decimalValue "9007199254740993" = 9007199254740993
    ∧ (APIFeatures.paginate
        ⟨Query.empty, [("page", .str "1"), ("limit", .str "9007199254740993")]⟩).map
          (fun a => a.query.limitArg) = some (some (JSNum.fin 9007199254740992 0))
    ∧ (APIFeatures.paginate
        ⟨Query.empty, [("page", .str "1"), ("limit", .str "9007199254740993")]⟩).map
          (fun a => a.query.limitArg)
        ≠ some (some (JSNum.fin (decimalValue "9007199254740993" : Int) 0)) := by
  refine ⟨by decide, by decide, by decide, by decide, by decide⟩

/-- C4, amended: `paginate` uses page 1 when `page` is missing or non-numeric and limit 50 when
`limit` is missing or non-numeric; for page `p` and limit `l` given as strings of decimal digits
denoting positive integers, with `p`, `l` and `(p - 1) * l` below `2 ^ 53`, it sets
skip `(p - 1) * l` and limit `l`; page `2` with limit `10` gives skip 10 and limit 10, and no
parameters, or the non-numeric `abc` and `ten`, give skip 0 and limit 50. -/
theorem C4_paginate_safe_integers (q : Query) (qs : List (String × QVal)) (ps ls : String)
    (hpage : getProp "page" qs = some (QVal.str ps))
    (hlimit : getProp "limit" qs = some (QVal.str ls))
    (hps : isDigitString ps) (hls : isDigitString ls)
    (hp0 : 0 < decimalValue ps) (hl0 : 0 < decimalValue ls)
    (hp : decimalValue ps < 2 ^ 53) (hl : decimalValue ls < 2 ^ 53)
    (hskip : (decimalValue ps - 1) * decimalValue ls < 2 ^ 53) :
    APIFeatures.paginate ⟨q, qs⟩
      = some ⟨(q.skip (.fin (((decimalValue ps - 1) * decimalValue ls : Nat) : Int) 0)).limit
          (.fin (decimalValue ls : Int) 0), qs⟩
    ∧ (∀ qs0, missingOrNaN (getProp "page" qs0) → pageOf qs0 = some (JSNum.fin 1 0))
    ∧ (∀ qs0, missingOrNaN (getProp "limit" qs0) → limitOf qs0 = some (JSNum.fin 50 0))
    ∧ APIFeatures.paginate ⟨Query.empty, [("page", .str "2"), ("limit", .str "10")]⟩
        = some ⟨(Query.empty.skip (.fin 10 0)).limit (.fin 10 0),
            [("page", .str "2"), ("limit", .str "10")]⟩
    ∧ APIFeatures.paginate ⟨Query.empty, []⟩
        = some ⟨(Query.empty.skip (.fin 0 0)).limit (.fin 50 0), []⟩
    ∧ APIFeatures.paginate ⟨Query.empty, [("page", .str "abc"), ("limit", .str "ten")]⟩
        = some ⟨(Query.empty.skip (.fin 0 0)).limit (.fin 50 0),
            [("page", .str "abc"), ("limit", .str "ten")]⟩ := by
  refine ⟨?_, fun qs0 h => pageOf_missing qs0 h, fun qs0 h => limitOf_missing qs0 h, ?_, ?_,
    ?_⟩
  · rw [paginate_of q qs _ _ (pageOf_digits qs ps hpage hps hp0 hp)
      (limitOf_digits qs ls hlimit hls hl0 hl),
      skipOf_exact _ _ hp0 hp hskip]
  · rfl
  · rfl
  · rfl

/-- Witness of C4: page `3` and limit `20` give skip 40 and limit 20. -/
theorem C4_paginate_safe_integers_witness :
    APIFeatures.paginate ⟨Query.empty, [("page", .str "3"), ("limit", .str "20")]⟩
      = some ⟨(Query.empty.skip (.fin (((decimalValue "3" - 1) * decimalValue "20" : Nat) : Int)
          0)).limit (.fin (decimalValue "20" : Int) 0),
          [("page", .str "3"), ("limit", .str "20")]⟩ :=
  (C4_paginate_safe_integers Query.empty [("page", .str "3"), ("limit", .str "20")] "3" "20"
    (by rfl) (by rfl) (by decide) (by decide) (by decide) (by decide) (by decide) (by decide)
    (by decide)).1

/-- Counterexample to C5 as stated: for the raw parameter `page=-1` the page number used by
`paginate` is -1 and the computed offset is -100. -/
theorem C5_counterexample_negative_page :
    pageOf [("page", .str "-1")] = some (JSNum.fin (-1) 0)
    ∧ limitOf [("page", .str "-1")] = some (JSNum.fin 50 0)
    ∧ (APIFeatures.paginate ⟨Query.empty, [("page", .str "-1")]⟩).map
        (fun a => a.query.skipArg) = some (some (JSNum.fin (-100) 0)) := by
  refine ⟨by decide, by decide, by decide⟩

theorem safePositive_page (qs : List (String × QVal))
    (h : missingOrSafePositive (getProp "page" qs)) :
    ∃ p : Nat, 1 ≤ p ∧ p < 2 ^ 53 ∧ pageOf qs = some (JSNum.fin (p : Int) 0) := by
  rcases h with h | ⟨s, hget, hs, h0, hlt⟩
  · exact ⟨1, le_refl 1, by decide, pageOf_missing qs h⟩
  · exact ⟨decimalValue s, h0, hlt, pageOf_digits qs s hget hs h0 hlt⟩

theorem safePositive_limit (qs : List (String × QVal))
    (h : missingOrSafePositive (getProp "limit" qs)) :
    ∃ l : Nat, 1 ≤ l ∧ l < 2 ^ 53 ∧ limitOf qs = some (JSNum.fin (l : Int) 0) := by
  rcases h with h | ⟨s, hget, hs, h0, hlt⟩
  · exact ⟨50, by decide, by decide, limitOf_missing qs h⟩
  · exact ⟨decimalValue s, h0, hlt, limitOf_digits qs s hget hs h0 hlt⟩

/-- C5, amended: for every raw query string in which `page` and `limit` are each missing,
non-numeric, or a string of decimal digits denoting a positive integer below `2 ^ 53`, the page
number used by `paginate` is an integer `p ≥ 1`, the page size is an integer `l ≥ 1`, and the
offset passed to `skip` is a non-negative integer, equal to `(p - 1) * l` whenever that product
is below `2 ^ 53`. -/
theorem C5_page_limit_offset (q : Query) (qs : List (String × QVal))
    (hpage : missingOrSafePositive (getProp "page" qs))
    (hlimit : missingOrSafePositive (getProp "limit" qs)) :
    ∃ p l s : Nat, 1 ≤ p ∧ 1 ≤ l
      ∧ pageOf qs = some (JSNum.fin (p : Int) 0)
      ∧ limitOf qs = some (JSNum.fin (l : Int) 0)
      ∧ APIFeatures.paginate ⟨q, qs⟩
          = some ⟨(q.skip (.fin (s : Int) 0)).limit (.fin (l : Int) 0), qs⟩
      ∧ ((p - 1) * l < 2 ^ 53 → s = (p - 1) * l) := by
  obtain ⟨p, hp1, hp2, hp⟩ := safePositive_page qs hpage
  obtain ⟨l, hl1, hl2, hl⟩ := safePositive_limit qs hlimit
  have hprod : (p - 1) * l < 2 ^ 106 := by
    have h1 : (p - 1) * l ≤ 2 ^ 53 * 2 ^ 53 := Nat.mul_le_mul (by omega) (by omega)
    have h2 : 0 < (p - 1) * l ∨ (p - 1) * l = 0 := by omega
    rcases Nat.lt_or_ge ((p - 1) * l) (2 ^ 53 * 2 ^ 53) with h | h
    · have : (2 : Nat) ^ 53 * 2 ^ 53 = 2 ^ 106 := by norm_num
      omega
    · have h3 : (p - 1) * l < 2 ^ 53 * l := by
        apply Nat.mul_lt_mul_of_pos_right (by omega) (by omega)
      have h4 : 2 ^ 53 * l ≤ 2 ^ 53 * 2 ^ 53 := Nat.mul_le_mul_left _ (by omega)
      omega
  obtain ⟨s, hs⟩ := roundRat_nat ((p - 1) * l) hprod
  refine ⟨p, l, s, hp1, hl1, hp, hl, ?_, ?_⟩
  · rw [paginate_of q qs _ _ hp hl, skipOf_nat p l hp1 hp2, hs]
  · intro hsmall
    rw [roundRat_int false _ hsmall] at hs
    have : JSNum.fin (((p - 1) * l : Nat) : Int) 0 = JSNum.fin (s : Int) 0 := hs
    injection this with h1 _
    omega

/-- Witness of C5: page `3` with no limit. -/
theorem C5_page_limit_offset_witness :
    ∃ p l s : Nat, 1 ≤ p ∧ 1 ≤ l
      ∧ pageOf [("page", .str "3")] = some (JSNum.fin (p : Int) 0)
      ∧ limitOf [("page", .str "3")] = some (JSNum.fin (l : Int) 0)
      ∧ APIFeatures.paginate ⟨Query.empty, [("page", .str "3")]⟩
          = some ⟨(Query.empty.skip (.fin (s : Int) 0)).limit (.fin (l : Int) 0),
              [("page", .str "3")]⟩
      ∧ ((p - 1) * l < 2 ^ 53 → s = (p - 1) * l) :=
  C5_page_limit_offset Query.empty [("page", .str "3")]
    (Or.inr ⟨"3", rfl, by decide, by decide, by decide⟩) (Or.inl (Or.inl rfl))

/-! ## Tokens and password changes -/

theorem tdiv_sub_thousand_le_fdiv (t t1 : Int) (h : t ≤ t1) :
    ¬ (Int.fdiv t1 1000 < Int.tdiv (t - 1000) 1000) := by
  rw [Int.fdiv_eq_ediv t1 (by decide : (0 : Int) ≤ 1000)]
  rcases le_or_lt 1000 t with h1 | h1
  · rw [Int.tdiv_eq_ediv (by omega) (by decide)]
    omega
  · have h2 : Int.tdiv (t - 1000) 1000 = -(Int.tdiv (1000 - t) 1000) := by
      rw [← Int.neg_tdiv]; congr 1; omega
    rw [h2, Int.tdiv_eq_ediv (by omega) (by decide)]
    omega

/-- C10: after a password change saved at time `t`, which the pre-save hook records as
`t - 1000`, `changedPasswordAfter` is false for the issued-at second of every token issued at a
time `t1` not before `t`, so `protect` passes such a token on with the user; and
`changedPasswordAfter` is false for every issued-at when the user has no change time. -/
theorem C10_token_after_change_accepted (env : Env) (users : List User)
    (authorization : Option String) (token id : String) (user other : User) (t t1 iat : Int)
    (h : t ≤ t1) (hnone : other.passwordChangedAt = none)
    (htoken : bearerToken authorization = some token) (hne : token ≠ "")
    (hverify : env.jwtVerify token = Except.ok ⟨id, issuedAt t1⟩)
    (hfind : findOne users (fun u => u.id = id) = some (preSaveChangedAt true false t user)) :
    (preSaveChangedAt true false t user).passwordChangedAt = some (t - 1000)
    ∧ changedPasswordAfter (preSaveChangedAt true false t user) (issuedAt t1) = false
    ∧ protect env users authorization = Except.ok (preSaveChangedAt true false t user)
    ∧ changedPasswordAfter other iat = false := by
  have hc : changedPasswordAfter (preSaveChangedAt true false t user) (issuedAt t1) = false := by
    simp only [changedPasswordAfter, preSaveChangedAt, issuedAt, Bool.not_true, Bool.or_self,
      Bool.false_eq_true, if_false, decide_eq_false_iff_not]
    exact tdiv_sub_thousand_le_fdiv t t1 h
  refine ⟨rfl, hc, ?_, ?_⟩
  · simp [protect, htoken, hne, hverify, hfind, hc]
  · simp [changedPasswordAfter, hnone]

/-- Witness of C10: the sample user changes the password at 1699999999500 ms and presents a token
issued at 1700000000200 ms. -/
theorem C10_token_after_change_accepted_witness :
    (preSaveChangedAt true false 1699999999500 sampleUser).passwordChangedAt
        = some (1699999999500 - 1000)
    ∧ changedPasswordAfter (preSaveChangedAt true false 1699999999500 sampleUser)
        (issuedAt 1700000000200) = false
    ∧ protect sampleEnv [preSaveChangedAt true false 1699999999500 sampleUser]
        (some "Bearer abc") = Except.ok (preSaveChangedAt true false 1699999999500 sampleUser)
    ∧ changedPasswordAfter sampleUser 5 = false :=
  C10_token_after_change_accepted sampleEnv
    [preSaveChangedAt true false 1699999999500 sampleUser] (some "Bearer abc") "abc" "u1"
    sampleUser sampleUser 1699999999500 1700000000200 5 (by decide) (by rfl) (by decide)
    (by decide) (by rfl) (by rfl)

/-! ## Order of the stages -/

theorem filter_queryString (a b : APIFeatures) (h : a.filter = some b) :
    b.queryString = a.queryString := by
  unfold APIFeatures.filter at h
  split at h
  · cases h; rfl
  · cases h

theorem stage_comm (s1 s2 : Stage) (a : APIFeatures) :
    (s1.run a).bind s2.run = (s2.run a).bind s1.run := by
  cases s1 <;> cases s2 <;>
    simp only [Stage.run, APIFeatures.filter, APIFeatures.sort, APIFeatures.limitFields,
      APIFeatures.paginate] <;>
    (repeat' split) <;>
    simp_all [Option.bind, Query.find, Query.sort, Query.select, Query.skip, Query.limit]

theorem runStages_cons (s : Stage) (ss : List Stage) (a : APIFeatures) :
    runStages (s :: ss) a = (s.run a).bind (runStages ss) := by
  simp only [runStages]
  cases s.run a <;> rfl

theorem runStages_perm (l1 l2 : List Stage) (h : l1.Perm l2) :
    ∀ a, runStages l1 a = runStages l2 a := by
  induction h with
  | nil => intro a; rfl
  | cons x _ ih =>
    intro a
    rw [runStages_cons, runStages_cons]
    congr 1
    funext b
    exact ih b
  | swap x y l =>
    intro a
    rw [runStages_cons, runStages_cons]
    have e1 : (y.run a).bind (runStages (x :: l))
        = ((y.run a).bind x.run).bind (runStages l) := by
      cases y.run a with
      | none => rfl
      | some b => simp [Option.bind, runStages_cons]
    have e2 : (x.run a).bind (runStages (y :: l))
        = ((x.run a).bind y.run).bind (runStages l) := by
      cases x.run a with
      | none => rfl
      | some b => simp [Option.bind, runStages_cons]
    rw [e1, e2, stage_comm y x a]
  | trans _ _ ih1 ih2 => intro a; rw [ih1 a, ih2 a]

/-- C7: for every raw query string and base query, chaining the four stages in any order gives
the same result as the reference order filter, sort, limitFields, paginate (the same final query,
or a thrown error in both); and `filter` leaves the query string the later stages read as it
was. -/
theorem C7_stage_order_independent (a : APIFeatures) (order : List Stage)
    (h : order.Perm referenceOrder) :
    runStages order a = runStages referenceOrder a
    ∧ ∀ b, a.filter = some b → b.queryString = a.queryString :=
  ⟨runStages_perm order referenceOrder h a, fun b hb => filter_queryString a b hb⟩

/-- Witness of C7: the reversed order on the example of the specification. -/
theorem C7_stage_order_independent_witness :
    runStages [Stage.paginate, Stage.limitFields, Stage.sort, Stage.filter]
        ⟨Query.empty, specExample⟩
      = runStages referenceOrder ⟨Query.empty, specExample⟩
    ∧ ∀ b, APIFeatures.filter ⟨Query.empty, specExample⟩ = some b →
        b.queryString = (⟨Query.empty, specExample⟩ : APIFeatures).queryString :=
  C7_stage_order_independent ⟨Query.empty, specExample⟩
    [Stage.paginate, Stage.limitFields, Stage.sort, Stage.filter] (by decide)

/-! ## Tokens issued before a password change -/

theorem fdiv_lt_tdiv_sub_thousand (t0 t : Int) (h : t0 + 2000 ≤ t) :
    Int.fdiv t0 1000 < Int.tdiv (t - 1000) 1000 := by
  rw [Int.fdiv_eq_ediv t0 (by decide : (0 : Int) ≤ 1000)]
  rcases le_or_lt 1000 t with h1 | h1
  · rw [Int.tdiv_eq_ediv (by omega) (by decide)]
    omega
  · have h2 : Int.tdiv (t - 1000) 1000 = -(Int.tdiv (1000 - t) 1000) := by
      rw [← Int.neg_tdiv]; congr 1; omega
    rw [h2, Int.tdiv_eq_ediv (by omega) (by decide)]
    omega

/-- Counterexample to C11 as stated: a token issued at 1700000000000 ms and a password change
saved 500 ms later, at 1700000000500 ms.  The hook records the change at 1699999999500 ms,
`changedPasswordAfter` compares the issued-at second 1700000000 with 1699999999 and returns
false, and `protect` passes the old token on. -/
theorem C11_counterexample_change_within_a_second :
    (1700000000000 : Int) < 1700000000500
    ∧ issuedAt 1700000000000 = 1700000000
    ∧ changedPasswordAfter (preSaveChangedAt true false 1700000000500 sampleUser)
        (issuedAt 1700000000000) = false
    ∧ protect sampleEnv [preSaveChangedAt true false 1700000000500 sampleUser]
        (some "Bearer abc") = Except.ok (preSaveChangedAt true false 1700000000500 sampleUser) := by
  refine ⟨by decide, by decide, by decide, by rfl⟩

/-- C11, amended: for every token issued at time `t0` and every password change saved at a time
`t` at least two seconds later (`t0 + 2000 ≤ t`, in milliseconds), `changedPasswordAfter` applied
to the issued-at second of the token returns true once the change is saved, and `protect`
rejects the token with the status 401. -/
theorem C11_token_before_change_rejected (env : Env) (users : List User)
    (authorization : Option String) (token id : String) (user : User) (t0 t : Int)
    (h : t0 + 2000 ≤ t)
    (htoken : bearerToken authorization = some token) (hne : token ≠ "")
    (hverify : env.jwtVerify token = Except.ok ⟨id, issuedAt t0⟩)
    (hfind : findOne users (fun u => u.id = id) = some (preSaveChangedAt true false t user)) :
    changedPasswordAfter (preSaveChangedAt true false t user) (issuedAt t0) = true
    ∧ protect env users authorization
        = Except.error ⟨"User recently changed the password please login again!", 401⟩ := by
  have hc : changedPasswordAfter (preSaveChangedAt true false t user) (issuedAt t0) = true := by
    simp only [changedPasswordAfter, preSaveChangedAt, issuedAt, Bool.not_true, Bool.or_self,
      Bool.false_eq_true, if_false, decide_eq_true_eq]
    exact fdiv_lt_tdiv_sub_thousand t0 t h
  refine ⟨hc, ?_⟩
  simp [protect, htoken, hne, hverify, hfind, hc]

/-- Witness of C11: the token of the sample environment, issued in the second 1700000000, and a
password change saved three seconds later. -/
theorem C11_token_before_change_rejected_witness :
    changedPasswordAfter (preSaveChangedAt true false 1700000003000 sampleUser)
        (issuedAt 1700000000000) = true
    ∧ protect sampleEnv [preSaveChangedAt true false 1700000003000 sampleUser]
        (some "Bearer abc")
        = Except.error ⟨"User recently changed the password please login again!", 401⟩ :=
  C11_token_before_change_rejected sampleEnv
    [preSaveChangedAt true false 1700000003000 sampleUser] (some "Bearer abc") "abc" "u1"
    sampleUser 1700000000000 1700000003000 (by decide) (by decide) (by decide) (by rfl)
    (by rfl)

/-! ## Field filtering in the user controller -/

theorem jsonProp_of_mem (obj : List (String × Json)) (h : (obj.map Prod.fst).Nodup) :
    ∀ m ∈ obj, jsonProp m.1 obj = some m.2 := by
  induction obj with
  | nil => intro m hm; simp at hm
  | cons x xs ih =>
    obtain ⟨k, v⟩ := x
    simp only [List.map_cons, List.nodup_cons, List.mem_map, not_exists, not_and] at h
    intro m hm
    rcases List.mem_cons.mp hm with rfl | hm
    · simp [jsonProp]
    · have hne : ¬ k = m.1 := fun e => h.1 m hm e.symm
      simp only [jsonProp, if_neg hne]
      exact ih h.2 m hm

theorem setJsonMember_fresh (k : String) (v : Json) (o : List (String × Json))
    (h : k ∉ o.map Prod.fst) : setJsonMember k v o = o ++ [(k, v)] := by
  induction o with
  | nil => rfl
  | cons m ms ih =>
    obtain ⟨k1, v1⟩ := m
    simp only [List.map_cons, List.mem_cons, not_or] at h
    have hne : ¬ k1 = k := fun e => h.1 e.symm
    simp only [setJsonMember, if_neg hne, ih h.2, List.cons_append]

theorem pickField_skip (obj : List (String × Json)) (allowed : List String)
    (acc : List (String × Json)) (k : String)
    (h : allowed.contains k = false ∨ k = "__proto__") :
    pickField obj allowed acc k = acc := by
  unfold pickField
  split
  · split
    · rcases h with h | h
      · simp_all
      · simp [assignProp, h]
    · rfl
  · rfl

theorem pickField_take (obj : List (String × Json)) (allowed : List String)
    (acc : List (String × Json)) (k : String) (v : Json)
    (ha : allowed.contains k = true) (hp : k ≠ "__proto__") (hk : jsonProp k obj = some v) :
    pickField obj allowed acc k = setJsonMember k v acc := by
  unfold pickField
  rw [if_pos ha, hk]
  simp [assignProp, hp]

theorem filterObj_fold (obj : List (String × Json)) (allowed : List String)
    (ms : List (String × Json)) :
    ∀ acc : List (String × Json),
      (∀ m ∈ ms, jsonProp m.1 obj = some m.2) →
      ((acc ++ ms).map Prod.fst).Nodup →
      (ms.map Prod.fst).foldl (pickField obj allowed) acc
        = acc ++ ms.filter (fun m => allowed.contains m.1 && m.1 != "__proto__") := by
  induction ms with
  | nil => intro acc _ _; simp
  | cons m ms ih =>
    intro acc hget hnd
    obtain ⟨k, v⟩ := m
    have hk : jsonProp k obj = some v := hget (k, v) (List.mem_cons_self _ _)
    have hrest : ∀ m ∈ ms, jsonProp m.1 obj = some m.2 :=
      fun m hm => hget m (List.mem_cons_of_mem _ hm)
    have hfresh : k ∉ acc.map Prod.fst := by
      intro hm
      rw [List.map_append, List.map_cons] at hnd
      exact (List.nodup_append.mp hnd).2.2 hm (List.mem_cons_self _ _)
    have hnd2 : ((acc ++ ms).map Prod.fst).Nodup := by
      rw [List.map_append, List.map_cons] at hnd
      rw [List.map_append]
      exact List.Nodup.sublist
        (List.Sublist.append_left (List.sublist_cons_self _ _) _) hnd
    simp only [List.map_cons, List.foldl_cons]
    by_cases ha : allowed.contains k = true
    · by_cases hp : k = "__proto__"
      · have hf : (allowed.contains k && k != "__proto__") = false := by
          rw [ha]; simp [hp]
        rw [pickField_skip obj allowed acc k (Or.inr hp), ih acc hrest hnd2,
          List.filter_cons_of_neg (by show ¬ _ = true; rw [hf]; decide)]
      · have hf : (allowed.contains k && k != "__proto__") = true := by
          rw [ha]; simp [hp]
        rw [pickField_take obj allowed acc k v ha hp hk, setJsonMember_fresh k v acc hfresh,
          ih _ hrest (by simpa using hnd), List.filter_cons_of_pos (by exact hf)]
        simp
    · have ha2 : allowed.contains k = false := by simpa using ha
      have hf : (allowed.contains k && k != "__proto__") = false := by
        rw [ha2]; rfl
      rw [pickField_skip obj allowed acc k (Or.inl ha2), ih acc hrest hnd2,
        List.filter_cons_of_neg (by show ¬ _ = true; rw [hf]; decide)]

theorem filterObj_eq_filter (obj : List (String × Json)) (allowed : List String)
    (h : (obj.map Prod.fst).Nodup) :
    filterObj obj allowed
      = obj.filter (fun m => allowed.contains m.1 && m.1 != "__proto__") := by
  have := filterObj_fold obj allowed obj [] (jsonProp_of_mem obj h) (by simpa using h)
  simpa [filterObj] using this

theorem setJsonMember_keys (k : String) (v : Json) (o : List (String × Json)) :
    ∀ x ∈ (setJsonMember k v o).map Prod.fst, x = k ∨ x ∈ o.map Prod.fst := by
  induction o with
  | nil => intro x hx; simpa [setJsonMember] using hx
  | cons m ms ih =>
    obtain ⟨k1, v1⟩ := m
    intro x hx
    by_cases hk : k1 = k
    · simp only [setJsonMember, if_pos hk, List.map_cons, List.mem_cons] at hx
      simp only [List.map_cons, List.mem_cons]
      tauto
    · simp only [setJsonMember, if_neg hk, List.map_cons, List.mem_cons] at hx
      simp only [List.map_cons, List.mem_cons]
      rcases hx with hx | hx
      · tauto
      · have := ih x hx
        tauto

theorem pickField_keys (obj : List (String × Json)) (allowed : List String)
    (acc : List (String × Json)) (k : String) :
    ∀ x ∈ (pickField obj allowed acc k).map Prod.fst, x ∈ acc.map Prod.fst ∨ x ∈ allowed := by
  intro x hx
  by_cases ha : allowed.contains k = true
  · by_cases hp : k = "__proto__"
    · rw [pickField_skip obj allowed acc k (Or.inr hp)] at hx
      exact Or.inl hx
    · cases hv : jsonProp k obj with
      | none =>
        have : pickField obj allowed acc k = acc := by
          unfold pickField
          rw [if_pos ha, hv]
        rw [this] at hx
        exact Or.inl hx
      | some v =>
        rw [pickField_take obj allowed acc k v ha hp hv] at hx
        rcases setJsonMember_keys k v acc x hx with rfl | h2
        · exact Or.inr (by simpa using ha)
        · exact Or.inl h2
  · have ha2 : allowed.contains k = false := by simpa using ha
    rw [pickField_skip obj allowed acc k (Or.inl ha2)] at hx
    exact Or.inl hx

theorem filterObj_keys_fold (obj : List (String × Json)) (allowed : List String)
    (ks : List String) :
    ∀ acc : List (String × Json),
      ∀ x ∈ (ks.foldl (pickField obj allowed) acc).map Prod.fst,
        x ∈ acc.map Prod.fst ∨ x ∈ allowed := by
  induction ks with
  | nil => intro acc x hx; exact Or.inl hx
  | cons k ks ih =>
    intro acc x hx
    simp only [List.foldl_cons] at hx
    rcases ih _ x hx with h | h
    · exact pickField_keys obj allowed acc k x h
    · exact Or.inr h

theorem filterObj_keys (obj : List (String × Json)) (allowed : List String) :
    ∀ x ∈ (filterObj obj allowed).map Prod.fst, x ∈ allowed := by
  intro x hx
  rcases filterObj_keys_fold obj allowed (obj.map Prod.fst) [] x hx with h | h
  · simp at h
  · exact h

/-- Counterexample to C15 as stated: the object has the own key `__proto__` and the allowed list
names it, but the object `filterObj` returns has no such key, because the assignment
`newObj["__proto__"] = value` defines no own property. -/
theorem C15_counterexample_proto_key :
    filterObj [("__proto__", .str "x"), ("name", .str "Ann")] ["__proto__", "name"]
      = [("name", .str "Ann")]
    ∧ "__proto__" ∈ ([("__proto__", Json.str "x"), ("name", Json.str "Ann")].map Prod.fst)
    ∧ "__proto__" ∈ ["__proto__", "name"]
    ∧ "__proto__" ∉ ([("name", Json.str "Ann")].map Prod.fst) := by
  refine ⟨by rfl, by decide, by decide, by decide⟩

/-- C15, amended: for every object (its keys being distinct) and every list of allowed field
names, `filterObj` returns the members of the object whose key occurs in the allowed list and
is not `__proto__`, in the order of the object and each with the value it has in the input;
the input is only read.  Whatever the request body holds, the update that `updateMe` hands to
the store has no key other than `name` and `email`. -/
theorem C15_filterObj_allowed_fields (obj : List (String × Json)) (allowedFields : List String)
    (hkeys : (obj.map Prod.fst).Nodup) :
    filterObj obj allowedFields
      = obj.filter (fun m => allowedFields.contains m.1 && m.1 != "__proto__")
    ∧ (∀ k v, (k, v) ∈ filterObj obj allowedFields →
        k ∈ allowedFields ∧ jsonProp k obj = some v)
    ∧ (∀ body update, updateMe body = Except.ok update →
        ∀ k ∈ update.map Prod.fst, k = "name" ∨ k = "email") := by
  have heq := filterObj_eq_filter obj allowedFields hkeys
  refine ⟨heq, ?_, ?_⟩
  · intro k v hmem
    rw [heq] at hmem
    simp only [List.mem_filter, Bool.and_eq_true] at hmem
    obtain ⟨h1, h2, _⟩ := hmem
    exact ⟨by simpa using h2, jsonProp_of_mem obj hkeys (k, v) h1⟩
  · intro body update h k hk
    unfold updateMe at h
    split at h
    · cases h
    · cases h
      have := filterObj_keys body ["name", "email"] k hk
      simpa using this

/-- Witness of C15: a body that also carries a role. -/
theorem C15_filterObj_allowed_fields_witness :
    filterObj [("name", .str "Ann"), ("role", .str "admin")] ["name", "email"]
      = [("name", Json.str "Ann"), ("role", Json.str "admin")].filter
          (fun m => ["name", "email"].contains m.1 && m.1 != "__proto__") :=
  (C15_filterObj_allowed_fields [("name", .str "Ann"), ("role", .str "admin")]
    ["name", "email"] (by decide)).1

/-! ## Saving and the password reset -/

theorem saveUser_existing (crypto : Crypto) (lib : SchemaLib) (validate modified : Bool)
    (now : Int) (users : List User) (u u2 : User) (users1 : List User)
    (h : saveUser crypto lib validate modified false now users u = Except.ok (u2, users1)) :
    u2 = preSaveChangedAt modified false now (preSaveHash crypto modified u)
      ∧ users1 = replaceUser users u2 := by
  unfold saveUser at h
  split at h
  · cases h
  · simp only [Bool.false_eq_true, if_false, Except.ok.injEq, Prod.mk.injEq] at h
    obtain ⟨h1, h2⟩ := h
    subst h1
    exact ⟨rfl, h2.symm⟩

theorem saveUser_unvalidated (crypto : Crypto) (lib : SchemaLib) (now : Int)
    (users : List User) (u : User) :
    saveUser crypto lib false false false now users u = Except.ok (u, replaceUser users u) := by
  simp [saveUser, preSaveHash, preSaveChangedAt]

theorem replaceUser_twice (users : List User) (a b : User) (h : a.id = b.id) :
    replaceUser (replaceUser users a) b = replaceUser users b := by
  simp only [replaceUser, List.map_map]
  apply List.map_congr_left
  intro x _
  simp only [Function.comp]
  by_cases hx : x.id = a.id
  · simp [hx, h]
  · have hx2 : ¬ x.id = b.id := by rw [← h]; exact hx
    simp [hx, hx2]

/-- C13: in `forgotPassword`, when sending the email fails after the reset token was generated
and saved, the record saved next is the record of the user with `passwordResetToken` and
`passwordResetExpiresIn` unset and every other field as before the request, and the request ends
with the error of status 500; when the email is sent, the saved record carries the hash of the
token and the expiry. -/
theorem C13_forgotPassword_rollback (crypto : Crypto) (lib : SchemaLib) (users : List User)
    (now : Int) (resetToken email : String) (user : User)
    (hfind : findOne users (fun u => u.email = email) = some user) :
    forgotPassword crypto lib users now resetToken false email
      = ⟨Except.error (Failure.app ⟨"There was an error sending an email", 500⟩),
          replaceUser users
            { user with passwordResetToken := none, passwordResetExpiresIn := none }⟩
    ∧ forgotPassword crypto lib users now resetToken true email
      = ⟨Except.ok ⟨200, "Success", "Token sent to email!"⟩,
          replaceUser users
            { user with
              passwordResetToken := some (crypto.sha256Hex resetToken),
              passwordResetExpiresIn := some (now + 10 * 60 * 1000) }⟩ := by
  constructor
  · simp only [forgotPassword, hfind, createPasswordResetToken, saveUser_unvalidated,
      Bool.false_eq_true, if_false]
    rw [replaceUser_twice]
    rfl
  · simp only [forgotPassword, hfind, createPasswordResetToken, saveUser_unvalidated, if_true]

/-- Witness of C13: the sample user asks for a reset and the mail cannot be sent. -/
theorem C13_forgotPassword_rollback_witness :
    forgotPassword sampleCrypto sampleLib [sampleUser] 1700000000000 "c0ffee" false
        "ann@example.com"
      = ⟨Except.error (Failure.app ⟨"There was an error sending an email", 500⟩),
          replaceUser [sampleUser]
            { sampleUser with passwordResetToken := none, passwordResetExpiresIn := none }⟩ :=
  (C13_forgotPassword_rollback sampleCrypto sampleLib [sampleUser] 1700000000000 "c0ffee"
    "ann@example.com" sampleUser (by rfl)).1

/-! ## The reset token is used once -/

theorem findOne_some (users : List User) (p : User → Bool) (u : User)
    (h : findOne users p = some u) : u ∈ users ∧ u.active = true ∧ p u = true := by
  unfold findOne at h
  have h1 := List.mem_of_find?_eq_some h
  have h2 := List.find?_some h
  simp only [Bool.and_eq_true] at h2
  exact ⟨h1, h2.1, h2.2⟩

theorem findOne_none (users : List User) (p : User → Bool)
    (h : ∀ u ∈ users, p u = false) : findOne users p = none := by
  unfold findOne
  rw [List.find?_eq_none]
  intro u hu
  simp [h u hu]

theorem preSaveHash_fields (crypto : Crypto) (modified : Bool) (u : User) :
    (preSaveHash crypto modified u).id = u.id
      ∧ (preSaveHash crypto modified u).role = u.role
      ∧ (preSaveHash crypto modified u).active = u.active
      ∧ (preSaveHash crypto modified u).passwordResetToken = u.passwordResetToken
      ∧ (preSaveHash crypto modified u).passwordResetExpiresIn = u.passwordResetExpiresIn := by
  unfold preSaveHash
  split <;> simp

theorem preSaveChangedAt_fields (modified isNew : Bool) (now : Int) (u : User) :
    (preSaveChangedAt modified isNew now u).id = u.id
      ∧ (preSaveChangedAt modified isNew now u).role = u.role
      ∧ (preSaveChangedAt modified isNew now u).active = u.active
      ∧ (preSaveChangedAt modified isNew now u).passwordResetToken = u.passwordResetToken
      ∧ (preSaveChangedAt modified isNew now u).passwordResetExpiresIn
          = u.passwordResetExpiresIn
      ∧ (preSaveChangedAt modified isNew now u).password = u.password
      ∧ (preSaveChangedAt modified isNew now u).passwordConfirm = u.passwordConfirm := by
  unfold preSaveChangedAt
  split <;> simp

theorem resetTokenMatches_token (hashedToken : String) (now : Int) (u : User)
    (h : resetTokenMatches hashedToken now u = true) :
    u.passwordResetToken = some hashedToken
      ∧ ∃ expires, u.passwordResetExpiresIn = some expires ∧ now < expires := by
  unfold resetTokenMatches at h
  simp only [Bool.and_eq_true, decide_eq_true_eq] at h
  refine ⟨h.1, ?_⟩
  cases he : u.passwordResetExpiresIn with
  | none => rw [he] at h; simp at h
  | some e =>
    rw [he] at h
    exact ⟨e, rfl, by simpa using h.2⟩

theorem resetPassword_ok (crypto : Crypto) (lib : SchemaLib) (env : Env) (users : List User)
    (now signedAt : Int) (token : String) (body : List (String × Json))
    (resp : AuthResponse) (users1 : List User)
    (h : resetPassword crypto lib env users now signedAt token body = ⟨Except.ok resp, users1⟩) :
    ∃ user saved,
      findOne users (resetTokenMatches (crypto.sha256Hex token) now) = some user
        ∧ saved.id = user.id
        ∧ saved.passwordResetToken = none
        ∧ saved.passwordResetExpiresIn = none
        ∧ users1 = replaceUser users saved := by
  unfold resetPassword at h
  simp only at h
  cases hf : findOne users (resetTokenMatches (crypto.sha256Hex token) now) with
  | none => rw [hf] at h; simp at h
  | some user =>
    rw [hf] at h
    simp only at h
    cases hp : castPath lib "password" (jsonProp "password" body) with
    | error e => rw [hp] at h; simp at h
    | ok password =>
      cases hc : castPath lib "passwordConfirm" (jsonProp "passwordConfirm" body) with
      | error e => rw [hp, hc] at h; simp at h
      | ok passwordConfirm =>
        rw [hp, hc] at h
        simp only at h
        cases hs : saveUser crypto lib true true false now users
            { user with
              password := password,
              passwordConfirm := passwordConfirm,
              passwordResetToken := none,
              passwordResetExpiresIn := none } with
        | error e => rw [hs] at h; simp at h
        | ok r =>
          obtain ⟨user2, users2⟩ := r
          rw [hs] at h
          simp only [Outcome.mk.injEq, Except.ok.injEq] at h
          obtain ⟨hsaved, husers⟩ := saveUser_existing _ _ _ _ _ _ _ _ _ hs
          refine ⟨user, user2, rfl, ?_, ?_, ?_, ?_⟩
          · rw [hsaved, (preSaveChangedAt_fields _ _ _ _).1, (preSaveHash_fields _ _ _).1]
          · rw [hsaved, (preSaveChangedAt_fields _ _ _ _).2.2.2.1,
              (preSaveHash_fields _ _ _).2.2.2.1]
          · rw [hsaved, (preSaveChangedAt_fields _ _ _ _).2.2.2.2.1,
              (preSaveHash_fields _ _ _).2.2.2.2]
          · rw [← h.2, husers]

theorem replaceUser_token_gone (users : List User) (user saved : User) (hashedToken : String)
    (hid : saved.id = user.id) (htoken : saved.passwordResetToken = none)
    (huniq : ∀ u ∈ users, u.passwordResetToken = some hashedToken → u.id = user.id) :
    ∀ u ∈ replaceUser users saved, u.passwordResetToken ≠ some hashedToken := by
  intro u hu
  unfold replaceUser at hu
  rw [List.mem_map] at hu
  obtain ⟨x, hx, hxu⟩ := hu
  by_cases hxs : x.id = saved.id
  · rw [if_pos hxs] at hxu
    rw [← hxu, htoken]
    simp
  · rw [if_neg hxs] at hxu
    rw [← hxu]
    intro hcarry
    exact hxs ((huniq x hx hcarry).trans hid.symm)

/-- The request `forgotPassword` on a collection in which no record carries the hash of the
drawn token leaves that hash on the records of one identifier only. -/
theorem forgotPassword_token_owner (crypto : Crypto) (lib : SchemaLib) (users : List User)
    (now : Int) (resetToken email : String) (user : User)
    (hfind : findOne users (fun u => u.email = email) = some user)
    (hfresh : ∀ u ∈ users, u.passwordResetToken ≠ some (crypto.sha256Hex resetToken)) :
    ∀ u ∈ (forgotPassword crypto lib users now resetToken true email).users,
      u.passwordResetToken = some (crypto.sha256Hex resetToken) → u.id = user.id := by
  intro u hu hcarry
  simp only [forgotPassword, hfind, createPasswordResetToken, saveUser_unvalidated, if_true,
    replaceUser] at hu
  rw [List.mem_map] at hu
  obtain ⟨x, hx, hxu⟩ := hu
  by_cases hxs : x.id = user.id
  · rw [if_pos hxs] at hxu
    rw [← hxu]
  · rw [if_neg hxs] at hxu
    rw [← hxu] at hcarry
    exact absurd hcarry (hfresh x hx)

/-- C12: `resetPassword` finds the user by the SHA-256 hash of the presented token with a
stored expiry strictly later than now, and answers 'Token is invalid or expired' (400) without
any change when no record matches; a successful `resetPassword` saves the record with
`passwordResetToken` and `passwordResetExpiresIn` cleared; so, the hash of a generated token
being stored for one user only, every second `resetPassword` with the same token fails with
'Token is invalid or expired' (400) and changes nothing. -/
theorem C12_reset_token_single_use (crypto : Crypto) (lib : SchemaLib) (env : Env)
    (users : List User) (now signedAt : Int) (token : String) (body : List (String × Json))
    (resp : AuthResponse) (users1 : List User)
    (hfirst : resetPassword crypto lib env users now signedAt token body
      = ⟨Except.ok resp, users1⟩)
    (huniq : ∀ u ∈ users, ∀ v ∈ users,
      u.passwordResetToken = some (crypto.sha256Hex token) →
      v.passwordResetToken = some (crypto.sha256Hex token) → u.id = v.id) :
    (∃ user saved expires,
        findOne users (resetTokenMatches (crypto.sha256Hex token) now) = some user
        ∧ user ∈ users ∧ user.active = true
        ∧ user.passwordResetToken = some (crypto.sha256Hex token)
        ∧ user.passwordResetExpiresIn = some expires ∧ now < expires
        ∧ saved.id = user.id
        ∧ saved.passwordResetToken = none ∧ saved.passwordResetExpiresIn = none
        ∧ users1 = replaceUser users saved)
    ∧ (∀ (now2 signedAt2 : Int) (body2 : List (String × Json)),
        resetPassword crypto lib env users1 now2 signedAt2 token body2
          = ⟨Except.error (Failure.app ⟨"Token is invalid or expired", 400⟩), users1⟩)
    ∧ (∀ (anyUsers : List User) (now2 signedAt2 : Int) (body2 : List (String × Json)),
        (∀ u ∈ anyUsers, u.active = true →
          u.passwordResetToken = some (crypto.sha256Hex token) →
          ∀ expires, u.passwordResetExpiresIn = some expires → ¬ now2 < expires) →
        resetPassword crypto lib env anyUsers now2 signedAt2 token body2
          = ⟨Except.error (Failure.app ⟨"Token is invalid or expired", 400⟩), anyUsers⟩) := by
  obtain ⟨user, saved, hfind, hid, htoken, hexpiry, husers⟩ :=
    resetPassword_ok _ _ _ _ _ _ _ _ _ _ hfirst
  obtain ⟨hmem, hactive, hmatch⟩ := findOne_some _ _ _ hfind
  obtain ⟨hcarry, expires, hexp, hlater⟩ := resetTokenMatches_token _ _ _ hmatch
  refine ⟨⟨user, saved, expires, hfind, hmem, hactive, hcarry, hexp, hlater, hid, htoken,
    hexpiry, husers⟩, ?_, ?_⟩
  · intro now2 signedAt2 body2
    have hgone := replaceUser_token_gone users user saved (crypto.sha256Hex token) hid htoken
      (fun u hu hc => huniq u hu user hmem hc hcarry)
    rw [← husers] at hgone
    have hnone : findOne users1 (resetTokenMatches (crypto.sha256Hex token) now2) = none := by
      apply findOne_none
      intro u hu
      unfold resetTokenMatches
      simp [hgone u hu]
    simp only [resetPassword, hnone]
  · intro anyUsers now2 signedAt2 body2 hno
    have hnone : findOne anyUsers (resetTokenMatches (crypto.sha256Hex token) now2) = none := by
      unfold findOne
      rw [List.find?_eq_none]
      intro u hu hboth
      simp only [Bool.and_eq_true] at hboth
      obtain ⟨hc, e, he, hl⟩ := resetTokenMatches_token _ _ _ hboth.2
      exact hno u hu hboth.1 hc e he hl
    simp only [resetPassword, hnone]

/-- Witness of C12: the token `c0ffee`, generated for the sample user by `forgotPassword`,
resets the password once; presented again ten seconds later it is refused. -/
theorem C12_reset_token_single_use_witness :
    (forgotPassword sampleCrypto sampleLib [sampleUser] 1700000000000 "c0ffee" true
        "ann@example.com").users = [pendingResetUser]
    ∧ resetPassword sampleCrypto sampleLib sampleEnv [pendingResetUser] 1700000060000
        1700000061000 "c0ffee" newPasswordBody
      = ⟨Except.ok (createSendToken sampleEnv 1700000061000 afterResetUser 200),
          [afterResetUser]⟩
    ∧ resetPassword sampleCrypto sampleLib sampleEnv [afterResetUser] 1700000070000
        1700000071000 "c0ffee" newPasswordBody
      = ⟨Except.error (Failure.app ⟨"Token is invalid or expired", 400⟩), [afterResetUser]⟩ :=
  ⟨by rfl, by rfl,
   (C12_reset_token_single_use sampleCrypto sampleLib sampleEnv [pendingResetUser]
      1700000060000 1700000061000 "c0ffee" newPasswordBody
      (createSendToken sampleEnv 1700000061000 afterResetUser 200) [afterResetUser]
      (by rfl)
      (by
        intro u hu v hv _ _
        rw [List.mem_singleton] at hu hv
        rw [hu, hv])).2.1 1700000070000 1700000071000 newPasswordBody⟩

/-! ## Signup and the change of the password -/

theorem hooks_fields (crypto : Crypto) (modified isNew : Bool) (now : Int) (u : User) :
    (preSaveChangedAt modified isNew now (preSaveHash crypto modified u)).id = u.id
      ∧ (preSaveChangedAt modified isNew now (preSaveHash crypto modified u)).photo = u.photo
      ∧ (preSaveChangedAt modified isNew now (preSaveHash crypto modified u)).role = u.role
      ∧ (preSaveChangedAt modified isNew now (preSaveHash crypto modified u)).active = u.active
      ∧ (preSaveChangedAt modified isNew now (preSaveHash crypto modified u)).passwordResetToken
          = u.passwordResetToken
      ∧ (preSaveChangedAt modified isNew now
            (preSaveHash crypto modified u)).passwordResetExpiresIn
          = u.passwordResetExpiresIn := by
  unfold preSaveChangedAt preSaveHash
  split <;> split <;> simp

theorem saveUser_new (crypto : Crypto) (lib : SchemaLib) (validate modified : Bool)
    (now : Int) (users : List User) (u u2 : User) (users1 : List User)
    (h : saveUser crypto lib validate modified true now users u = Except.ok (u2, users1)) :
    u2 = preSaveChangedAt modified true now (preSaveHash crypto modified u)
      ∧ users1 = users ++ [u2] := by
  unfold saveUser at h
  split at h
  · cases h
  · simp only [if_true] at h
    split at h
    · cases h
    · simp only [Except.ok.injEq, Prod.mk.injEq] at h
      obtain ⟨h1, h2⟩ := h
      subst h1
      exact ⟨rfl, h2.symm⟩

theorem saveUser_validated (crypto : Crypto) (lib : SchemaLib) (modified isNew : Bool)
    (now : Int) (users : List User) (u : User) (r : User × List User)
    (h : saveUser crypto lib true modified isNew now users u = Except.ok r) :
    validateUser lib u = Except.ok () := by
  unfold saveUser at h
  simp only [if_true] at h
  cases hv : validateUser lib u with
  | error e => rw [hv] at h; cases h
  | ok x => rfl

theorem validateUser_password (lib : SchemaLib) (u : User)
    (h : validateUser lib u = Except.ok ()) :
    ∃ p, u.password = some p ∧ u.passwordConfirm = some p ∧ 8 ≤ utf16Length p := by
  unfold validateUser at h
  split at h
  · cases h
  · split at h
    · cases h
    · split at h
      · cases h
      · rename_i p hp
        split at h
        · cases h
        · rename_i hlen
          split at h
          · cases h
          · rename_i c hc
            split at h
            · cases h
            · rename_i hne
              refine ⟨p, hp, ?_, ?_⟩
              · rw [hc]
                by_contra hcp
                exact hne (Or.inr (fun hcp2 => hcp (by rw [hcp2])))
              · by_contra hl
                exact hlen (Or.inr (Nat.lt_of_not_le hl))

theorem createUser_ok (crypto : Crypto) (lib : SchemaLib) (users : List User) (now : Int)
    (newId : String) (fields : SignupFields) (newUser : User) (users1 : List User)
    (h : createUser crypto lib users now newId fields = Except.ok (newUser, users1)) :
    users1 = users ++ [newUser] ∧ newUser.id = newId ∧ newUser.role = "user"
      ∧ newUser.active = true ∧ newUser.photo = none
      ∧ newUser.passwordResetToken = none ∧ newUser.passwordResetExpiresIn = none := by
  unfold createUser at h
  split at h
  · obtain ⟨hsaved, husers⟩ := saveUser_new _ _ _ _ _ _ _ _ _ h
    refine ⟨husers, ?_, ?_, ?_, ?_, ?_, ?_⟩ <;> rw [hsaved]
    · exact (hooks_fields _ _ _ _ _).1
    · exact (hooks_fields _ _ _ _ _).2.2.1
    · exact (hooks_fields _ _ _ _ _).2.2.2.1
    · exact (hooks_fields _ _ _ _ _).2.1
    · exact (hooks_fields _ _ _ _ _).2.2.2.2.1
    · exact (hooks_fields _ _ _ _ _).2.2.2.2.2
  all_goals cases h

/-- C14: `signup` creates the user from the five listed fields only: for two bodies that agree
on `name`, `email`, `password`, `passwordConfirm` and `passwordChangedAt` it hands the same
object to `User.create` and has the same outcome; and every user created by `signup` has the
role `user`, is active, and has no photo and no reset token, whatever else the body holds. -/
theorem C14_signup_allow_list (crypto : Crypto) (lib : SchemaLib) (env : Env)
    (users : List User) (now signedAt : Int) (newId : String)
    (body1 body2 : List (String × Json))
    (hname : jsonProp "name" body1 = jsonProp "name" body2)
    (hemail : jsonProp "email" body1 = jsonProp "email" body2)
    (hpassword : jsonProp "password" body1 = jsonProp "password" body2)
    (hconfirm : jsonProp "passwordConfirm" body1 = jsonProp "passwordConfirm" body2)
    (hchanged : jsonProp "passwordChangedAt" body1 = jsonProp "passwordChangedAt" body2) :
    signupFields body1 = signupFields body2
    ∧ signup crypto lib env users now signedAt newId body1
        = signup crypto lib env users now signedAt newId body2
    ∧ (∀ (resp : AuthResponse) (users1 : List User),
        signup crypto lib env users now signedAt newId body1 = ⟨Except.ok resp, users1⟩ →
        resp.statusCode = 201 ∧ resp.user.role = "user"
          ∧ ∃ newUser, users1 = users ++ [newUser] ∧ newUser.id = newId
              ∧ newUser.role = "user" ∧ newUser.active = true ∧ newUser.photo = none
              ∧ newUser.passwordResetToken = none
              ∧ newUser.passwordResetExpiresIn = none) := by
  have hfields : signupFields body1 = signupFields body2 := by
    simp only [signupFields, hname, hemail, hpassword, hconfirm, hchanged]
  refine ⟨hfields, ?_, ?_⟩
  · simp only [signup, hfields]
  · intro resp users1 h
    unfold signup at h
    cases hc : createUser crypto lib users now newId (signupFields body1) with
    | error e => rw [hc] at h; simp at h
    | ok r =>
      obtain ⟨newUser, users2⟩ := r
      rw [hc] at h
      simp only [Outcome.mk.injEq, Except.ok.injEq] at h
      obtain ⟨h1, h2⟩ := h
      obtain ⟨husers, hid, hrole, hactive, hphoto, htoken, hexpiry⟩ :=
        createUser_ok _ _ _ _ _ _ _ _ hc
      subst h1
      refine ⟨rfl, hrole, newUser, ?_, hid, hrole, hactive, hphoto, htoken, hexpiry⟩
      rw [← h2, husers]

/-- Witness of C14: a body that asks for the role `admin` and the same body without the extra
fields. -/
theorem C14_signup_allow_list_witness :
    signupFields adminSignupBody = signupFields plainSignupBody
    ∧ signup sampleCrypto sampleLib sampleEnv [sampleUser] 1700000000000 1700000001000 "u2"
        adminSignupBody
      = signup sampleCrypto sampleLib sampleEnv [sampleUser] 1700000000000 1700000001000 "u2"
        plainSignupBody
    ∧ ((signup sampleCrypto sampleLib sampleEnv [sampleUser] 1700000000000 1700000001000 "u2"
        adminSignupBody).users.map (fun u => u.role)) = ["user", "user"] :=
  ⟨(C14_signup_allow_list sampleCrypto sampleLib sampleEnv [sampleUser] 1700000000000
      1700000001000 "u2" adminSignupBody plainSignupBody (by rfl) (by rfl) (by rfl) (by rfl)
      (by rfl)).1,
   (C14_signup_allow_list sampleCrypto sampleLib sampleEnv [sampleUser] 1700000000000
      1700000001000 "u2" adminSignupBody plainSignupBody (by rfl) (by rfl) (by rfl) (by rfl)
      (by rfl)).2.1,
   by decide⟩

theorem updatePassword_ok (crypto : Crypto) (lib : SchemaLib) (env : Env) (users : List User)
    (now signedAt : Int) (userId : String) (body : List (String × Json)) (user : User)
    (resp : AuthResponse) (users1 : List User)
    (hfind : findOne users (fun u => u.id = userId) = some user)
    (h : updatePassword crypto lib env users now signedAt userId body
      = ⟨Except.ok resp, users1⟩) :
    ∃ passwordCurrent password passwordConfirm saved,
      jsonProp "passwordCurrent" body = some (Json.str passwordCurrent)
        ∧ correctPassword env passwordCurrent user.password = true
        ∧ castPath lib "password" (jsonProp "password" body) = Except.ok password
        ∧ castPath lib "passwordConfirm" (jsonProp "passwordConfirm" body)
            = Except.ok passwordConfirm
        ∧ saveUser crypto lib true (decide (password ≠ user.password)) false now users
            { user with password := password, passwordConfirm := passwordConfirm }
            = Except.ok (saved, users1)
        ∧ resp = createSendToken env signedAt saved 200 := by
  unfold updatePassword at h
  rw [hfind] at h
  simp only at h
  split at h
  · rename_i passwordCurrent hcur
    split at h
    · simp at h
    · rename_i hverify
      split at h
      · rename_i password passwordConfirm hp hc
        split at h
        · rename_i saved users2 hs
          simp only [Outcome.mk.injEq, Except.ok.injEq] at h
          refine ⟨passwordCurrent, password, passwordConfirm, saved, hcur, ?_, hp, hc, ?_,
            h.1.symm⟩
          · simpa using hverify
          · rw [← h.2]
            exact hs
        · simp at h
      · simp at h
      · simp at h
  · simp at h

theorem updatePassword_error (crypto : Crypto) (lib : SchemaLib) (env : Env)
    (users : List User) (now signedAt : Int) (userId : String) (body : List (String × Json))
    (e : Failure) (users1 : List User)
    (h : updatePassword crypto lib env users now signedAt userId body
      = ⟨Except.error e, users1⟩) : users1 = users := by
  unfold updatePassword at h
  split at h
  · simp only [Outcome.mk.injEq] at h
    exact h.2.symm
  · split at h
    · split at h
      · simp only [Outcome.mk.injEq] at h
        exact h.2.symm
      · split at h
        · simp only at h
          split at h
          · simp at h
          · simp only [Outcome.mk.injEq] at h
            exact h.2.symm
        · simp only [Outcome.mk.injEq] at h
          exact h.2.symm
        · simp only [Outcome.mk.injEq] at h
          exact h.2.symm
    · simp only [Outcome.mk.injEq] at h
      exact h.2.symm

/-- Counterexample to C16: the user, whose current password verifies, posts the text of the
stored hash as the new password.  The assigned value equals the loaded one, so the password
does not count as modified and the hashing hook returns at once: the request succeeds with
status 200, the persisted password is the posted text itself and not its cost-12 hash, and
`passwordConfirm` is persisted. -/
theorem C16_counterexample_unmodified_password :
    ((updatePassword sampleCrypto sampleLib verifyingEnv [hashedUser] 1700000060000
        1700000061000 "u1" sameHashBody).result.toOption.map (fun r => r.statusCode)) = some 200
    ∧ jsonProp "password" sameHashBody = some (Json.str storedHash)
    ∧ ((updatePassword sampleCrypto sampleLib verifyingEnv [hashedUser] 1700000060000
        1700000061000 "u1" sameHashBody).users.map (fun u => u.password)) = [some storedHash]
    ∧ storedHash ≠ sampleCrypto.bcryptHash storedHash 12
    ∧ ((updatePassword sampleCrypto sampleLib verifyingEnv [hashedUser] 1700000060000
        1700000061000 "u1" sameHashBody).users.map (fun u => u.passwordConfirm))
        = [some storedHash] := by
  refine ⟨by decide, by rfl, by decide, by decide, by decide⟩

/-- C16, amended: `updatePassword` fails with 'Incorrect password' (401) and leaves the
collection unchanged when the supplied current password does not verify against the stored
hash, no failing request changes the collection, and a request succeeds only when the current
password verifies; when the request succeeds and the new password differs from the stored hash,
the record saved has the cost-12 hash of the new password as its password, no
`passwordConfirm`, and the change time one second before now. -/
theorem C16_updatePassword_rehashes (crypto : Crypto) (lib : SchemaLib) (env : Env)
    (users : List User) (now signedAt : Int) (userId : String) (body : List (String × Json))
    (user : User) (resp : AuthResponse) (users1 : List User)
    (hfind : findOne users (fun u => u.id = userId) = some user)
    (hdiff : castPath lib "password" (jsonProp "password" body) ≠ Except.ok user.password)
    (hok : updatePassword crypto lib env users now signedAt userId body
      = ⟨Except.ok resp, users1⟩) :
    (∃ passwordCurrent newPassword saved,
        jsonProp "passwordCurrent" body = some (Json.str passwordCurrent)
        ∧ correctPassword env passwordCurrent user.password = true
        ∧ castPath lib "password" (jsonProp "password" body) = Except.ok (some newPassword)
        ∧ saved.id = user.id
        ∧ saved.password = some (crypto.bcryptHash newPassword 12)
        ∧ saved.passwordConfirm = none
        ∧ saved.passwordChangedAt = some (now - 1000)
        ∧ users1 = replaceUser users saved
        ∧ resp = createSendToken env signedAt saved 200)
    ∧ (∀ (body2 : List (String × Json)) (passwordCurrent : String),
        jsonProp "passwordCurrent" body2 = some (Json.str passwordCurrent) →
        correctPassword env passwordCurrent user.password = false →
        updatePassword crypto lib env users now signedAt userId body2
          = ⟨Except.error (Failure.app ⟨"Incorrect password", 401⟩), users⟩)
    ∧ (∀ (body2 : List (String × Json)) (resp2 : AuthResponse) (users2 : List User),
        updatePassword crypto lib env users now signedAt userId body2
          = ⟨Except.ok resp2, users2⟩ →
        ∃ passwordCurrent, jsonProp "passwordCurrent" body2 = some (Json.str passwordCurrent)
          ∧ correctPassword env passwordCurrent user.password = true)
    ∧ (∀ (body2 : List (String × Json)) (e : Failure) (users2 : List User),
        updatePassword crypto lib env users now signedAt userId body2
          = ⟨Except.error e, users2⟩ → users2 = users) := by
  refine ⟨?_, ?_, ?_, ?_⟩
  · obtain ⟨passwordCurrent, password, passwordConfirm, saved, hcur, hverify, hp, hc, hs,
      hresp⟩ := updatePassword_ok _ _ _ _ _ _ _ _ _ _ _ hfind hok
    have hmod : decide (password ≠ user.password) = true := by
      rw [decide_eq_true_eq]
      intro heq
      exact hdiff (by rw [hp, heq])
    rw [hmod] at hs
    obtain ⟨p, hpw, hpc, _⟩ := validateUser_password _ _ (saveUser_validated _ _ _ _ _ _ _ _ hs)
    simp only at hpw
    obtain ⟨hsaved, husers⟩ := saveUser_existing _ _ _ _ _ _ _ _ _ hs
    refine ⟨passwordCurrent, p, saved, hcur, hverify, ?_, ?_, ?_, ?_, ?_, husers, hresp⟩
    · rw [hp, hpw]
    · rw [hsaved]
      simp [preSaveChangedAt, preSaveHash]
    · rw [hsaved]
      simp [preSaveChangedAt, preSaveHash, hpw]
    · rw [hsaved]
      simp [preSaveChangedAt, preSaveHash]
    · rw [hsaved]
      simp [preSaveChangedAt, preSaveHash]
  · intro body2 passwordCurrent hcur hwrong
    simp only [updatePassword, hfind, hcur, hwrong, Bool.not_false, if_true]
  · intro body2 resp2 users2 h2
    obtain ⟨passwordCurrent, _, _, _, hcur, hverify, _⟩ :=
      updatePassword_ok _ _ _ _ _ _ _ _ _ _ _ hfind h2
    exact ⟨passwordCurrent, hcur, hverify⟩
  · intro body2 e users2 h2
    exact updatePassword_error _ _ _ _ _ _ _ _ _ _ h2

/-- Witness of C16: the sample user, whose current password verifies, changes the password to
`newpass123`. -/
theorem C16_updatePassword_rehashes_witness :
    updatePassword sampleCrypto sampleLib verifyingEnv [sampleUser] 1700000060000
        1700000061000 "u1" changePasswordBody
      = ⟨Except.ok (createSendToken verifyingEnv 1700000061000 afterResetUser 200),
          [afterResetUser]⟩
    ∧ ∃ passwordCurrent newPassword saved,
        jsonProp "passwordCurrent" changePasswordBody = some (Json.str passwordCurrent)
        ∧ correctPassword verifyingEnv passwordCurrent sampleUser.password = true
        ∧ castPath sampleLib "password" (jsonProp "password" changePasswordBody)
            = Except.ok (some newPassword)
        ∧ saved.id = sampleUser.id
        ∧ saved.password = some (sampleCrypto.bcryptHash newPassword 12)
        ∧ saved.passwordConfirm = none
        ∧ saved.passwordChangedAt = some (1700000060000 - 1000)
        ∧ [afterResetUser] = replaceUser [sampleUser] saved
        ∧ createSendToken verifyingEnv 1700000061000 afterResetUser 200
            = createSendToken verifyingEnv 1700000061000 saved 200 :=
  ⟨by rfl,
   (C16_updatePassword_rehashes sampleCrypto sampleLib verifyingEnv [sampleUser]
      1700000060000 1700000061000 "u1" changePasswordBody sampleUser
      (createSendToken verifyingEnv 1700000061000 afterResetUser 200) [afterResetUser]
      (by rfl)
      (by
        rw [show castPath sampleLib "password" (jsonProp "password" changePasswordBody)
          = Except.ok (some "newpass123") from rfl]
        simp [sampleUser])
      (by rfl)).1⟩

end Natours
